import Mathlib

/-!
# ConANN: calibration and adaptive search on top of an IVF index

A shallow embedding of `conann/faiss/ConannCache.h` and of the calibration
functions of `conann/faiss/IndexIVF.cpp`, with theorems about them.

Modelling conventions.

* `std::vector<T>` is `List T`; `size_t` is a `Nat` below `2 ^ 64`.
* In the cache a `float` is its 32-bit IEEE-754 pattern (a `Nat` below `2 ^ 32`) and an
  `int64_t` is an `Int` written as 8 two's-complement bytes: the cache only moves bytes.
* The calibration arithmetic on `float` and `double` is modelled twice. The functions without
  suffix compute with exact rationals (`ℚ`). The functions with the suffix `_fl` round every
  `float` operation by an argument `fl`, the rounding of the machine, of which the theorems
  use the contract `IsRounding`; `roundF32` is the rounding of IEEE-754 binary32 arithmetic
  (round to nearest, ties to even) and meets the contract. With the rounding `fun x => x` a
  function with suffix is the function without. Infinities and NaN are not modelled: the
  theorems about rounded arithmetic bound the values that could overflow.
* `int` arithmetic is arithmetic on `Int`, without overflow.
* Libraries outside the repository are arguments of the functions that call them:
  `std::sort` (`IsStdSort`), the GSL root finder (`RootSolver`) and the heap functions of
  FAISS (`HeapLib`, `IsHeapLib`). `insertionSortBy`, `bisectionSolver` and `listHeap` are
  instances used to evaluate the definitions on concrete inputs.
* A call that can fail returns `Except Failure`; undefined behaviour (an access outside an
  array) is the value `Failure.undefined`.
-/

namespace ConannCache

/-! ## Byte streams -/

/-- The `w` low-order bytes of `x`, least significant first. -/
def leBytes : Nat → Nat → List Nat
  | 0, _ => []
  | w + 1, x => x % 256 :: leBytes w (x / 256)

/-- The number a little-endian byte string stands for. -/
def leValue : List Nat → Nat
  | [] => 0
  | b :: bs => b + 256 * leValue bs

/-- An input file stream: the bytes not yet consumed and the `good()` state. -/
structure IStream where
  bytes : List Nat
  good : Bool
deriving DecidableEq, Repr

/-- `file.read(buf, n)` on a buffer that currently holds `buf`: a stream that is not good
leaves the buffer alone; a short read stores the bytes that are left and clears `good`. -/
def IStream.read (file : IStream) (n : Nat) (buf : List Nat) : List Nat × IStream :=
  if file.good then
    if n ≤ file.bytes.length then
      (file.bytes.take n, { bytes := file.bytes.drop n, good := true })
    else
      (file.bytes ++ buf.drop file.bytes.length, { bytes := [], good := false })
  else
    (buf, file)

/-- Cut a buffer into `count` elements of `w` bytes each. -/
def chunks (w : Nat) : Nat → List Nat → List (List Nat)
  | 0, _ => []
  | count + 1, buf => buf.take w :: chunks w count (buf.drop w)

/-! ## Element types of the templates -/

/-- The types `T` the templates are instantiated at: `float`, `int64_t`, or `std::vector`
of such a type. -/
inductive Elem where
  | float : Elem
  | int64 : Elem
  | vector : Elem → Elem
deriving DecidableEq, Repr

/-- The values of an element type. -/
def Elem.Val : Elem → Type
  | .float => Nat
  | .int64 => Int
  | .vector t => List t.Val

/-- Bytes of an `int64_t`, two's complement, little-endian. -/
def int64Bytes (x : Int) : List Nat := leBytes 8 (x % 2 ^ 64).toNat

/-- The `int64_t` held in 8 bytes. -/
def int64OfBytes (bs : List Nat) : Int :=
  if leValue bs < 2 ^ 63 then (leValue bs : Int) else (leValue bs : Int) - 2 ^ 64

/-- The function `_write_nested_vector<T>(file, data)`: the size as a `size_t`, then either the raw
elements (innermost level) or each element in turn. The stream `file` is the bytes written so
far. -/
def _write_nested_vector : (T : Elem) → List Nat → List T.Val → List Nat
  | .float, file, data =>
      let file := file ++ leBytes 8 data.length
      file ++ data.flatMap (fun (x : Nat) => leBytes 4 x)
  | .int64, file, data =>
      let file := file ++ leBytes 8 data.length
      file ++ data.flatMap (fun (x : Int) => int64Bytes x)
  | .vector t, file, data =>
      let file := file ++ leBytes 8 data.length
      data.foldl (fun file element => _write_nested_vector t file element) file

/-- The loop `for (i = 0; i < size; i++) inner(file, data[i])` over freshly resized (empty)
elements. -/
def readElements {β : Type} (inner : IStream → β × IStream) : Nat → IStream → List β × IStream
  | 0, file => ([], file)
  | size + 1, file =>
      let r := inner file
      let rest := readElements inner size r.2
      (r.1 :: rest.1, rest.2)

/-- The function `_read_nested_vector<T>(file, data)` for an initially empty `data`: read the size,
resize, then read the raw elements or each element in turn. The local `size` and the resized
buffer are zero bytes before the read. -/
def _read_nested_vector : (T : Elem) → IStream → List T.Val × IStream
  | .float, file =>
      let s := file.read 8 (List.replicate 8 0)
      let size := leValue s.1
      let r := s.2.read (size * 4) (List.replicate (size * 4) 0)
      ((chunks 4 size r.1).map leValue, r.2)
  | .int64, file =>
      let s := file.read 8 (List.replicate 8 0)
      let size := leValue s.1
      let r := s.2.read (size * 8) (List.replicate (size * 8) 0)
      ((chunks 8 size r.1).map int64OfBytes, r.2)
  | .vector t, file =>
      let s := file.read 8 (List.replicate 8 0)
      let size := leValue s.1
      readElements (_read_nested_vector t) size s.2

/-! ## Files -/

/-- The files on disk, by path: `none` when the file cannot be opened. -/
abbrev FileSystem := String → Option (List Nat)

/-- The path of a cache entry. -/
def cachePath (key : String) : String := "./conann-cache/" ++ key

/-- The function `_write_to_file`: the file is created or truncated, written and closed. -/
def _write_to_file (T : Elem) (fs : FileSystem) (filename : String) (data : List T.Val) :
    FileSystem :=
  fun name => if name = filename then some (_write_nested_vector T [] data) else fs name

/-- The function `write_to_cache`. -/
def write_to_cache (T : Elem) (fs : FileSystem) (key : String) (data : List T.Val) :
    FileSystem :=
  _write_to_file T fs (cachePath key) data

/-- The function `_read_from_file`: throws when the file cannot be opened. -/
def _read_from_file (T : Elem) (fs : FileSystem) (filename : String) :
    Except String (List T.Val) :=
  match fs filename with
  | none => .error ("Could not open file: " ++ filename)
  | some bytes => .ok (_read_nested_vector T { bytes := bytes, good := true }).1

/-- The function `read_from_cache<std::vector<T>>`. -/
def read_from_cache (T : Elem) (fs : FileSystem) (key : String) : Except String (List T.Val) :=
  _read_from_file T fs (cachePath key)

/-- The function `check_cached_file`: whether the file opens. -/
def check_cached_file (fs : FileSystem) (key : String) : Bool :=
  (fs (cachePath key)).isSome

/-- What the C++ types guarantee of a value: every size fits a `size_t`, every `float` is a
32-bit pattern and every `int64_t` is in range. -/
def Storable : (T : Elem) → List T.Val → Prop
  | .float, (data : List Nat) => data.length < 2 ^ 64 ∧ ∀ x ∈ data, x < 2 ^ 32
  | .int64, (data : List Int) => data.length < 2 ^ 64 ∧ ∀ x ∈ data, -2 ^ 63 ≤ x ∧ x < 2 ^ 63
  | .vector t, data => data.length < 2 ^ 64 ∧ ∀ x ∈ data, Storable t x

/-- A three-level `int64_t` value with empty vectors at two levels. -/
def sampleIds : List (List (List Int)) := [[[1, -2], []], [], [[9223372036854775807]]]

/-- The 32-bit patterns of the floats `1.0f` and `2.0f`. -/
def sampleFloats : List Nat := [1065353216, 1073741824]

end ConannCache

namespace IndexIVF

/-! ## Sorting -/

/-- The postcondition of `std::sort(first, last, comp)`, the only thing the standard fixes: the
range is a permutation of what it was, and no element is ordered by `comp` before an element
that stands in front of it. The functions below take the sort as an argument `sort`, which
maps the range before the call to the range after it. -/
def IsStdSort {α : Type} (comp : α → α → Bool) (sort : List α → List α) : Prop :=
  ∀ l, (sort l).Perm l ∧ (sort l).Pairwise (fun a b => comp b a = false)

/-- The comparator of `regularize_scores`: `a.second < b.second` on (list id, score) pairs. -/
def scoreLess (a b : Nat × ℚ) : Bool := decide (a.2 < b.2)

/-- The comparator `std::less<>` on `std::pair<float, size_t>`: by score, then by list id. -/
def pairLess (a b : ℚ × Nat) : Bool :=
  decide (a.1 < b.1) || (!decide (b.1 < a.1) && decide (a.2 < b.2))

/-! ## Regularization -/

/-- The function `compute_ox`: the ranks `1, 2, ..., size`. -/
def compute_ox (sorted_classes : List (Nat × ℚ)) : List Int :=
  (List.range sorted_classes.length).map (fun (i : Nat) => (i : Int) + 1)

/-- The function `compute_regularization`: `lambda * std::max(0, ox_y - kreg)`. -/
def compute_regularization (ox_y : Int) (lambda : ℚ) (kreg : Int) : ℚ :=
  lambda * ((max 0 (ox_y - kreg) : Int) : ℚ)

/-- The local `sorted_classes` of `regularize_scores` after the call of `std::sort`: the pairs
(list id, score) of the first `K` entries of a row, sorted through reverse iterators with
`a.second < b.second`. -/
def sorted_classes (sort : List (Nat × ℚ) → List (Nat × ℚ)) (K : Nat) (row : List ℚ) :
    List (Nat × ℚ) :=
  (sort ((List.range K).map (fun j => (j, row.getD j 0))).reverse).reverse

/-- The body of the loop over `i` in `regularize_scores`: the row `E[i]` computed from the row
`s[i]`, in exact arithmetic; `regularize_row_fl` rounds each `float` operation. -/
def regularize_row (sort : List (Nat × ℚ) → List (Nat × ℚ)) (K : Nat) (row : List ℚ)
    (lambda_reg : ℚ) (kreg : Int) (max_reg_val : ℚ) : List ℚ :=
  let sc := sorted_classes sort K row
  let ox := compute_ox sc
  (List.range K).foldl
    (fun E j =>
      let original_class_index := (sc.getD j (0, 0)).1
      let Eij := 1 - row.getD original_class_index 0
      let Eij := Eij + compute_regularization (ox.getD j 0) lambda_reg kreg
      E.set original_class_index (Eij / max_reg_val))
    (List.replicate K 0)

/-- The function `regularize_scores(s, I, lambda_reg, kreg)` of an index with `n_list` lists.
The argument `I` is not read by the source and is left out. Reading `s[0]` of an empty matrix, or
an entry past the end of a row shorter than `s[0]`, is undefined in the source: `none`. The
arithmetic is exact; `regularize_scores_fl` rounds each `float` operation. -/
def regularize_scores (sort : List (Nat × ℚ) → List (Nat × ℚ)) (n_list : Int)
    (s : List (List ℚ)) (lambda_reg : ℚ) (kreg : Int) : Option (List (List ℚ)) :=
  match s with
  | [] => none
  | s0 :: _ =>
      let K := s0.length
      let max_reg_val := (1 + lambda_reg * ((n_list - kreg : Int) : ℚ)) + 10
      if s.all (fun row => decide (K ≤ row.length)) then
        some (s.map (fun row => regularize_row sort K row lambda_reg kreg max_reg_val))
      else none

/-! ## Predictions at a threshold -/

/-- The scan loop of `compute_predictions` from position `i` on, with its `break`. The state is
`(optimal_sc, index, num_cls_searched)`. -/
def admit_loop (lambda : ℚ) : List (ℚ × Nat) → Nat → ℚ × Nat × Int → ℚ × Nat × Int
  | [], _, st => st
  | x :: rest, i, st =>
      if x.1 ≤ lambda then admit_loop lambda rest (i + 1) (x.1, x.2, (i : Int) + 1) else st

/-- The local `indexed_sc` of `compute_predictions` after the sort. -/
def indexed_sc (sort : List (ℚ × Nat) → List (ℚ × Nat)) (sc : List ℚ) : List (ℚ × Nat) :=
  sort ((List.range sc.length).map (fun i => (sc.getD i 0, i)))

/-- The body of the loop over queries in `compute_predictions`: the prediction and the number of
clusters searched of the query with score row `sc` and snapshots `p`. -/
def compute_predictions_query (sort : List (ℚ × Nat) → List (ℚ × Nat)) (lambda : ℚ)
    (sc : List ℚ) (p : List (List Int)) : List Int × Int :=
  let isc := indexed_sc sort sc
  let st := admit_loop lambda isc 0 (-1, isc.length, 0)
  let index := st.2.1
  let num_cls_searched := st.2.2
  if index < sc.length ∧ num_cls_searched > 0 then (p.getD index [], num_cls_searched)
  else ([], -1)

/-- The function `compute_predictions(lambda, nonconf_scores, all_preds)`. -/
def compute_predictions (sort : List (ℚ × Nat) → List (ℚ × Nat)) (lambda : ℚ)
    (nonconf_scores : List (List ℚ)) (all_preds : List (List (List Int))) :
    List (List Int) × List Int :=
  let r := (List.range nonconf_scores.length).map (fun query_idx =>
    compute_predictions_query sort lambda (nonconf_scores.getD query_idx [])
      (all_preds.getD query_idx []))
  (r.map Prod.fst, r.map Prod.snd)

/-! ## Miss rates -/

/-- Conversion of a `faiss::idx_t` (64 bits) to `int` (32 bits). -/
def toInt32 (x : Int) : Int := (x + 2 ^ 31) % 2 ^ 32 - 2 ^ 31

/-- The constructor `std::set<int>(first, last)` over a range of `faiss::idx_t`: the distinct
values after conversion to `int`. -/
def int_set (ids : List Int) : List Int := (ids.map toInt32).dedup

/-- The body of the loop of `recall_per_query`: the miss rate of one query. -/
def recall_query (prediction gt : List Int) : ℚ :=
  let pred_set := int_set prediction
  let gt_set := int_set gt
  let intersection_size := (pred_set.filter (fun pred => decide (pred ∈ gt_set))).length
  1 - (intersection_size : ℚ) / (gt.length : ℚ)

/-- The function `recall_per_query(prediction_set, gt_labels)`. -/
def recall_per_query (prediction_set gt_labels : List (List Int)) : List ℚ :=
  (List.range prediction_set.length).map (fun i =>
    recall_query (prediction_set.getD i []) (gt_labels.getD i []))

/-- The function `false_negative_rate`: the mean of the per-query miss rates. -/
def false_negative_rate (prediction_set gt_labels : List (List Int)) : ℚ :=
  let fnrs_per_query := recall_per_query prediction_set gt_labels
  fnrs_per_query.sum / (fnrs_per_query.length : ℚ)

/-- The function `lamhat_threshold`; the argument `queries` is not read by the source. -/
def lamhat_threshold (sort : List (ℚ × Nat) → List (ℚ × Nat)) (lambda target_fnr : ℚ)
    (labels : List (List Int)) (nonconf_scores : List (List ℚ))
    (all_preds : List (List (List Int))) : ℚ :=
  let preds := (compute_predictions sort lambda nonconf_scores all_preds).1
  let fnr := false_negative_rate preds labels
  fnr - target_fnr

/-! ## A sort that meets the contract, and the rank of the specification -/

/-- Insertion sort by a comparator: one function that meets `IsStdSort` for the two comparators
above, used to evaluate the definitions. -/
def insertionSortBy {α : Type} (comp : α → α → Bool) (l : List α) : List α :=
  List.insertionSort (fun a b => comp b a = false) l

/-- The specification's `rank_of`: the 1-based position of list `l` in a ranking of the lists. -/
def rank_of (ranked : List (Nat × ℚ)) (l : Nat) : Nat :=
  (ranked.map Prod.fst).indexOf l + 1

/-! ## The probe loop of the score builder -/

/-- The value `*std::max_element(simi, simi + k)` for `k > 0`: the largest distance in the heap,
the distance of the current k-th neighbour. -/
def max_element (simi : List ℚ) : ℚ := simi.foldl max (simi.headD 0)

/-- The branch `all_preds_list != nullptr` of the body of the loop over `ik` in
`search_preassigned_with_error_quantification`, run after `scan_one_list` has updated the heap
`(simi, idxi)` of the query with the list `key`: the snapshot and the score of the probe are
stored at position `key` of the query's rows. -/
def record_probe (MAX_DISTANCE : ℚ) (key : Nat) (simi : List ℚ) (idxi : List Int)
    (nonconf : List ℚ) (all_preds : List (List Int)) : List ℚ × List (List Int) :=
  let score_k := max_element simi
  let all_preds := all_preds.set key idxi
  if score_k > MAX_DISTANCE then (nonconf.set key 1, all_preds)
  else (nonconf.set key (score_k / MAX_DISTANCE), all_preds)

/-- The specification's per-query miss rate, `1 - |predicted ∩ ground_truth| / |ground_truth|`,
over sets of 64-bit vector ids. -/
def spec_miss_rate (prediction gt : List Int) : ℚ :=
  1 - ((prediction.toFinset ∩ gt.toFinset).card : ℚ) / (gt.toFinset.card : ℚ)

/-! ## The threshold optimizer -/

/-- The empirical miss rate of a split at the threshold `lambda`: `compute_predictions` followed
by `false_negative_rate`. -/
def miss_rate (sort : List (ℚ × Nat) → List (ℚ × Nat)) (lambda : ℚ)
    (nonconf_scores : List (List ℚ)) (all_preds : List (List (List Int)))
    (labels : List (List Int)) : ℚ :=
  false_negative_rate (compute_predictions sort lambda nonconf_scores all_preds).1 labels

/-- The local `target_fnr` of `optimization` for `n = queries.size()`:
`(static_cast<float>(n) + 1.0f) / n * alpha - 1.0f / (n + 1.0f)`. -/
def target_fnr (n : Nat) (alpha : ℚ) : ℚ :=
  ((n : ℚ) + 1) / (n : ℚ) * alpha - 1 / ((n : ℚ) + 1)

/-- The function `F` that `optimization` hands to the root finder: `lamhat_threshold` at the
regularized scores and the target of the split. It is `none` where `regularize_scores` is
undefined. -/
def optimization_objective (sortR : List (Nat × ℚ) → List (Nat × ℚ))
    (sortP : List (ℚ × Nat) → List (ℚ × Nat)) (n_list : Int) (alpha : ℚ) (kreg : Int)
    (lambda_reg : ℚ) (queries : List (List ℚ)) (labels : List (List Int))
    (nonconf_scores : List (List ℚ)) (all_preds : List (List (List Int))) : Option (ℚ → ℚ) :=
  match regularize_scores sortR n_list nonconf_scores lambda_reg kreg with
  | none => none
  | some reg_nonconf_scores =>
      let n := queries.length
      some (fun lambda =>
        lamhat_threshold sortP lambda (target_fnr n alpha) labels reg_nonconf_scores all_preds)

/-- The calls of the GSL root finder that `optimization` makes. GSL is a library outside the
repository: its functions are taken as they are given, a solver state with the operations on
it, and `test_interval_continue lower upper` for
`gsl_root_test_interval(lower, upper, 1e-6, 1e-6) == GSL_CONTINUE`. -/
structure RootSolver where
  State : Type
  gsl_root_fsolver_set : (ℚ → ℚ) → ℚ → ℚ → State
  gsl_root_fsolver_iterate : (ℚ → ℚ) → State → State
  gsl_root_fsolver_root : State → ℚ
  gsl_root_fsolver_x_lower : State → ℚ
  gsl_root_fsolver_x_upper : State → ℚ
  test_interval_continue : ℚ → ℚ → Bool

/-- The `do ... while (status == GSL_CONTINUE && iter < max_iter)` loop of `optimization` with
`remaining = max_iter - iter` passes still allowed. -/
def optimization_loop (S : RootSolver) (F : ℚ → ℚ) : Nat → S.State → S.State
  | 0, st => st
  | remaining + 1, st =>
      let st := S.gsl_root_fsolver_iterate F st
      let lower_bound := S.gsl_root_fsolver_x_lower st
      let upper_bound := S.gsl_root_fsolver_x_upper st
      if S.test_interval_continue lower_bound upper_bound && decide (0 < remaining) then
        optimization_loop S F remaining st
      else st

/-- The solver state at the end of `optimization` for the objective `F`: set on `[0, 1]`, then
iterated at most `max_iter = 100` times. -/
def optimization_state (S : RootSolver) (F : ℚ → ℚ) : S.State :=
  optimization_loop S F 100 (S.gsl_root_fsolver_set F 0 1)

/-- The function `optimization`: the root the solver reports at the end of the loop. -/
def optimization (S : RootSolver) (sortR : List (Nat × ℚ) → List (Nat × ℚ))
    (sortP : List (ℚ × Nat) → List (ℚ × Nat)) (n_list : Int) (alpha : ℚ) (kreg : Int)
    (lambda_reg : ℚ) (queries : List (List ℚ)) (labels : List (List Int))
    (nonconf_scores : List (List ℚ)) (all_preds : List (List (List Int))) : Option ℚ :=
  match optimization_objective sortR sortP n_list alpha kreg lambda_reg queries labels
      nonconf_scores all_preds with
  | none => none
  | some F => some (S.gsl_root_fsolver_root (optimization_state S F))

/-- Along the order in which `compute_predictions` admits the lists of a query (ascending cost,
ties by list id) the miss rate of the stored snapshots does not increase. -/
def SnapshotsImprove (sc : List ℚ) (p : List (List Int)) (gt : List Int) : Prop :=
  ∀ a b, a < sc.length → b < sc.length →
    pairLess (sc.getD b 0, b) (sc.getD a 0, a) = false →
    recall_query (p.getD b []) gt ≤ recall_query (p.getD a []) gt

/-- A root finder that fits the interface, used to evaluate the definitions: bisection. The
state is `(lower, upper, root)`. -/
def bisectionSolver : RootSolver where
  State := ℚ × ℚ × ℚ
  gsl_root_fsolver_set := fun _ lower upper => (lower, upper, (lower + upper) / 2)
  gsl_root_fsolver_iterate := fun F st =>
    let mid := (st.1 + st.2.1) / 2
    if (0 < F st.1 ∧ 0 < F mid) ∨ (F st.1 < 0 ∧ F mid < 0) then (mid, st.2.1, mid)
    else (st.1, mid, mid)
  gsl_root_fsolver_root := fun st => st.2.2
  gsl_root_fsolver_x_lower := fun st => st.1
  gsl_root_fsolver_x_upper := fun st => st.2.1
  test_interval_continue := fun lower upper =>
    !decide (|upper - lower| < 1 / 1000000 + 1 / 1000000 * min |lower| |upper|)

/-! ## Loading and splitting the score matrix -/

/-- How a call can fail: a C++ exception, or behaviour the language leaves undefined (an access
outside an array). -/
inductive Failure where
  | thrown (msg : String) : Failure
  | undefined : Failure
deriving DecidableEq, Repr

/-- The cache key `cacheKeyNonConf` of `prep_execution`; `min_k` and `max_k` are the smallest and
largest entry of `ks`. -/
def cacheKeyNonConf (dataset_name : String) (n_list : Int) (ks : List Int) : String :=
  dataset_name ++ "_" ++ toString n_list ++ "_variable_k_" ++ toString (ks.foldl min (ks.headD 0))
    ++ "_" ++ toString (ks.foldl max (ks.headD 0)) ++ "_nonconf_scores"

/-- The cache key `cacheKeyAllPreds` of `prep_execution`. -/
def cacheKeyAllPreds (dataset_name : String) (n_list : Int) (ks : List Int) : String :=
  dataset_name ++ "_" ++ toString n_list ++ "_variable_k_" ++ toString (ks.foldl min (ks.headD 0))
    ++ "_" ++ toString (ks.foldl max (ks.headD 0)) ++ "_all_preds"

/-- The first part of `prep_execution`: the score matrix and the snapshots, read from the cache
or computed. `compute_scores` is the outcome of the call
`compute_scores(CalibrationResults{10, 0, 0}, nq, queries, ks)`; `floatBits` and `floatOfBits`
are the IEEE-754 encoding of a `float` and its inverse. The result holds the files on disk
after the call. -/
def prep_load (floatBits : ℚ → Nat) (floatOfBits : Nat → ℚ) (enable_cache : Bool)
    (fs : ConannCache.FileSystem) (dataset_name : String) (n_list : Int) (ks : List Int)
    (compute_scores : Except Failure (List (List ℚ) × List (List (List Int)))) :
    Except Failure (List (List ℚ) × List (List (List Int)) × ConannCache.FileSystem) :=
  let keyNonConf := cacheKeyNonConf dataset_name n_list ks
  let keyAllPreds := cacheKeyAllPreds dataset_name n_list ks
  if enable_cache && ConannCache.check_cached_file fs keyNonConf
      && ConannCache.check_cached_file fs keyAllPreds then
    match ConannCache.read_from_cache (ConannCache.Elem.vector ConannCache.Elem.float) fs
        keyNonConf with
    | .error msg => .error (Failure.thrown msg)
    | .ok (bits : List (List Nat)) =>
        match ConannCache.read_from_cache
            (ConannCache.Elem.vector (ConannCache.Elem.vector ConannCache.Elem.int64)) fs
            keyAllPreds with
        | .error msg => .error (Failure.thrown msg)
        | .ok (all_preds : List (List (List Int))) =>
            .ok (bits.map (fun row => row.map floatOfBits), all_preds, fs)
  else
    match compute_scores with
    | .error e => .error e
    | .ok (all_nonconf_scores, all_preds) =>
        if enable_cache then
          let fs := ConannCache.write_to_cache (ConannCache.Elem.vector ConannCache.Elem.float)
            fs keyNonConf (all_nonconf_scores.map (fun row => row.map floatBits))
          let fs := ConannCache.write_to_cache
            (ConannCache.Elem.vector (ConannCache.Elem.vector ConannCache.Elem.int64))
            fs keyAllPreds all_preds
          .ok (all_nonconf_scores, all_preds, fs)
        else .ok (all_nonconf_scores, all_preds, fs)

/-- The members of the index that `prep_execution` fills. -/
structure Splits where
  calib_cx : List (List ℚ)
  calib_labels : List (List Int)
  calib_nonconf : List (List ℚ)
  calib_preds : List (List (List Int))
  tune_cx : List (List ℚ)
  tune_labels : List (List Int)
  tune_nonconf : List (List ℚ)
  tune_preds : List (List (List Int))
  test_cx : List (List ℚ)
  test_labels : List (List Int)
  test_nonconf : List (List ℚ)
  test_preds : List (List (List Int))

/-- The value `size_t(frac * nq)` for the exact product: the product cut to a whole number;
`split_size_fl` rounds the product first, as the `float` multiplication does. -/
def split_size (frac : ℚ) (nq : Nat) : Nat := Int.toNat ⌊frac * (nq : ℚ)⌋

/-- The `d` floats copied from `queries + i * d`. -/
def query_row (d : Nat) (queries : List ℚ) (i : Nat) : List ℚ := (queries.drop (i * d)).take d

/-- The second part of `prep_execution`: the three parts are cut out of the queries, the ground
truth, the score matrix and the snapshots by query index. -/
def prep_split (d : Nat) (calib_sz tune_sz : ℚ) (queries : List ℚ) (nq : Nat)
    (gt : List (List Int)) (all_nonconf_scores : List (List ℚ))
    (all_preds : List (List (List Int))) : Splits :=
  let calib_nq := split_size calib_sz nq
  let tune_nq := split_size tune_sz nq
  let test_nq := nq - calib_nq - tune_nq
  { calib_cx := (List.range calib_nq).map (fun i => query_row d queries i)
    calib_labels := gt.take calib_nq
    calib_nonconf := all_nonconf_scores.take calib_nq
    calib_preds := all_preds.take calib_nq
    tune_cx := (List.range tune_nq).map (fun i => query_row d queries (i + calib_nq))
    tune_labels := (gt.drop calib_nq).take tune_nq
    tune_nonconf := (all_nonconf_scores.drop calib_nq).take tune_nq
    tune_preds := (all_preds.drop calib_nq).take tune_nq
    test_cx := (List.range test_nq).map (fun i => query_row d queries (i + calib_nq + tune_nq))
    test_labels := gt.drop (calib_nq + tune_nq)
    test_nonconf := all_nonconf_scores.drop (calib_nq + tune_nq)
    test_preds := all_preds.drop (calib_nq + tune_nq) }

/-- The function `prep_execution`: load or compute, then split. -/
def prep_execution (floatBits : ℚ → Nat) (floatOfBits : Nat → ℚ) (enable_cache : Bool)
    (fs : ConannCache.FileSystem) (dataset_name : String) (n_list : Int) (d : Nat)
    (compute_scores : Except Failure (List (List ℚ) × List (List (List Int))))
    (calib_sz tune_sz : ℚ) (queries : List ℚ) (nq : Nat) (gt : List (List Int))
    (ks : List Int) : Except Failure (Splits × ConannCache.FileSystem) :=
  match prep_load floatBits floatOfBits enable_cache fs dataset_name n_list ks compute_scores with
  | .error e => .error e
  | .ok (all_nonconf_scores, all_preds, fs) =>
      .ok (prep_split d calib_sz tune_sz queries nq gt all_nonconf_scores all_preds, fs)

/-- A disk that holds the scores file of the dataset `sift` with 2 lists and `k = 1`, but not its
snapshots file. -/
def scoresOnlyDisk : ConannCache.FileSystem :=
  fun name =>
    if name = ConannCache.cachePath (cacheKeyNonConf "sift" 2 [1]) then
      some (ConannCache._write_nested_vector
        (ConannCache.Elem.vector ConannCache.Elem.float) [] [ConannCache.sampleFloats])
    else none

/-! ## Evaluation and the choice of `lambda_reg` -/

/-- The struct `CalibrationResults`. -/
structure CalibrationResults where
  lamhat : ℚ
  kreg : Int
  regLambda : ℚ

/-- The function `evaluate(params, queries, labels, nonconf_scores, all_preds)`: the per-query
miss rates and the clusters searched at `params.lamhat`; the argument `queries` is not read by
the source. It is `none` where `regularize_scores` is undefined. -/
def evaluate (sortR : List (Nat × ℚ) → List (Nat × ℚ)) (sortP : List (ℚ × Nat) → List (ℚ × Nat))
    (n_list : Int) (params : CalibrationResults) (labels : List (List Int))
    (nonconf_scores : List (List ℚ)) (all_preds : List (List (List Int))) :
    Option (List ℚ × List Int) :=
  match regularize_scores sortR n_list nonconf_scores params.regLambda params.kreg with
  | none => none
  | some reg_nonconf_scores =>
      let r := compute_predictions sortP params.lamhat reg_nonconf_scores all_preds
      some (recall_per_query r.1 labels, r.2)

/-- Conversion of a `float` to `int`: the fractional part is discarded. -/
def truncate (x : ℚ) : Int := if 0 ≤ x then ⌊x⌋ else ⌈x⌉

/-- The grid `lambda_values` of `pick_lambda_reg`. -/
def lambda_values : List ℚ := [0, 1 / 1000, 1 / 100, 1 / 10]

/-- The first half of the loop body of `pick_lambda_reg` for the candidate `temp_lambda`:
`optimization` and `evaluate` on the tuning part, then the two averages
`(average_fnr, avg_cls_searched)`. -/
def candidate_averages (S : RootSolver) (sortR : List (Nat × ℚ) → List (Nat × ℚ))
    (sortP : List (ℚ × Nat) → List (ℚ × Nat)) (n_list : Int) (alpha : ℚ) (kreg : Int)
    (tune_cx : List (List ℚ)) (tune_labels : List (List Int)) (tune_nonconf : List (List ℚ))
    (tune_preds : List (List (List Int))) (temp_lambda : ℚ) : Option (ℚ × ℚ) :=
  match optimization S sortR sortP n_list alpha kreg temp_lambda tune_cx tune_labels
      tune_nonconf tune_preds with
  | none => none
  | some lamhat =>
      match evaluate sortR sortP n_list
          { lamhat := lamhat, kreg := kreg, regLambda := temp_lambda }
          tune_labels tune_nonconf tune_preds with
      | none => none
      | some (fnrs, cls) =>
          some (fnrs.sum / (fnrs.length : ℚ),
            (cls.map (fun c => (c : ℚ))).sum / (cls.length : ℚ))

/-- The second half of the loop body of `pick_lambda_reg`: the update of
`(best_size, lambda_star)`. The variable `best_size` is an `int`. -/
def pick_lambda_reg_update (alpha : ℚ) (st : Int × ℚ) (temp_lambda average_fnr
    avg_cls_searched : ℚ) : Int × ℚ :=
  if avg_cls_searched < (st.1 : ℚ) ∧ average_fnr ≤ alpha then
    (truncate avg_cls_searched, temp_lambda)
  else st

/-- The loop of `pick_lambda_reg` over the candidates, from the state `(best_size, lambda_star)`;
`averages` gives the two averages of a candidate. -/
def pick_lambda_reg_loop (alpha : ℚ) (averages : ℚ → Option (ℚ × ℚ)) :
    List ℚ → Int × ℚ → Option (Int × ℚ)
  | [], st => some st
  | temp_lambda :: rest, st =>
      match averages temp_lambda with
      | none => none
      | some (average_fnr, avg_cls_searched) =>
          pick_lambda_reg_loop alpha averages rest
            (pick_lambda_reg_update alpha st temp_lambda average_fnr avg_cls_searched)

/-- The function `pick_lambda_reg(alpha, kreg)` on the tuning part of the index. -/
def pick_lambda_reg (S : RootSolver) (sortR : List (Nat × ℚ) → List (Nat × ℚ))
    (sortP : List (ℚ × Nat) → List (ℚ × Nat)) (n_list : Int) (alpha : ℚ) (kreg : Int)
    (tune_cx : List (List ℚ)) (tune_labels : List (List Int)) (tune_nonconf : List (List ℚ))
    (tune_preds : List (List (List Int))) : Option ℚ :=
  match pick_lambda_reg_loop alpha
      (candidate_averages S sortR sortP n_list alpha kreg tune_cx tune_labels tune_nonconf
        tune_preds) lambda_values (n_list, 0) with
  | none => none
  | some st => some st.2

/-- The score rows of a tuning part of two queries over four lists. -/
def tuningScores : List (List ℚ) :=
  [[9 / 10, 1 / 2, 9 / 20, 2 / 5], [9 / 10, 11 / 20, 101 / 200, 1 / 10]]

/-- The snapshots of the two tuning queries: the first query finds its neighbour `1` from the
second list on, the second query finds its neighbour `2` in the first list. -/
def tuningPreds : List (List (List Int)) := [[[0], [1], [1], [1]], [[2], [2], [2], [2]]]

/-- The local `avg_cls_searched` of `pick_lambda_reg`: the mean of the clusters searched. -/
def avg_cls_searched (cls : List Int) : ℚ :=
  (cls.map (fun c => (c : ℚ))).sum / (cls.length : ℚ)

/-- The functions of `faiss/utils/Heap.h` that the search calls. The file is outside the
repository, so the functions are taken as they are given. A heap is the pair of the arrays
`(simi, idxi)`; `heap_heapify ip k` and `heap_reorder ip` stand for the instances at
`HeapForIP` (`ip = true`) and `HeapForL2` (`ip = false`). -/
structure HeapLib where
  heap_heapify : Bool → Nat → List ℚ × List Int → List ℚ × List Int
  maxheap_replace_top : List ℚ × List Int → ℚ → Int → List ℚ × List Int
  minheap_replace_top : List ℚ × List Int → ℚ → Int → List ℚ × List Int
  heap_reorder : Bool → List ℚ × List Int → List ℚ × List Int

/-- What the search of one query reads of the index and of the scanner set to that query:
`lists key` holds, for every code of the inverted list `key` in storage order, the value of
`distance_to_code` and the id. The model covers `store_pairs = false`, no id selector and
inverted lists without iterator; `max_codes` is the value after `0` has been replaced by
`unlimited_list_size`. -/
structure SearchIndex where
  nlist : Nat
  metric_inner_product : Bool
  keep_max : Bool
  do_heap_init : Bool
  max_codes : Int
  MAX_DISTANCE : ℚ
  lists : Nat → List (ℚ × Int)

/-- The function `InvertedListScanner::scan_codes` on the codes of a list: the heap after the
scan and the number `nup` of heap updates. -/
def scan_codes (H : HeapLib) (keep_max : Bool) (codes : List (ℚ × Int))
    (heap : List ℚ × List Int) : (List ℚ × List Int) × Nat :=
  codes.foldl
    (fun (acc : (List ℚ × List Int) × Nat) (c : ℚ × Int) =>
      if !keep_max then
        if c.1 < acc.1.1.headD 0 then (H.maxheap_replace_top acc.1 c.1 c.2, acc.2 + 1)
        else acc
      else
        if c.1 > acc.1.1.headD 0 then (H.minheap_replace_top acc.1 c.1 c.2, acc.2 + 1)
        else acc)
    (heap, 0)

/-- The local function `scan_one_list(key, coarse_dis_i, simi, idxi, list_size_max)`: the heap
after the call, the value returned and the counter `nlistv`. The comparison
`list_size > list_size_max` is made in `size_t`. -/
def scan_one_list (H : HeapLib) (ix : SearchIndex) (key : Int) (heap : List ℚ × List Int)
    (list_size_max : Int) (nlistv : Nat) :
    Except Failure ((List ℚ × List Int) × Nat × Nat) :=
  if key < 0 then .ok (heap, 0, nlistv)
  else if ¬ key < (ix.nlist : Int) then
    .error (Failure.thrown
      ("Invalid key=" ++ toString key ++ " nlist=" ++ toString ix.nlist ++ "\n"))
  else if (ix.lists key.toNat).isEmpty then .ok (heap, 0, nlistv)
  else
    let list_size := (ix.lists key.toNat).length
    let list_size :=
      if (list_size : Int) > list_size_max % 2 ^ 64 then (list_size_max % 2 ^ 64).toNat
      else list_size
    .ok ((scan_codes H ix.keep_max ((ix.lists key.toNat).take list_size) heap).1, list_size,
      nlistv + 1)

/-- The variables of the loop over `ik` for one query. -/
structure ProbeState where
  simi : List ℚ
  idxi : List Int
  prev_simi : List ℚ
  prev_idxi : List Int
  nscan : Int
  nlistv : Nat
  nonconf : List ℚ
  all_preds : List (List Int)
deriving DecidableEq

/-- The local `max_reg_val` of the early-stopping branch; `nlist - kreg` is computed in
`size_t`. -/
def max_reg_val (nlist : Nat) (cal_params : CalibrationResults) : ℚ :=
  (1 + cal_params.regLambda * ((((nlist : Int) - cal_params.kreg) % 2 ^ 64 : Int) : ℚ)) + 10

/-- The local `reg_score_k` of the early-stopping branch at probe `ik` for the heap distances
`simi`; the argument `ik + 1` of `compute_regularization` is converted to `int`. -/
def reg_score_k (nlist : Nat) (MAX_DISTANCE : ℚ) (cal_params : CalibrationResults) (ik : Nat)
    (simi : List ℚ) : ℚ :=
  let score_k := max_element simi
  let nonconf_score := min (score_k / MAX_DISTANCE) 1
  ((1 - nonconf_score)
    + compute_regularization (toInt32 ((ik : Int) + 1)) cal_params.regLambda cal_params.kreg)
    / max_reg_val nlist cal_params

/-- The body of the loop over `ik` in `search_preassigned_with_error_quantification` for one
query (`n = 1`, so `keys` holds the `nprobe` list ids of the query): the state after the pass
and whether the loop goes on. `record` is `all_preds_list != nullptr`. Reading `keys` past its
end and writing a score or snapshot outside the arrays of the query are undefined. -/
def probe_step (H : HeapLib) (ix : SearchIndex) (cal_params : CalibrationResults)
    (record : Bool) (keys : List Int) (ik : Nat) (st : ProbeState) :
    Except Failure (ProbeState × Bool) :=
  match keys[ik]? with
  | none => .error Failure.undefined
  | some key =>
      match scan_one_list H ix key (st.simi, st.idxi) (ix.max_codes - st.nscan) st.nlistv with
      | .error e => .error e
      | .ok (heap, scanned, nlistv) =>
          let st := { st with simi := heap.1, idxi := heap.2,
                              nscan := st.nscan + (scanned : Int), nlistv := nlistv }
          if st.nscan ≥ ix.max_codes then .ok (st, false)
          else if !record then
            if cal_params.lamhat ≤ 1 ∧
                reg_score_k ix.nlist ix.MAX_DISTANCE cal_params ik st.simi > cal_params.lamhat then
              .ok ({ st with simi := st.prev_simi, idxi := st.prev_idxi }, false)
            else .ok ({ st with prev_simi := st.simi, prev_idxi := st.idxi }, true)
          else if 0 ≤ key ∧ key.toNat < st.all_preds.length ∧ key.toNat < st.nonconf.length then
            let r := record_probe ix.MAX_DISTANCE key.toNat st.simi st.idxi st.nonconf st.all_preds
            .ok ({ st with nonconf := r.1, all_preds := r.2,
                           prev_simi := st.simi, prev_idxi := st.idxi }, true)
          else .error Failure.undefined

/-- The loop `for (size_t ik = 0; ik < nlist; ik++)` from `ik` on, with `remaining = nlist - ik`
passes to go. -/
def probe_loop (H : HeapLib) (ix : SearchIndex) (cal_params : CalibrationResults)
    (record : Bool) (keys : List Int) : Nat → Nat → ProbeState → Except Failure ProbeState
  | 0, _, st => .ok st
  | remaining + 1, ik, st =>
      match probe_step H ix cal_params record keys ik st with
      | .error e => .error e
      | .ok (st, true) => probe_loop H ix cal_params record keys remaining (ik + 1) st
      | .ok (st, false) => .ok st

/-- The result heap at the start of the loop: `init_result` on the arrays `distances` and
`labels` of the caller. -/
def init_result (H : HeapLib) (ix : SearchIndex) (k : Nat) (heap : List ℚ × List Int) :
    List ℚ × List Int :=
  if ix.do_heap_init then H.heap_heapify ix.metric_inner_product k heap else heap

/-- The local function `reorder_result`. -/
def reorder_result (H : HeapLib) (ix : SearchIndex) (heap : List ℚ × List Int) :
    List ℚ × List Int :=
  if ix.do_heap_init then H.heap_reorder ix.metric_inner_product heap else heap

/-- The body of the loop over the queries in `search_preassigned_with_error_quantification` for
one query with `k` neighbours asked: the state at the end of the loop over `ik`, with the
result `(distances, labels)` after `reorder_result`. -/
def search_query (H : HeapLib) (ix : SearchIndex) (cal_params : CalibrationResults)
    (record : Bool) (keys : List Int) (k : Nat) (distances : List ℚ) (labels : List Int)
    (nonconf : List ℚ) (all_preds : List (List Int)) : Except Failure ProbeState :=
  let heap := init_result H ix k (distances, labels)
  match probe_loop H ix cal_params record keys ix.nlist 0
      { simi := heap.1, idxi := heap.2, prev_simi := heap.1, prev_idxi := heap.2,
        nscan := 0, nlistv := 0, nonconf := nonconf, all_preds := all_preds } with
  | .error e => .error e
  | .ok st =>
      let heap := reorder_result H ix (st.simi, st.idxi)
      .ok { st with simi := heap.1, idxi := heap.2 }

/-- The heap of the query after the lists of the first `j` probes have been scanned in full. -/
def heap_after (H : HeapLib) (ix : SearchIndex) (keys : List Int) (heap : List ℚ × List Int)
    (j : Nat) : List ℚ × List Int :=
  (keys.take j).foldl (fun h key => (scan_codes H ix.keep_max (ix.lists key.toNat) h).1) heap

/-- The number of codes in the lists of the first `j` probes. -/
def codes_upto (ix : SearchIndex) (keys : List Int) (j : Nat) : Nat :=
  ((keys.take j).map (fun key => (ix.lists key.toNat).length)).sum

/-- The number of non-empty lists among the first `j` probes. -/
def lists_upto (ix : SearchIndex) (keys : List Int) (j : Nat) : Nat :=
  (keys.take j).countP (fun key => !(ix.lists key.toNat).isEmpty)

/-- The quantizer has ranked all `nlist` lists for the query (`nprobe >= nlist` valid list ids),
and `max_codes` does not cut the scan short: the lists hold fewer than `max_codes` codes in
all. -/
def FullProbes (ix : SearchIndex) (keys : List Int) : Prop :=
  (∀ j, j < ix.nlist → ∃ key, keys[j]? = some key ∧ 0 ≤ key ∧ key < (ix.nlist : Int)) ∧
    (codes_upto ix keys ix.nlist : Int) < ix.max_codes ∧ ix.max_codes < 2 ^ 64

/-- What the search relies on of the heap functions, for heaps whose two arrays have one
length: `heap_heapify` gives `k` entries with the id `-1`; `maxheap_replace_top` removes the
entry at the top (position 0) and adds the new one; `heap_reorder` rearranges the entries. -/
def IsHeapLib (H : HeapLib) : Prop :=
  (∀ ip k heap, (H.heap_heapify ip k heap).1.length = k ∧
      (H.heap_heapify ip k heap).2 = List.replicate k (-1)) ∧
    (∀ heap dis id, heap.1 ≠ [] → heap.1.length = heap.2.length →
      (H.maxheap_replace_top heap dis id).1.Perm (dis :: heap.1.tail) ∧
      (H.maxheap_replace_top heap dis id).2.Perm (id :: heap.2.tail)) ∧
    (∀ ip heap, heap.1.length = heap.2.length →
      (H.heap_reorder ip heap).1.Perm heap.1 ∧ (H.heap_reorder ip heap).2.Perm heap.2)

/-- The largest finite `float`. -/
def FLT_MAX : ℚ := 340282346638528859811704183484516925440

/-- Heap functions that meet `IsHeapLib`, used to evaluate the definitions: the entries are kept
in a list ordered from the top down. -/
def listHeap : HeapLib where
  heap_heapify := fun ip k _ =>
    (List.replicate k (if ip then -FLT_MAX else FLT_MAX), List.replicate k (-1))
  maxheap_replace_top := fun heap dis id =>
    ((heap.1.zip heap.2).tail.orderedInsert (fun a b => b.1 ≤ a.1) (dis, id)).unzip
  minheap_replace_top := fun heap dis id =>
    ((heap.1.zip heap.2).tail.orderedInsert (fun a b => a.1 ≤ b.1) (dis, id)).unzip
  heap_reorder := fun ip heap =>
    ((heap.1.zip heap.2).insertionSort
      (fun a b => if ip then b.1 ≤ a.1 else a.1 ≤ b.1)).unzip

/-- An index with the metric L2 and two lists: list 0 holds the vector 7 at distance 1 from the
query and list 1 the vector 8 at distance 2; `MAX_DISTANCE = 4`, `max_codes` unlimited. -/
def sampleIndex : SearchIndex where
  nlist := 2
  metric_inner_product := false
  keep_max := false
  do_heap_init := true
  max_codes := 9223372036854775807
  MAX_DISTANCE := 4
  lists := fun key => if key = 0 then [(1, 7)] else if key = 1 then [(2, 8)] else []

/-- An index with the metric L2 and a single list that holds the vectors 3 and 4, both at
distance 0 from the query. -/
def singleClusterIndex : SearchIndex where
  nlist := 1
  metric_inner_product := false
  keep_max := false
  do_heap_init := true
  max_codes := 9223372036854775807
  MAX_DISTANCE := 4
  lists := fun key => if key = 0 then [(0, 3), (0, 4)] else []

/-- The score row and the snapshots of the query after the first `j` probes of the score
builder, when every scan is complete: `record_probe` applied probe by probe to the arrays
`(nonconf, all_preds)` the caller passed. -/
def recorded_upto (H : HeapLib) (ix : SearchIndex) (keys : List Int)
    (heap : List ℚ × List Int) (nonconf : List ℚ) (all_preds : List (List Int)) (j : Nat) :
    List ℚ × List (List Int) :=
  (List.range j).foldl
    (fun (acc : List ℚ × List (List Int)) i =>
      record_probe ix.MAX_DISTANCE (keys.getD i 0).toNat (heap_after H ix keys heap (i + 1)).1
        (heap_after H ix keys heap (i + 1)).2 acc.1 acc.2)
    (nonconf, all_preds)

/-! ## Rounded `float` arithmetic -/

/-- Rounding of a rational to the nearest whole number, a tie going to the even one: the
rule of the IEEE-754 default rounding mode. -/
def roundNearestEven (q : ℚ) : Int :=
  let f := ⌊q⌋
  let r := q - f
  if r < 1 / 2 then f else if 1 / 2 < r then f + 1 else if f % 2 = 0 then f else f + 1

/-- The position of the leading bit of `n`, found in at most `fuel` halvings. -/
def log2Fuel : Nat → Nat → Nat
  | 0, _ => 0
  | fuel + 1, n => if n < 2 then 0 else log2Fuel fuel (n / 2) + 1

/-- The exponent `e` with `2 ^ e <= x < 2 ^ (e + 1)` of a positive rational. -/
def binade (x : ℚ) : Int :=
  let e := (log2Fuel x.num.natAbs x.num.natAbs : Int) - (log2Fuel x.den x.den : Int)
  if (2 : ℚ) ^ e ≤ x then e else e - 1

/-- The `float` nearest to `x >= 0`: 24 significant bits, exponents from `-126` on (below
`2 ^ (-126)` the spacing stays `2 ^ (-149)`), ties to even. The exponent has no upper limit:
overflow to infinity is not modelled. -/
def roundPos (x : ℚ) : ℚ :=
  let e := max (binade x) (-126)
  let ulp : ℚ := 2 ^ (e - 23)
  (roundNearestEven (x / ulp) : ℚ) * ulp

/-- The rounding of IEEE-754 binary32 arithmetic (`float`), round to nearest, ties to even. -/
def roundF32 (x : ℚ) : ℚ := if 0 ≤ x then roundPos x else -roundPos (-x)

/-- What the theorems about rounded arithmetic use of the rounding `fl` of a `float`
operation: it is monotone, it leaves a value it has produced unchanged, whole numbers up to
`2 ^ 24` are exact, and a result `x >= 0` is raised by at most `x / 2 ^ 24 + 1 / 2 ^ 150`. -/
def IsRounding (fl : ℚ → ℚ) : Prop :=
  (∀ x y, x ≤ y → fl x ≤ fl y) ∧ (∀ x, fl (fl x) = fl x) ∧
    (∀ n : Nat, n ≤ 2 ^ 24 → fl (n : ℚ) = (n : ℚ)) ∧
    (∀ x, 0 ≤ x → fl x ≤ x + x / 2 ^ 24 + 1 / 2 ^ 150)

/-- The function `compute_regularization` in `float` arithmetic: the `int`
`std::max(0, ox_y - kreg)` is converted to `float` and the product is rounded. -/
def compute_regularization_fl (fl : ℚ → ℚ) (ox_y : Int) (lambda : ℚ) (kreg : Int) : ℚ :=
  fl (lambda * fl ((max 0 (ox_y - kreg) : Int) : ℚ))

/-- The body of the loop over `i` in `regularize_scores` in `float` arithmetic: each of
`1.0f - s[i][idx]`, `Eij += ...` and `Eij / max_reg_val` is rounded by `fl`. With the rounding
`fun x => x` this is `regularize_row`. -/
def regularize_row_fl (fl : ℚ → ℚ) (sort : List (Nat × ℚ) → List (Nat × ℚ)) (K : Nat)
    (row : List ℚ) (lambda_reg : ℚ) (kreg : Int) (max_reg_val : ℚ) : List ℚ :=
  let sc := sorted_classes sort K row
  let ox := compute_ox sc
  (List.range K).foldl
    (fun E j =>
      let original_class_index := (sc.getD j (0, 0)).1
      let Eij := fl (1 - row.getD original_class_index 0)
      let Eij := fl (Eij + compute_regularization_fl fl (ox.getD j 0) lambda_reg kreg)
      E.set original_class_index (fl (Eij / max_reg_val)))
    (List.replicate K 0)

/-- The function `regularize_scores` in `float` arithmetic. In
`max_reg_val = (1 + lambda_reg * (n_list - kreg)) + 10` the difference is an `int`, converted
to `float`; the product and the two sums are rounded. -/
def regularize_scores_fl (fl : ℚ → ℚ) (sort : List (Nat × ℚ) → List (Nat × ℚ)) (n_list : Int)
    (s : List (List ℚ)) (lambda_reg : ℚ) (kreg : Int) : Option (List (List ℚ)) :=
  match s with
  | [] => none
  | s0 :: _ =>
      let K := s0.length
      let max_reg_val := fl (fl (1 + fl (lambda_reg * fl ((n_list - kreg : Int) : ℚ))) + 10)
      if s.all (fun row => decide (K ≤ row.length)) then
        some (s.map (fun row => regularize_row_fl fl sort K row lambda_reg kreg max_reg_val))
      else none

/-- The value `size_t(frac * nq)` in `float` arithmetic: `nq` is converted to `float`, the
product is rounded by `fl`, and the rounded product is cut to a whole number. -/
def split_size_fl (fl : ℚ → ℚ) (frac : ℚ) (nq : Nat) : Nat :=
  Int.toNat ⌊fl (frac * fl (nq : ℚ))⌋

/-- The second part of `prep_execution` with the sizes of the parts computed in `float`
arithmetic. With the rounding `fun x => x` this is `prep_split`. -/
def prep_split_fl (fl : ℚ → ℚ) (d : Nat) (calib_sz tune_sz : ℚ) (queries : List ℚ) (nq : Nat)
    (gt : List (List Int)) (all_nonconf_scores : List (List ℚ))
    (all_preds : List (List (List Int))) : Splits :=
  let calib_nq := split_size_fl fl calib_sz nq
  let tune_nq := split_size_fl fl tune_sz nq
  let test_nq := nq - calib_nq - tune_nq
  { calib_cx := (List.range calib_nq).map (fun i => query_row d queries i)
    calib_labels := gt.take calib_nq
    calib_nonconf := all_nonconf_scores.take calib_nq
    calib_preds := all_preds.take calib_nq
    tune_cx := (List.range tune_nq).map (fun i => query_row d queries (i + calib_nq))
    tune_labels := (gt.drop calib_nq).take tune_nq
    tune_nonconf := (all_nonconf_scores.drop calib_nq).take tune_nq
    tune_preds := (all_preds.drop calib_nq).take tune_nq
    test_cx := (List.range test_nq).map (fun i => query_row d queries (i + calib_nq + tune_nq))
    test_labels := gt.drop (calib_nq + tune_nq)
    test_nonconf := all_nonconf_scores.drop (calib_nq + tune_nq)
    test_preds := all_preds.drop (calib_nq + tune_nq) }

/-- The `float` nearest to `0.7`. -/
def float_0_7 : ℚ := 11744051 / 16777216

/-- Ten one-dimensional queries, query `i` with the coordinate `i`. -/
def tenQueries : List ℚ := [0, 1, 2, 3, 4, 5, 6, 7, 8, 9]

/-- The ground truth of the ten queries: query `i` has the neighbour `i`. -/
def tenLabels : List (List Int) := [[0], [1], [2], [3], [4], [5], [6], [7], [8], [9]]

/-- The score rows of the ten queries, for an index with one list. -/
def tenScores : List (List ℚ) := [[0], [0], [0], [0], [0], [0], [0], [0], [0], [0]]

/-- The snapshots of the ten queries. -/
def tenPreds : List (List (List Int)) :=
  [[[0]], [[1]], [[2]], [[3]], [[4]], [[5]], [[6]], [[7]], [[8]], [[9]]]

/-- The ten queries split in `float` arithmetic with the calibration fraction `0.7f` and no
tuning part. -/
def tenQuerySplits : Splits :=
  prep_split_fl roundF32 1 float_0_7 0 tenQueries 10 tenLabels tenScores tenPreds

/-- The branch `all_preds_list != nullptr` of the body of the loop over `ik` in `float`
arithmetic: the quotient `score_k / MAX_DISTANCE` is rounded by `fl`. -/
def record_probe_fl (fl : ℚ → ℚ) (MAX_DISTANCE : ℚ) (key : Nat) (simi : List ℚ)
    (idxi : List Int) (nonconf : List ℚ) (all_preds : List (List Int)) :
    List ℚ × List (List Int) :=
  let score_k := max_element simi
  let all_preds := all_preds.set key idxi
  if score_k > MAX_DISTANCE then (nonconf.set key 1, all_preds)
  else (nonconf.set key (fl (score_k / MAX_DISTANCE)), all_preds)

/-- The local `max_reg_val` of the early-stopping branch in `float` arithmetic; `nlist - kreg`
is computed in `size_t` and converted to `float`. -/
def max_reg_val_fl (fl : ℚ → ℚ) (nlist : Nat) (cal_params : CalibrationResults) : ℚ :=
  fl (fl (1 + fl (cal_params.regLambda
    * fl ((((nlist : Int) - cal_params.kreg) % 2 ^ 64 : Int) : ℚ))) + 10)

/-- The local `reg_score_k` of the early-stopping branch in `float` arithmetic: the quotient
`score_k / MAX_DISTANCE`, the difference `1 - nonconf_score`, the sum with the penalty and the
quotient by `max_reg_val` are rounded by `fl`. -/
def reg_score_k_fl (fl : ℚ → ℚ) (nlist : Nat) (MAX_DISTANCE : ℚ)
    (cal_params : CalibrationResults) (ik : Nat) (simi : List ℚ) : ℚ :=
  let score_k := max_element simi
  let nonconf_score := min (fl (score_k / MAX_DISTANCE)) 1
  fl (fl (fl (1 - nonconf_score)
    + compute_regularization_fl fl (toInt32 ((ik : Int) + 1)) cal_params.regLambda
        cal_params.kreg)
    / max_reg_val_fl fl nlist cal_params)

/-- The body of the loop over `ik` for one query in `float` arithmetic: `probe_step` with
`reg_score_k_fl` and `record_probe_fl` in the place of `reg_score_k` and `record_probe`. -/
def probe_step_fl (fl : ℚ → ℚ) (H : HeapLib) (ix : SearchIndex)
    (cal_params : CalibrationResults) (record : Bool) (keys : List Int) (ik : Nat)
    (st : ProbeState) : Except Failure (ProbeState × Bool) :=
  match keys[ik]? with
  | none => .error Failure.undefined
  | some key =>
      match scan_one_list H ix key (st.simi, st.idxi) (ix.max_codes - st.nscan) st.nlistv with
      | .error e => .error e
      | .ok (heap, scanned, nlistv) =>
          let st := { st with simi := heap.1, idxi := heap.2,
                              nscan := st.nscan + (scanned : Int), nlistv := nlistv }
          if st.nscan ≥ ix.max_codes then .ok (st, false)
          else if !record then
            if cal_params.lamhat ≤ 1 ∧
                reg_score_k_fl fl ix.nlist ix.MAX_DISTANCE cal_params ik st.simi
                  > cal_params.lamhat then
              .ok ({ st with simi := st.prev_simi, idxi := st.prev_idxi }, false)
            else .ok ({ st with prev_simi := st.simi, prev_idxi := st.idxi }, true)
          else if 0 ≤ key ∧ key.toNat < st.all_preds.length ∧ key.toNat < st.nonconf.length then
            let r := record_probe_fl fl ix.MAX_DISTANCE key.toNat st.simi st.idxi st.nonconf
              st.all_preds
            .ok ({ st with nonconf := r.1, all_preds := r.2,
                           prev_simi := st.simi, prev_idxi := st.idxi }, true)
          else .error Failure.undefined

/-- The loop over `ik` in `float` arithmetic, from `ik` on with `remaining` passes to go. -/
def probe_loop_fl (fl : ℚ → ℚ) (H : HeapLib) (ix : SearchIndex)
    (cal_params : CalibrationResults) (record : Bool) (keys : List Int) :
    Nat → Nat → ProbeState → Except Failure ProbeState
  | 0, _, st => .ok st
  | remaining + 1, ik, st =>
      match probe_step_fl fl H ix cal_params record keys ik st with
      | .error e => .error e
      | .ok (st, true) => probe_loop_fl fl H ix cal_params record keys remaining (ik + 1) st
      | .ok (st, false) => .ok st

/-- The search of one query in `float` arithmetic. With the rounding `fun x => x` this is
`search_query`. -/
def search_query_fl (fl : ℚ → ℚ) (H : HeapLib) (ix : SearchIndex)
    (cal_params : CalibrationResults) (record : Bool) (keys : List Int) (k : Nat)
    (distances : List ℚ) (labels : List Int) (nonconf : List ℚ)
    (all_preds : List (List Int)) : Except Failure ProbeState :=
  let heap := init_result H ix k (distances, labels)
  match probe_loop_fl fl H ix cal_params record keys ix.nlist 0
      { simi := heap.1, idxi := heap.2, prev_simi := heap.1, prev_idxi := heap.2,
        nscan := 0, nlistv := 0, nonconf := nonconf, all_preds := all_preds } with
  | .error e => .error e
  | .ok st =>
      let heap := reorder_result H ix (st.simi, st.idxi)
      .ok { st with simi := heap.1, idxi := heap.2 }

/-- The score row and the snapshots of the query after the first `j` probes of the score
builder in `float` arithmetic, when every scan is complete. -/
def recorded_upto_fl (fl : ℚ → ℚ) (H : HeapLib) (ix : SearchIndex) (keys : List Int)
    (heap : List ℚ × List Int) (nonconf : List ℚ) (all_preds : List (List Int)) (j : Nat) :
    List ℚ × List (List Int) :=
  (List.range j).foldl
    (fun (acc : List ℚ × List (List Int)) i =>
      record_probe_fl fl ix.MAX_DISTANCE (keys.getD i 0).toNat
        (heap_after H ix keys heap (i + 1)).1 (heap_after H ix keys heap (i + 1)).2 acc.1 acc.2)
    (nonconf, all_preds)

/-- An index with the metric L2 and two lists: list 0 holds the vector 7 at distance 1 from the
query and list 1 the vector 8 at distance `1 + 2^-23`, the next `float` after 1;
`MAX_DISTANCE = 4`, `max_codes` unlimited. -/
def nearTieIndex : SearchIndex where
  nlist := 2
  metric_inner_product := false
  keep_max := false
  do_heap_init := true
  max_codes := 9223372036854775807
  MAX_DISTANCE := 4
  lists := fun key =>
    if key = 0 then [(1, 7)] else if key = 1 then [(1 + 1 / 2 ^ 23, 8)] else []

end IndexIVF

/-! # Theorems -/

namespace ConannCache

theorem leBytes_length (w x : Nat) : (leBytes w x).length = w := by
  induction w generalizing x with
  | zero => rfl
  | succ w ih => simp [leBytes, ih]

theorem leValue_leBytes (w x : Nat) (h : x < 256 ^ w) : leValue (leBytes w x) = x := by
  induction w generalizing x with
  | zero =>
      simp at h
      simp [leBytes, leValue, h]
  | succ w ih =>
      have h2 : x / 256 < 256 ^ w := by
        rw [Nat.div_lt_iff_lt_mul (by norm_num)]
        rw [pow_succ] at h
        exact h
      simp only [leBytes, leValue, ih _ h2]
      omega

theorem int64OfBytes_int64Bytes (x : Int) (h1 : -2 ^ 63 ≤ x) (h2 : x < 2 ^ 63) :
    int64OfBytes (int64Bytes x) = x := by
  have hm : (0 : Int) ≤ x % 2 ^ 64 := Int.emod_nonneg _ (by norm_num)
  have hm2 : x % 2 ^ 64 < 2 ^ 64 := Int.emod_lt_of_pos _ (by norm_num)
  have hlt : (x % 2 ^ 64).toNat < 256 ^ 8 := by
    have : ((x % 2 ^ 64).toNat : Int) < 2 ^ 64 := by rw [Int.toNat_of_nonneg hm]; exact hm2
    norm_num
    omega
  unfold int64OfBytes int64Bytes
  rw [leValue_leBytes _ _ hlt]
  have hc : (((x % 2 ^ 64).toNat : Nat) : Int) = x % 2 ^ 64 := Int.toNat_of_nonneg hm
  by_cases hx : 0 ≤ x
  · have : x % 2 ^ 64 = x := Int.emod_eq_of_lt hx (by omega)
    rw [if_pos]
    · rw [hc, this]
    · have : ((x % 2 ^ 64).toNat : Int) < 2 ^ 63 := by rw [hc, this]; exact h2
      omega
  · have hx2 : x % 2 ^ 64 = x + 2 ^ 64 := by
      rw [← Int.add_emod_self]
      exact Int.emod_eq_of_lt (by omega) (by omega)
    rw [if_neg]
    · rw [hc, hx2]; ring
    · have : ¬ ((x % 2 ^ 64).toNat : Int) < 2 ^ 63 := by rw [hc, hx2]; omega
      omega

theorem read_append (a rest buf : List Nat) :
    IStream.read { bytes := a ++ rest, good := true } a.length buf
      = (a, { bytes := rest, good := true }) := by
  simp [IStream.read]

theorem chunks_flatMap {α : Type} (w : Nat) (enc : α → List Nat) (data : List α)
    (h : ∀ x ∈ data, (enc x).length = w) :
    chunks w data.length (data.flatMap enc) = data.map enc := by
  induction data with
  | nil => rfl
  | cons x xs ih =>
      have hx : (enc x).length = w := h x (List.mem_cons_self _ _)
      have hxs : ∀ y ∈ xs, (enc y).length = w := fun y hy => h y (List.mem_cons_of_mem _ hy)
      simp only [List.length_cons, List.flatMap_cons, chunks, List.map_cons]
      rw [← hx, List.take_left, List.drop_left, hx, ih hxs]

theorem flatMap_length_const {α : Type} (w : Nat) (enc : α → List Nat) (data : List α)
    (h : ∀ x ∈ data, (enc x).length = w) : (data.flatMap enc).length = data.length * w := by
  induction data with
  | nil => simp
  | cons x xs ih =>
      have hx : (enc x).length = w := h x (List.mem_cons_self _ _)
      have hxs : ∀ y ∈ xs, (enc y).length = w := fun y hy => h y (List.mem_cons_of_mem _ hy)
      simp only [List.flatMap_cons, List.length_append, List.length_cons, hx, ih hxs]
      ring

theorem write_foldl_append {β : Type} (w : List Nat → β → List Nat)
    (hw : ∀ file e, w file e = file ++ w [] e) :
    ∀ (data : List β) (file : List Nat),
      data.foldl w file = file ++ data.flatMap (w []) := by
  intro data
  induction data with
  | nil => intro file; simp
  | cons x xs ih =>
      intro file
      simp only [List.foldl_cons, List.flatMap_cons]
      rw [ih, hw file x, List.append_assoc]

theorem map_map_eq_self {α β : Type} (f : α → β) (g : β → α) (l : List α)
    (h : ∀ x ∈ l, g (f x) = x) : (l.map f).map g = l := by
  induction l with
  | nil => rfl
  | cons x xs ih =>
      rw [List.map_cons, List.map_cons, h x (List.mem_cons_self _ _),
        ih (fun y hy => h y (List.mem_cons_of_mem _ hy))]

theorem pow_64_eq : (2 : Nat) ^ 64 = 256 ^ 8 := by norm_num

theorem pow_32_eq : (2 : Nat) ^ 32 = 256 ^ 4 := by norm_num

theorem write_nested_append (T : Elem) (file : List Nat) (data : List T.Val) :
    _write_nested_vector T file data = file ++ _write_nested_vector T [] data := by
  induction T generalizing file with
  | float => simp [_write_nested_vector]
  | int64 => simp [_write_nested_vector]
  | vector t ih =>
      simp only [_write_nested_vector]
      rw [write_foldl_append _ (fun f e => ih f e), write_foldl_append _ (fun f e => ih f e)]
      simp

theorem readElements_flatMap {β : Type} (inner : IStream → β × IStream)
    (enc : β → List Nat) (data : List β)
    (h : ∀ x ∈ data, ∀ rest, inner { bytes := enc x ++ rest, good := true }
      = (x, { bytes := rest, good := true })) (rest : List Nat) :
    readElements inner data.length { bytes := data.flatMap enc ++ rest, good := true }
      = (data, { bytes := rest, good := true }) := by
  induction data with
  | nil => rfl
  | cons x xs ih =>
      have hx := h x (List.mem_cons_self _ _)
      have hxs : ∀ y ∈ xs, ∀ rest, inner { bytes := enc y ++ rest, good := true }
          = (y, { bytes := rest, good := true }) := fun y hy => h y (List.mem_cons_of_mem _ hy)
      simp only [List.length_cons, List.flatMap_cons, readElements, List.append_assoc]
      rw [hx, ih hxs]

theorem read_write_nested (T : Elem) (data : List T.Val) (h : Storable T data)
    (rest : List Nat) :
    _read_nested_vector T { bytes := _write_nested_vector T [] data ++ rest, good := true }
      = (data, { bytes := rest, good := true }) := by
  induction T generalizing rest with
  | float =>
      obtain ⟨hlen, hel⟩ := h
      have hsz : leValue (leBytes 8 (List.length data)) = List.length data :=
        leValue_leBytes 8 _ (lt_of_lt_of_eq hlen pow_64_eq)
      have hw : ∀ x ∈ data, (leBytes 4 x).length = 4 := fun x _ => leBytes_length 4 x
      simp only [_write_nested_vector, _read_nested_vector, List.nil_append, List.append_assoc]
      have e1 := read_append (leBytes 8 (List.length data))
        (@List.flatMap Nat Nat data (fun x => leBytes 4 x) ++ rest) (List.replicate 8 0)
      rw [leBytes_length] at e1
      rw [e1]
      simp only [hsz]
      have e2 := read_append (@List.flatMap Nat Nat data (fun x => leBytes 4 x)) rest
        (List.replicate (List.length data * 4) 0)
      rw [flatMap_length_const 4 _ data hw] at e2
      rw [e2]
      rw [chunks_flatMap 4 _ data hw]
      rw [map_map_eq_self (fun x => leBytes 4 x) leValue data
        (fun x hx => leValue_leBytes 4 x (lt_of_lt_of_eq (hel x hx) pow_32_eq))]
  | int64 =>
      obtain ⟨hlen, hel⟩ := h
      have hsz : leValue (leBytes 8 (List.length data)) = List.length data :=
        leValue_leBytes 8 _ (lt_of_lt_of_eq hlen pow_64_eq)
      have hw : ∀ x ∈ data, (int64Bytes x).length = 8 := fun x _ => leBytes_length 8 _
      simp only [_write_nested_vector, _read_nested_vector, List.nil_append, List.append_assoc]
      have e1 := read_append (leBytes 8 (List.length data))
        (@List.flatMap Int Nat data (fun x => int64Bytes x) ++ rest) (List.replicate 8 0)
      rw [leBytes_length] at e1
      rw [e1]
      simp only [hsz]
      have e2 := read_append (@List.flatMap Int Nat data (fun x => int64Bytes x)) rest
        (List.replicate (List.length data * 8) 0)
      rw [flatMap_length_const 8 _ data hw] at e2
      rw [e2]
      rw [chunks_flatMap 8 _ data hw]
      have hrt : ∀ x ∈ data, int64OfBytes (int64Bytes x) = x :=
        fun x hx => int64OfBytes_int64Bytes x (hel x hx).1 (hel x hx).2
      rw [map_map_eq_self (fun x => int64Bytes x) int64OfBytes data hrt]
  | vector t ih =>
      obtain ⟨hlen, hel⟩ := h
      have hsz : leValue (leBytes 8 (List.length data)) = List.length data :=
        leValue_leBytes 8 _ (lt_of_lt_of_eq hlen pow_64_eq)
      simp only [_write_nested_vector, _read_nested_vector, List.nil_append]
      rw [write_foldl_append _ (fun f e => write_nested_append t f e), List.append_assoc]
      have e1 := read_append (leBytes 8 (List.length data))
        (List.flatMap data (_write_nested_vector t []) ++ rest) (List.replicate 8 0)
      rw [leBytes_length] at e1
      rw [e1]
      simp only [hsz]
      exact readElements_flatMap _ _ data (fun x hx r => ih x (hel x hx) r) rest

/-- C1: for every element type of the templates (in particular `float`, `std::vector<float>` and
`std::vector<std::vector<int64_t>>`, which give the three supported values) and every value `v`
of it, empty vectors included, `write_to_cache(key, v)` followed by `read_from_cache` of the same
key and type returns `v` itself. -/
theorem cache_round_trip (T : Elem) (fs : FileSystem) (key : String) (v : List T.Val)
    (hv : Storable T v) :
    read_from_cache T (write_to_cache T fs key v) key = Except.ok v := by
  have h := read_write_nested T v hv []
  rw [List.append_nil] at h
  simp only [read_from_cache, _read_from_file, write_to_cache, _write_to_file, if_true, h]

/-- The round trip on a three-level `int64_t` value with empty vectors inside. -/
theorem cache_round_trip_witness :
    Storable (Elem.vector (Elem.vector Elem.int64)) sampleIds ∧
    read_from_cache (Elem.vector (Elem.vector Elem.int64))
      (write_to_cache (Elem.vector (Elem.vector Elem.int64)) (fun _ => none) "test3" sampleIds)
      "test3" = Except.ok sampleIds :=
  ⟨by simp [Storable, sampleIds], cache_round_trip _ _ _ _ (by simp [Storable, sampleIds])⟩

end ConannCache

namespace IndexIVF

theorem sorted_classes_perm {sort : List (Nat × ℚ) → List (Nat × ℚ)}
    (hsort : IsStdSort scoreLess sort) (K : Nat) (row : List ℚ) :
    (sorted_classes sort K row).Perm ((List.range K).map (fun j => (j, row.getD j 0))) := by
  unfold sorted_classes
  exact (List.reverse_perm _).trans (((hsort _).1).trans (List.reverse_perm _))

theorem sorted_classes_fst_perm {sort : List (Nat × ℚ) → List (Nat × ℚ)}
    (hsort : IsStdSort scoreLess sort) (K : Nat) (row : List ℚ) :
    ((sorted_classes sort K row).map Prod.fst).Perm (List.range K) := by
  have h := (sorted_classes_perm hsort K row).map Prod.fst
  rw [List.map_map] at h
  have e : (List.range K).map (Prod.fst ∘ fun j => (j, row.getD j 0)) = List.range K := by
    conv_rhs => rw [← List.map_id (List.range K)]
    rfl
  rw [e] at h
  exact h

theorem sorted_classes_length {sort : List (Nat × ℚ) → List (Nat × ℚ)}
    (hsort : IsStdSort scoreLess sort) (K : Nat) (row : List ℚ) :
    (sorted_classes sort K row).length = K := by
  have h := (sorted_classes_perm hsort K row).length_eq
  simpa using h

theorem sorted_classes_snd {sort : List (Nat × ℚ) → List (Nat × ℚ)}
    (hsort : IsStdSort scoreLess sort) (K : Nat) (row : List ℚ) (c : Nat × ℚ)
    (hc : c ∈ sorted_classes sort K row) : c.1 < K ∧ c.2 = row.getD c.1 0 := by
  have h := (sorted_classes_perm hsort K row).mem_iff.mp hc
  rw [List.mem_map] at h
  obtain ⟨j, hj, rfl⟩ := h
  exact ⟨List.mem_range.mp hj, rfl⟩

theorem sorted_classes_descending {sort : List (Nat × ℚ) → List (Nat × ℚ)}
    (hsort : IsStdSort scoreLess sort) (K : Nat) (row : List ℚ) :
    (sorted_classes sort K row).Pairwise (fun a b => b.2 ≤ a.2) := by
  unfold sorted_classes
  rw [List.pairwise_reverse]
  refine ((hsort _).2).imp ?_
  intro a b h
  simpa [scoreLess] using h

theorem foldl_set_range (K : Nat) (idx : Nat → Nat) (val : Nat → ℚ) (m : Nat)
    (hinj : ∀ i j, i < m → j < m → idx i = idx j → i = j) (hlt : ∀ i, i < m → idx i < K) :
    ((List.range m).foldl (fun E j => E.set (idx j) (val j)) (List.replicate K 0)).length = K ∧
    ∀ j, j < m →
      ((List.range m).foldl (fun E j => E.set (idx j) (val j)) (List.replicate K 0)).getD
        (idx j) 0 = val j := by
  induction m with
  | zero => simp
  | succ m ih =>
      have ih2 := ih (fun i j hi hj => hinj i j (by omega) (by omega))
        (fun i hi => hlt i (by omega))
      rw [List.range_succ, List.foldl_append]
      simp only [List.foldl_cons, List.foldl_nil, List.length_set]
      refine ⟨ih2.1, ?_⟩
      intro j hj
      by_cases hjm : j = m
      · subst hjm
        have hlen : idx j < ((List.range j).foldl (fun E j => E.set (idx j) (val j))
            (List.replicate K 0)).length := by rw [ih2.1]; exact hlt j (by omega)
        simp [List.getD_eq_getElem?_getD, List.getElem?_set, hlen]
      · have hne : idx m ≠ idx j := fun h => hjm ((hinj m j (by omega) hj h).symm)
        have := ih2.2 j (by omega)
        simp only [List.getD_eq_getElem?_getD] at this ⊢
        rw [List.getElem?_set_ne hne]
        exact this

theorem compute_ox_getD (sc : List (Nat × ℚ)) (j : Nat) (hj : j < sc.length) :
    (compute_ox sc).getD j 0 = (j : Int) + 1 := by
  unfold compute_ox
  rw [List.getD_eq_getElem?_getD, List.getElem?_map, List.getElem?_range hj]
  rfl

theorem getD_fst_eq_map {sc : List (Nat × ℚ)} (j : Nat) (hj : j < sc.length) :
    (sc.getD j (0, 0)).1 = (sc.map Prod.fst).get ⟨j, by simpa using hj⟩ := by
  rw [List.getD_eq_getElem _ _ hj]
  simp

theorem regularize_row_getD {sort : List (Nat × ℚ) → List (Nat × ℚ)}
    (hsort : IsStdSort scoreLess sort) (K : Nat) (row : List ℚ) (lambda_reg : ℚ) (kreg : Int)
    (max_reg_val : ℚ) :
    (regularize_row sort K row lambda_reg kreg max_reg_val).length = K ∧
    ∀ l, l < K →
      (regularize_row sort K row lambda_reg kreg max_reg_val).getD l 0 =
        ((1 - row.getD l 0) + lambda_reg *
          ((max 0 ((rank_of (sorted_classes sort K row) l : Int) - kreg) : Int) : ℚ))
          / max_reg_val := by
  have hlen := sorted_classes_length hsort K row
  have hperm := sorted_classes_fst_perm hsort K row
  have hnodup : ((sorted_classes sort K row).map Prod.fst).Nodup :=
    hperm.nodup_iff.mpr (List.nodup_range K)
  have hmaplen : ((sorted_classes sort K row).map Prod.fst).length = K := by simpa using hlen
  have key := foldl_set_range K (fun j => ((sorted_classes sort K row).getD j (0, 0)).1)
    (fun j => ((1 - row.getD ((sorted_classes sort K row).getD j (0, 0)).1 0) +
      compute_regularization ((compute_ox (sorted_classes sort K row)).getD j 0) lambda_reg kreg)
      / max_reg_val) K
    (by
      intro i j hi hj h
      beta_reduce at h
      rw [getD_fst_eq_map i (by omega), getD_fst_eq_map j (by omega)] at h
      have := (List.Nodup.get_inj_iff hnodup).mp h
      simpa using this)
    (by
      intro i hi
      have hm : (sorted_classes sort K row).getD i (0, 0) ∈ sorted_classes sort K row := by
        rw [List.getD_eq_getElem _ _ (by omega)]
        exact List.getElem_mem _
      exact (sorted_classes_snd hsort K row _ hm).1)
  refine ⟨key.1, ?_⟩
  intro l hl
  have hmem : l ∈ (sorted_classes sort K row).map Prod.fst :=
    hperm.mem_iff.mpr (List.mem_range.mpr hl)
  have hj : ((sorted_classes sort K row).map Prod.fst).indexOf l < K := by
    exact lt_of_lt_of_eq (List.indexOf_lt_length.mpr hmem) hmaplen
  have hidx : ((sorted_classes sort K row).getD
      (((sorted_classes sort K row).map Prod.fst).indexOf l) (0, 0)).1 = l := by
    rw [getD_fst_eq_map _ (by omega)]
    exact List.indexOf_get _
  have h := key.2 _ hj
  simp only [hidx] at h
  unfold regularize_row
  simp only []
  rw [h, compute_ox_getD _ _ (by omega)]
  unfold compute_regularization rank_of
  push_cast
  rfl

theorem insertionSortBy_isStdSort {α : Type} (comp : α → α → Bool)
    (htot : ∀ a b, comp b a = false ∨ comp a b = false)
    (htrans : ∀ a b c, comp b a = false → comp c b = false → comp c a = false) :
    IsStdSort comp (insertionSortBy comp) := by
  intro l
  haveI : IsTotal α (fun a b => comp b a = false) := ⟨htot⟩
  haveI : IsTrans α (fun a b => comp b a = false) := ⟨htrans⟩
  exact ⟨List.perm_insertionSort _ l, List.sorted_insertionSort _ l⟩

theorem insertionSortBy_scoreLess : IsStdSort scoreLess (insertionSortBy scoreLess) := by
  apply insertionSortBy_isStdSort
  · intro a b
    simp only [scoreLess, decide_eq_false_iff_not, not_lt]
    exact le_total _ _
  · intro a b c
    simp only [scoreLess, decide_eq_false_iff_not, not_lt]
    exact fun h1 h2 => le_trans h1 h2

theorem insertionSortBy_pairLess : IsStdSort pairLess (insertionSortBy pairLess) := by
  apply insertionSortBy_isStdSort
  · intro a b
    simp only [pairLess, Bool.or_eq_false_iff, Bool.and_eq_false_imp, decide_eq_false_iff_not,
      Bool.not_eq_true', not_lt]
    rcases lt_trichotomy a.1 b.1 with h | h | h
    · left; exact ⟨le_of_lt h, fun h2 => absurd h (not_lt.mpr h2)⟩
    · rcases le_total a.2 b.2 with h3 | h3
      · left; exact ⟨le_of_eq h, fun _ => h3⟩
      · right; exact ⟨le_of_eq h.symm, fun _ => h3⟩
    · right; exact ⟨le_of_lt h, fun h2 => absurd h (not_lt.mpr h2)⟩
  · intro a b c
    simp only [pairLess, Bool.or_eq_false_iff, Bool.and_eq_false_imp, decide_eq_false_iff_not,
      Bool.not_eq_true', not_lt]
    rintro ⟨h1, h2⟩ ⟨h3, h4⟩
    refine ⟨le_trans h1 h3, fun h5 => ?_⟩
    have e1 : a.1 = b.1 := le_antisymm h1 (le_trans h3 h5)
    have e2 : b.1 = c.1 := le_antisymm h3 (le_trans h5 h1)
    exact le_trans (h2 (le_of_eq e1.symm)) (h4 (le_of_eq e2.symm))

theorem regularize_scores_eq (sort : List (Nat × ℚ) → List (Nat × ℚ)) (n_list : Int) (L : Nat)
    (s : List (List ℚ)) (lambda_reg : ℚ) (kreg : Int) (hrows : ∀ row ∈ s, row.length = L)
    (hne : s ≠ []) :
    regularize_scores sort n_list s lambda_reg kreg =
      some (s.map (fun row => regularize_row sort L row lambda_reg kreg
        ((1 + lambda_reg * ((n_list - kreg : Int) : ℚ)) + 10))) := by
  cases s with
  | nil => exact absurd rfl hne
  | cons s0 rest =>
      have h0 : s0.length = L := hrows s0 (List.mem_cons_self _ _)
      have hall : (s0 :: rest).all (fun row => decide (s0.length ≤ row.length)) = true := by
        rw [List.all_eq_true]
        intro row hrow
        rw [decide_eq_true_eq, h0, hrows row hrow]
      rw [h0] at hall
      simp only [regularize_scores, h0, hall, if_true]

theorem getD_map_of_lt {α β : Type} (f : α → β) (l : List α) (q : Nat) (hq : q < l.length)
    (a : α) (b : β) : (l.map f).getD q b = f (l.getD q a) := by
  rw [List.getD_eq_getElem _ _ (by simpa using hq), List.getD_eq_getElem _ _ hq,
    List.getElem_map]

theorem rank_of_le {sort : List (Nat × ℚ) → List (Nat × ℚ)}
    (hsort : IsStdSort scoreLess sort) (K : Nat) (row : List ℚ) (l : Nat) :
    1 ≤ rank_of (sorted_classes sort K row) l ∧
      (l < K → rank_of (sorted_classes sort K row) l ≤ K) := by
  unfold rank_of
  refine ⟨by omega, fun hl => ?_⟩
  have hmem : l ∈ (sorted_classes sort K row).map Prod.fst :=
    (sorted_classes_fst_perm hsort K row).mem_iff.mpr (List.mem_range.mpr hl)
  have h := List.indexOf_lt_length.mpr hmem
  rw [List.length_map, sorted_classes_length hsort K row] at h
  omega


/-- C2: for a score matrix `s` whose rows have length `L = n_list`, `regularize_scores` returns a
matrix `E` of the same shape, and for every query `q` and list `l`
`E[q][l] = ((1 - s[q][l]) + lambda_reg * max(0, rank_of(l) - k_reg)) / M` with
`M = (1 + lambda_reg * (L - k_reg)) + 10`, where `rank_of(l)` is the 1-based position of `l` in
the source's array `sorted_classes` of row `q`, which holds every list once, by descending
score. -/
theorem regularize_scores_formula {sort : List (Nat × ℚ) → List (Nat × ℚ)}
    (hsort : IsStdSort scoreLess sort) (L : Nat) (s : List (List ℚ)) (lambda_reg : ℚ)
    (kreg : Int) (hrows : ∀ row ∈ s, row.length = L) (q l : Nat) (hq : q < s.length)
    (hl : l < L) :
    ∃ E, regularize_scores sort (L : Int) s lambda_reg kreg = some E ∧
      E.length = s.length ∧ (E.getD q []).length = L ∧
      (sorted_classes sort L (s.getD q [])).Perm
        ((List.range L).map (fun j => (j, (s.getD q []).getD j 0))) ∧
      (sorted_classes sort L (s.getD q [])).Pairwise (fun a b => b.2 ≤ a.2) ∧
      (E.getD q []).getD l 0 =
        ((1 - (s.getD q []).getD l 0) + lambda_reg *
          ((max 0 ((rank_of (sorted_classes sort L (s.getD q [])) l : Int) - kreg) : Int) : ℚ))
          / ((1 + lambda_reg * (((L : Int) - kreg : Int) : ℚ)) + 10) := by
  have hne : s ≠ [] := by
    intro h
    rw [h] at hq
    exact absurd hq (by simp)
  refine ⟨_, regularize_scores_eq sort (L : Int) L s lambda_reg kreg hrows hne, by simp, ?_,
    sorted_classes_perm hsort L _, sorted_classes_descending hsort L _, ?_⟩
  · rw [getD_map_of_lt _ s q hq []]
    exact (regularize_row_getD hsort L _ lambda_reg kreg _).1
  · rw [getD_map_of_lt _ s q hq []]
    exact (regularize_row_getD hsort L _ lambda_reg kreg _).2 l hl

/-- The closed form at the second list of a one-row matrix. -/
theorem regularize_scores_formula_witness :
    ∃ E, regularize_scores (insertionSortBy scoreLess) ((2 : Nat) : Int) [[1 / 2, 1]] (1 / 10) 1
        = some E ∧
      E.length = [[(1 : ℚ) / 2, 1]].length ∧ (E.getD 0 []).length = 2 ∧
      (sorted_classes (insertionSortBy scoreLess) 2 ([[(1 : ℚ) / 2, 1]].getD 0 [])).Perm
        ((List.range 2).map (fun j => (j, ([[(1 : ℚ) / 2, 1]].getD 0 []).getD j 0))) ∧
      (sorted_classes (insertionSortBy scoreLess) 2 ([[(1 : ℚ) / 2, 1]].getD 0 [])).Pairwise
        (fun a b => b.2 ≤ a.2) ∧
      (E.getD 0 []).getD 1 0 =
        ((1 - ([[(1 : ℚ) / 2, 1]].getD 0 []).getD 1 0) + (1 / 10) *
          ((max 0 ((rank_of (sorted_classes (insertionSortBy scoreLess) 2
            ([[(1 : ℚ) / 2, 1]].getD 0 [])) 1 : Int) - 1) : Int) : ℚ))
          / ((1 + (1 / 10) * ((((2 : Nat) : Int) - 1 : Int) : ℚ)) + 10) :=
  regularize_scores_formula insertionSortBy_scoreLess 2 [[1 / 2, 1]] (1 / 10) 1
    (by simp) 0 1 (by simp) (by decide)

theorem admit_loop_none (lambda : ℚ) (l : List (ℚ × Nat)) (i : Nat) (st : ℚ × Nat × Int)
    (h : ∀ x ∈ l, ¬ x.1 ≤ lambda) : admit_loop lambda l i st = st := by
  cases l with
  | nil => rfl
  | cons x rest => simp [admit_loop, h x (List.mem_cons_self _ _)]

theorem pairLess_false_fst {a b : ℚ × Nat} (h : pairLess b a = false) : a.1 ≤ b.1 := by
  simp only [pairLess, Bool.or_eq_false_iff, decide_eq_false_iff_not, not_lt] at h
  exact h.1

theorem pairLess_irrefl (a : ℚ × Nat) : pairLess a a = false := by
  simp [pairLess]

theorem admit_loop_sorted (lambda : ℚ) (l : List (ℚ × Nat))
    (hs : l.Pairwise (fun a b => pairLess b a = false)) (i : Nat) (st : ℚ × Nat × Int)
    (hex : ∃ x ∈ l, x.1 ≤ lambda) :
    ∃ x ∈ l, x.1 ≤ lambda ∧ (∀ y ∈ l, y.1 ≤ lambda → pairLess x y = false) ∧
      admit_loop lambda l i st
        = (x.1, x.2, ((i + (l.filter (fun y => decide (y.1 ≤ lambda))).length : Nat) : Int)) := by
  induction l generalizing i st with
  | nil =>
      obtain ⟨x, hx, _⟩ := hex
      exact absurd hx (List.not_mem_nil _)
  | cons a rest ih =>
      rw [List.pairwise_cons] at hs
      obtain ⟨ha, hrest⟩ := hs
      have ha1 : a.1 ≤ lambda := by
        obtain ⟨x, hx, hxl⟩ := hex
        rcases List.mem_cons.mp hx with rfl | hx
        · exact hxl
        · exact le_trans (pairLess_false_fst (ha x hx)) hxl
      by_cases hr : ∃ x ∈ rest, x.1 ≤ lambda
      · obtain ⟨x, hx, hxl, hmax, heq⟩ := ih hrest (i + 1) (a.1, a.2, (i : Int) + 1) hr
        refine ⟨x, List.mem_cons_of_mem _ hx, hxl, ?_, ?_⟩
        · intro y hy hyl
          rcases List.mem_cons.mp hy with rfl | hy
          · exact ha x hx
          · exact hmax y hy hyl
        · simp only [admit_loop, ha1, if_true, heq, List.filter_cons, decide_True,
            List.length_cons]
          congr 3
          omega
      · have hnone : ∀ x ∈ rest, ¬ x.1 ≤ lambda := fun x hx hxl => hr ⟨x, hx, hxl⟩
        refine ⟨a, List.mem_cons_self _ _, ha1, ?_, ?_⟩
        · intro y hy hyl
          rcases List.mem_cons.mp hy with rfl | hy
          · exact pairLess_irrefl _
          · exact absurd hyl (hnone y hy)
        · have hf : rest.filter (fun y => decide (y.1 ≤ lambda)) = [] := by
            rw [List.filter_eq_nil_iff]
            intro x hx
            simpa using hnone x hx
          simp only [admit_loop, ha1, if_true, admit_loop_none lambda rest _ _ hnone,
            List.filter_cons, decide_True, hf, List.length_cons, List.length_nil]
          push_cast
          simp

theorem mem_indexed_sc {sort : List (ℚ × Nat) → List (ℚ × Nat)}
    (hsort : IsStdSort pairLess sort) (sc : List ℚ) (x : ℚ × Nat) :
    x ∈ indexed_sc sort sc ↔ x.2 < sc.length ∧ x.1 = sc.getD x.2 0 := by
  unfold indexed_sc
  rw [((hsort _).1).mem_iff, List.mem_map]
  constructor
  · rintro ⟨i, hi, rfl⟩
    exact ⟨List.mem_range.mp hi, rfl⟩
  · rintro ⟨h1, h2⟩
    exact ⟨x.2, List.mem_range.mpr h1, by rw [← h2]⟩


theorem admitted_count {sort : List (ℚ × Nat) → List (ℚ × Nat)}
    (hsort : IsStdSort pairLess sort) (lambda : ℚ) (sc : List ℚ) :
    ((indexed_sc sort sc).filter (fun y => decide (y.1 ≤ lambda))).length
      = ((List.range sc.length).filter (fun l => decide (sc.getD l 0 ≤ lambda))).length := by
  unfold indexed_sc
  rw [(((hsort _).1).filter _).length_eq, List.filter_map, List.length_map]
  rfl

theorem compute_predictions_query_admitted {sort : List (ℚ × Nat) → List (ℚ × Nat)}
    (hsort : IsStdSort pairLess sort) (lambda : ℚ) (sc : List ℚ) (p : List (List Int))
    (hex : ∃ l, l < sc.length ∧ sc.getD l 0 ≤ lambda) :
    ∃ index, index < sc.length ∧ sc.getD index 0 ≤ lambda ∧
      (∀ l, l < sc.length → sc.getD l 0 ≤ lambda →
        pairLess (sc.getD index 0, index) (sc.getD l 0, l) = false) ∧
      compute_predictions_query sort lambda sc p = (p.getD index [],
        (((List.range sc.length).filter (fun l => decide (sc.getD l 0 ≤ lambda))).length : Int))
      := by
  obtain ⟨l0, hl0, hl0a⟩ := hex
  have hex2 : ∃ x ∈ indexed_sc sort sc, x.1 ≤ lambda :=
    ⟨(sc.getD l0 0, l0), (mem_indexed_sc hsort sc _).mpr ⟨hl0, rfl⟩, hl0a⟩
  have hsorted : (indexed_sc sort sc).Pairwise (fun a b => pairLess b a = false) := (hsort _).2
  obtain ⟨x, hx, hxl, hmax, heq⟩ := admit_loop_sorted lambda (indexed_sc sort sc) hsorted 0
    (-1, (indexed_sc sort sc).length, 0) hex2
  obtain ⟨hx2, hx1⟩ := (mem_indexed_sc hsort sc x).mp hx
  have hpos : 0 < ((indexed_sc sort sc).filter (fun y => decide (y.1 ≤ lambda))).length := by
    apply List.length_pos_of_mem
    exact List.mem_filter.mpr ⟨hx, by simpa using hxl⟩
  refine ⟨x.2, hx2, by rw [← hx1]; exact hxl, ?_, ?_⟩
  · intro l hl hla
    have := hmax (sc.getD l 0, l) ((mem_indexed_sc hsort sc _).mpr ⟨hl, rfl⟩) hla
    rw [← hx1]
    exact this
  · unfold compute_predictions_query
    simp only [heq, Nat.zero_add]
    rw [if_pos ⟨hx2, by exact_mod_cast hpos⟩, admitted_count hsort]

theorem compute_predictions_query_empty {sort : List (ℚ × Nat) → List (ℚ × Nat)}
    (hsort : IsStdSort pairLess sort) (lambda : ℚ) (sc : List ℚ) (p : List (List Int))
    (hnone : ∀ l, l < sc.length → ¬ sc.getD l 0 ≤ lambda) :
    compute_predictions_query sort lambda sc p = ([], -1) := by
  have h : ∀ x ∈ indexed_sc sort sc, ¬ x.1 ≤ lambda := by
    intro x hx
    obtain ⟨hx2, hx1⟩ := (mem_indexed_sc hsort sc x).mp hx
    rw [hx1]
    exact hnone _ hx2
  unfold compute_predictions_query
  simp only [admit_loop_none lambda _ _ _ h]
  rw [if_neg]
  rintro ⟨_, h2⟩
  exact absurd h2 (by decide)

theorem compute_predictions_getD (sort : List (ℚ × Nat) → List (ℚ × Nat)) (lambda : ℚ)
    (nonconf_scores : List (List ℚ)) (all_preds : List (List (List Int))) (q : Nat)
    (hq : q < nonconf_scores.length) :
    (compute_predictions sort lambda nonconf_scores all_preds).1.getD q []
        = (compute_predictions_query sort lambda (nonconf_scores.getD q [])
            (all_preds.getD q [])).1 ∧
    (compute_predictions sort lambda nonconf_scores all_preds).2.getD q 0
        = (compute_predictions_query sort lambda (nonconf_scores.getD q [])
            (all_preds.getD q [])).2 := by
  unfold compute_predictions
  simp only [List.map_map]
  constructor
  · rw [getD_map_of_lt _ (List.range nonconf_scores.length) q (by simpa using hq) 0]
    simp [List.getD_eq_getElem?_getD, List.getElem?_range hq]
  · rw [getD_map_of_lt _ (List.range nonconf_scores.length) q (by simpa using hq) 0]
    simp [List.getD_eq_getElem?_getD, List.getElem?_range hq]

theorem compute_predictions_length (sort : List (ℚ × Nat) → List (ℚ × Nat)) (lambda : ℚ)
    (nonconf_scores : List (List ℚ)) (all_preds : List (List (List Int))) :
    (compute_predictions sort lambda nonconf_scores all_preds).1.length = nonconf_scores.length ∧
    (compute_predictions sort lambda nonconf_scores all_preds).2.length = nonconf_scores.length
    := by
  simp [compute_predictions]


/-- C4: in the score builder, with `MAX_DISTANCE > 0` and a non-negative current k-th distance
`d_k` (the largest distance in the heap after the probe), the score written for the probed list
equals `min(d_k / MAX_DISTANCE, 1)`, lies in `[0, 1]`, and is 1 whenever `d_k >= MAX_DISTANCE`. -/
theorem record_probe_score (MAX_DISTANCE : ℚ) (key : Nat) (simi : List ℚ) (idxi : List Int)
    (nonconf : List ℚ) (all_preds : List (List Int)) (hM : 0 < MAX_DISTANCE)
    (hd : 0 ≤ max_element simi) (hkey : key < nonconf.length) :
    (record_probe MAX_DISTANCE key simi idxi nonconf all_preds).1.getD key 0
        = min (max_element simi / MAX_DISTANCE) 1 ∧
    0 ≤ (record_probe MAX_DISTANCE key simi idxi nonconf all_preds).1.getD key 0 ∧
    (record_probe MAX_DISTANCE key simi idxi nonconf all_preds).1.getD key 0 ≤ 1 ∧
    (MAX_DISTANCE ≤ max_element simi →
      (record_probe MAX_DISTANCE key simi idxi nonconf all_preds).1.getD key 0 = 1) := by
  have hval : (record_probe MAX_DISTANCE key simi idxi nonconf all_preds).1.getD key 0
      = min (max_element simi / MAX_DISTANCE) 1 := by
    unfold record_probe
    by_cases h : max_element simi > MAX_DISTANCE
    · have h1 : 1 ≤ max_element simi / MAX_DISTANCE := by
        rw [le_div_iff₀ hM]
        linarith
      simp [h, List.getD_eq_getElem?_getD, hkey, min_eq_right h1]
    · have h1 : max_element simi / MAX_DISTANCE ≤ 1 := by
        rw [div_le_one hM]
        exact not_lt.mp h
      simp [h, List.getD_eq_getElem?_getD, hkey, min_eq_left h1]
  rw [hval]
  refine ⟨rfl, le_min (div_nonneg hd (le_of_lt hM)) zero_le_one, min_le_right _ _, ?_⟩
  intro hge
  apply min_eq_right
  rw [le_div_iff₀ hM]
  linarith

/-- A probe whose k-th distance is half of `MAX_DISTANCE`. -/
theorem record_probe_score_witness :
    (record_probe 4 1 [1, 2] [7, 8] [0, 0] [[], []]).1.getD 1 0 = min (max_element [1, 2] / 4) 1 ∧
    0 ≤ (record_probe 4 1 [1, 2] [7, 8] [0, 0] [[], []]).1.getD 1 0 ∧
    (record_probe 4 1 [1, 2] [7, 8] [0, 0] [[], []]).1.getD 1 0 ≤ 1 ∧
    ((4 : ℚ) ≤ max_element [1, 2] →
      (record_probe 4 1 [1, 2] [7, 8] [0, 0] [[], []]).1.getD 1 0 = 1) :=
  record_probe_score 4 1 [1, 2] [7, 8] [0, 0] [[], []] (by norm_num)
    (by norm_num [max_element]) (by decide)

/-- C5: for a query `q` and a threshold `lambda` for which some list has regularized cost
`<= lambda`, the prediction `compute_predictions` returns for `q` is the snapshot stored at a list
`index` that is admitted and whose cost is the largest among the admitted lists. -/
theorem compute_predictions_max_cost {sort : List (ℚ × Nat) → List (ℚ × Nat)}
    (hsort : IsStdSort pairLess sort) (lambda : ℚ) (nonconf_scores : List (List ℚ))
    (all_preds : List (List (List Int))) (q : Nat) (hq : q < nonconf_scores.length)
    (hshape : (all_preds.getD q []).length = (nonconf_scores.getD q []).length)
    (hex : ∃ l, l < (nonconf_scores.getD q []).length ∧
      (nonconf_scores.getD q []).getD l 0 ≤ lambda) :
    ∃ index, index < (nonconf_scores.getD q []).length ∧
      (nonconf_scores.getD q []).getD index 0 ≤ lambda ∧
      (∀ l, l < (nonconf_scores.getD q []).length →
        (nonconf_scores.getD q []).getD l 0 ≤ lambda →
        (nonconf_scores.getD q []).getD l 0 ≤ (nonconf_scores.getD q []).getD index 0) ∧
      (all_preds.getD q [])[index]?
        = some ((compute_predictions sort lambda nonconf_scores all_preds).1.getD q []) := by
  obtain ⟨index, hi, hia, hmax, heq⟩ := compute_predictions_query_admitted hsort lambda
    (nonconf_scores.getD q []) (all_preds.getD q []) hex
  refine ⟨index, hi, hia, fun l hl hla => pairLess_false_fst (hmax l hl hla), ?_⟩
  rw [(compute_predictions_getD sort lambda nonconf_scores all_preds q hq).1, heq]
  have hlt : index < (all_preds.getD q []).length := by rw [hshape]; exact hi
  rw [List.getD_eq_getElem (all_preds.getD q []) [] hlt, List.getElem?_eq_getElem hlt]

/-- A query with costs `1/10, 1/5` at threshold `1/5`. -/
theorem compute_predictions_max_cost_witness :
    ∃ index, index < ([[(1 : ℚ) / 10, 1 / 5]].getD 0 []).length ∧
      ([[(1 : ℚ) / 10, 1 / 5]].getD 0 []).getD index 0 ≤ 1 / 5 ∧
      (∀ l, l < ([[(1 : ℚ) / 10, 1 / 5]].getD 0 []).length →
        ([[(1 : ℚ) / 10, 1 / 5]].getD 0 []).getD l 0 ≤ 1 / 5 →
        ([[(1 : ℚ) / 10, 1 / 5]].getD 0 []).getD l 0
          ≤ ([[(1 : ℚ) / 10, 1 / 5]].getD 0 []).getD index 0) ∧
      ([[[5], [7]]].getD 0 [])[index]?
        = some ((compute_predictions (insertionSortBy pairLess) (1 / 5) [[1 / 10, 1 / 5]]
            [[[5], [7]]]).1.getD 0 []) :=
  compute_predictions_max_cost insertionSortBy_pairLess (1 / 5) [[1 / 10, 1 / 5]] [[[5], [7]]] 0
    (by decide) (by decide) ⟨0, by decide, by norm_num⟩


theorem recall_query_nil (gt : List Int) : recall_query [] gt = 1 := by
  simp [recall_query, int_set]

theorem recall_per_query_getD (prediction_set gt_labels : List (List Int)) (q : Nat)
    (hq : q < prediction_set.length) :
    (recall_per_query prediction_set gt_labels).getD q 0
      = recall_query (prediction_set.getD q []) (gt_labels.getD q []) := by
  unfold recall_per_query
  rw [getD_map_of_lt _ (List.range prediction_set.length) q (by simpa using hq) 0]
  simp [List.getD_eq_getElem?_getD, List.getElem?_range hq]

/-- C6: for a query `q` and a threshold `lambda` such that no list of `q` has regularized cost
`<= lambda`, `compute_predictions` predicts the empty set and reports -1 clusters searched, and
when the ground truth of `q` is not empty `recall_per_query` gives `q` the miss rate 1. -/
theorem compute_predictions_none_admitted {sort : List (ℚ × Nat) → List (ℚ × Nat)}
    (hsort : IsStdSort pairLess sort) (lambda : ℚ) (nonconf_scores : List (List ℚ))
    (all_preds : List (List (List Int))) (labels : List (List Int)) (q : Nat)
    (hq : q < nonconf_scores.length)
    (hnone : ∀ l, l < (nonconf_scores.getD q []).length →
      lambda < (nonconf_scores.getD q []).getD l 0) :
    (compute_predictions sort lambda nonconf_scores all_preds).1[q]? = some [] ∧
    (compute_predictions sort lambda nonconf_scores all_preds).2[q]? = some (-1) ∧
    (labels.getD q [] ≠ [] →
      (recall_per_query (compute_predictions sort lambda nonconf_scores all_preds).1 labels).getD
        q 0 = 1) := by
  have hempty := compute_predictions_query_empty hsort lambda (nonconf_scores.getD q [])
    (all_preds.getD q []) (fun l hl => not_le.mpr (hnone l hl))
  have hget := compute_predictions_getD sort lambda nonconf_scores all_preds q hq
  have hlen := (compute_predictions_length sort lambda nonconf_scores all_preds).1
  have h1 : (compute_predictions sort lambda nonconf_scores all_preds).1.getD q [] = [] := by
    rw [hget.1, hempty]
  have hlen2 := (compute_predictions_length sort lambda nonconf_scores all_preds).2
  have h2 : (compute_predictions sort lambda nonconf_scores all_preds).2.getD q 0 = -1 := by
    rw [hget.2, hempty]
  have hq1 : q < (compute_predictions sort lambda nonconf_scores all_preds).1.length := by
    rw [hlen]; exact hq
  have hq2 : q < (compute_predictions sort lambda nonconf_scores all_preds).2.length := by
    rw [hlen2]; exact hq
  refine ⟨?_, ?_, fun _ => ?_⟩
  · rw [List.getD_eq_getElem _ _ hq1] at h1
    rw [List.getElem?_eq_getElem hq1, h1]
  · rw [List.getD_eq_getElem _ _ hq2] at h2
    rw [List.getElem?_eq_getElem hq2, h2]
  · rw [recall_per_query_getD _ _ q (by rw [hlen]; exact hq), h1, recall_query_nil]

/-- A query whose two costs both exceed the threshold. -/
theorem compute_predictions_none_admitted_witness :
    (compute_predictions (insertionSortBy pairLess) (1 / 20) [[1 / 10, 1 / 5]]
      [[[5], [7]]]).1[0]? = some [] ∧
    (compute_predictions (insertionSortBy pairLess) (1 / 20) [[1 / 10, 1 / 5]]
      [[[5], [7]]]).2[0]? = some (-1) ∧
    ([[(5 : Int)]].getD 0 [] ≠ [] →
      (recall_per_query (compute_predictions (insertionSortBy pairLess) (1 / 20)
        [[1 / 10, 1 / 5]] [[[5], [7]]]).1 [[5]]).getD 0 0 = 1) :=
  compute_predictions_none_admitted insertionSortBy_pairLess (1 / 20) [[1 / 10, 1 / 5]]
    [[[5], [7]]] [[5]] 0 (by decide)
    (by
      intro l hl
      have hl2 : l < 2 := hl
      interval_cases l <;> norm_num)

/-- C7, the code at the failing input: the predicted id `2^32 + 5` and the ground-truth id `5`
are different 64-bit ids, so the specification's miss rate is 1, but both become the `int` 5 in
the `std::set<int>` of `recall_per_query`, which returns the miss rate 0. -/
theorem recall_per_query_truncates_ids :
    recall_per_query [[4294967301]] [[5]] = [0] ∧ spec_miss_rate [4294967301] [5] = 1 := by
  decide!

theorem toInt32_of_range (x : Int) (h1 : -2 ^ 31 ≤ x) (h2 : x < 2 ^ 31) : toInt32 x = x := by
  unfold toInt32
  rw [Int.emod_eq_of_lt (by omega) (by omega)]
  ring

theorem int_set_of_range (ids : List Int) (h : ∀ x ∈ ids, -2 ^ 31 ≤ x ∧ x < 2 ^ 31) :
    int_set ids = ids.dedup := by
  unfold int_set
  have : ids.map toInt32 = ids := by
    conv_rhs => rw [← List.map_id ids]
    exact List.map_congr_left (fun x hx => toInt32_of_range x (h x hx).1 (h x hx).2)
  rw [this]

theorem recall_query_eq_spec (prediction gt : List Int)
    (hp : ∀ x ∈ prediction, -2 ^ 31 ≤ x ∧ x < 2 ^ 31)
    (hg : ∀ x ∈ gt, -2 ^ 31 ≤ x ∧ x < 2 ^ 31) (hnodup : gt.Nodup) :
    recall_query prediction gt = spec_miss_rate prediction gt := by
  unfold recall_query spec_miss_rate
  simp only [int_set_of_range _ hp, int_set_of_range _ hg]
  have h1 : ((prediction.dedup.filter (fun pred => decide (pred ∈ gt.dedup))).length)
      = (prediction.toFinset ∩ gt.toFinset).card := by
    rw [← List.toFinset_card_of_nodup ((List.nodup_dedup prediction).filter _)]
    congr 1
    ext x
    simp
  have h2 : gt.length = gt.toFinset.card := (List.toFinset_card_of_nodup hnodup).symm
  rw [h1, h2]


theorem recall_query_le_one (prediction gt : List Int) : recall_query prediction gt ≤ 1 := by
  unfold recall_query
  have : (0 : ℚ) ≤ (((int_set prediction).filter
      (fun pred => decide (pred ∈ int_set gt))).length : ℚ) / (gt.length : ℚ) :=
    div_nonneg (Nat.cast_nonneg _) (Nat.cast_nonneg _)
  linarith

theorem miss_rate_eq (sort : List (ℚ × Nat) → List (ℚ × Nat)) (lambda : ℚ)
    (nonconf_scores : List (List ℚ)) (all_preds : List (List (List Int)))
    (labels : List (List Int)) :
    miss_rate sort lambda nonconf_scores all_preds labels
      = ((List.range nonconf_scores.length).map (fun q =>
          recall_query (compute_predictions_query sort lambda (nonconf_scores.getD q [])
            (all_preds.getD q [])).1 (labels.getD q []))).sum / (nonconf_scores.length : ℚ) := by
  have hlen := (compute_predictions_length sort lambda nonconf_scores all_preds).1
  have hmap : recall_per_query (compute_predictions sort lambda nonconf_scores all_preds).1 labels
      = (List.range nonconf_scores.length).map (fun q =>
          recall_query (compute_predictions_query sort lambda (nonconf_scores.getD q [])
            (all_preds.getD q [])).1 (labels.getD q [])) := by
    unfold recall_per_query
    rw [hlen]
    apply List.map_congr_left
    intro q hq
    rw [(compute_predictions_getD sort lambda nonconf_scores all_preds q
      (List.mem_range.mp hq)).1]
  unfold miss_rate false_negative_rate
  simp only [hmap, List.length_map, List.length_range]

theorem query_miss_antitone {sort : List (ℚ × Nat) → List (ℚ × Nat)}
    (hsort : IsStdSort pairLess sort) (sc : List ℚ) (p : List (List Int)) (gt : List Int)
    (himp : SnapshotsImprove sc p gt) (lambda1 lambda2 : ℚ) (hle : lambda1 ≤ lambda2) :
    recall_query (compute_predictions_query sort lambda2 sc p).1 gt
      ≤ recall_query (compute_predictions_query sort lambda1 sc p).1 gt := by
  by_cases hex : ∃ l, l < sc.length ∧ sc.getD l 0 ≤ lambda1
  · obtain ⟨i1, hi1, hi1a, _, heq1⟩ := compute_predictions_query_admitted hsort lambda1 sc p hex
    have hex2 : ∃ l, l < sc.length ∧ sc.getD l 0 ≤ lambda2 := by
      obtain ⟨l, hl, hla⟩ := hex
      exact ⟨l, hl, le_trans hla hle⟩
    obtain ⟨i2, hi2, _, hmax2, heq2⟩ :=
      compute_predictions_query_admitted hsort lambda2 sc p hex2
    rw [heq1, heq2]
    exact himp i1 i2 hi1 hi2 (hmax2 i1 hi1 (le_trans hi1a hle))
  · have hnone : ∀ l, l < sc.length → ¬ sc.getD l 0 ≤ lambda1 := fun l hl hla => hex ⟨l, hl, hla⟩
    rw [compute_predictions_query_empty hsort lambda1 sc p hnone, recall_query_nil]
    exact recall_query_le_one _ _

theorem miss_rate_antitone {sort : List (ℚ × Nat) → List (ℚ × Nat)}
    (hsort : IsStdSort pairLess sort) (nonconf_scores : List (List ℚ))
    (all_preds : List (List (List Int))) (labels : List (List Int))
    (himp : ∀ q, q < nonconf_scores.length →
      SnapshotsImprove (nonconf_scores.getD q []) (all_preds.getD q []) (labels.getD q []))
    (lambda1 lambda2 : ℚ) (hle : lambda1 ≤ lambda2) :
    miss_rate sort lambda2 nonconf_scores all_preds labels
      ≤ miss_rate sort lambda1 nonconf_scores all_preds labels := by
  rw [miss_rate_eq, miss_rate_eq]
  apply div_le_div_of_nonneg_right _ (Nat.cast_nonneg _)
  apply List.sum_le_sum
  intro q hq
  exact query_miss_antitone hsort _ _ _ (himp q (List.mem_range.mp hq)) lambda1 lambda2 hle

theorem sum_range_getD (l : List ℚ) (n : Nat) (hl : l.length = n) :
    ∑ q in Finset.range n, l.getD q 0 = l.sum := by
  subst hl
  induction l using List.reverseRecOn with
  | nil => simp
  | append_singleton xs x ih =>
      rw [List.length_append, List.length_singleton, Finset.sum_range_succ, List.sum_append,
        List.sum_singleton]
      congr 1
      · rw [← ih]
        apply Finset.sum_congr rfl
        intro q hq
        have hq2 : q < xs.length := Finset.mem_range.mp hq
        simp [List.getD_eq_getElem?_getD, List.getElem?_append_left hq2]
      · simp [List.getD_eq_getElem?_getD]

theorem lamhat_threshold_eq (sort : List (ℚ × Nat) → List (ℚ × Nat)) (lambda target : ℚ)
    (labels : List (List Int)) (E : List (List ℚ)) (all_preds : List (List (List Int)))
    (n : Nat) (hE : E.length = n) :
    lamhat_threshold sort lambda target labels E all_preds
      = (∑ q in Finset.range n,
          (recall_per_query (compute_predictions sort lambda E all_preds).1 labels).getD q 0)
          / (n : ℚ) - target := by
  have hrlen : (recall_per_query (compute_predictions sort lambda E all_preds).1 labels).length
      = n := by
    unfold recall_per_query
    rw [List.length_map, List.length_range,
      (compute_predictions_length sort lambda E all_preds).1, hE]
  unfold lamhat_threshold false_negative_rate
  simp only []
  rw [sum_range_getD _ n hrlen, hrlen]

/-- C8: for a split of `n >= 1` queries (scores, snapshots and queries of the same `n` queries,
score rows of one length), the objective that `optimization` hands to the root finder is, at
every `lambda`, the mean over the `n` queries of the per-query miss rate of
`recall_per_query` at `lambda`, minus `alpha' = (n+1)/n * alpha - 1/(n+1)`. -/
theorem optimization_objective_eq (sortR : List (Nat × ℚ) → List (Nat × ℚ))
    (sortP : List (ℚ × Nat) → List (ℚ × Nat)) (n_list : Int) (alpha : ℚ) (kreg : Int)
    (lambda_reg : ℚ) (queries : List (List ℚ)) (labels : List (List Int))
    (nonconf_scores : List (List ℚ)) (all_preds : List (List (List Int))) (n L : Nat)
    (hn : 1 ≤ n) (hqueries : queries.length = n) (hscores : nonconf_scores.length = n)
    (hrows : ∀ row ∈ nonconf_scores, row.length = L) :
    ∃ E F, regularize_scores sortR n_list nonconf_scores lambda_reg kreg = some E ∧
      optimization_objective sortR sortP n_list alpha kreg lambda_reg queries labels
        nonconf_scores all_preds = some F ∧
      ∀ lambda, F lambda
        = (∑ q in Finset.range n,
            (recall_per_query (compute_predictions sortP lambda E all_preds).1 labels).getD q 0)
            / (n : ℚ)
          - (((n : ℚ) + 1) / (n : ℚ) * alpha - 1 / ((n : ℚ) + 1)) := by
  have hne : nonconf_scores ≠ [] := by
    intro h
    rw [h] at hscores
    simp at hscores
    omega
  have hE := regularize_scores_eq sortR n_list L nonconf_scores lambda_reg kreg hrows hne
  refine ⟨_, fun lambda => lamhat_threshold sortP lambda (target_fnr queries.length alpha) labels
    (nonconf_scores.map (fun row => regularize_row sortR L row lambda_reg kreg
      ((1 + lambda_reg * ((n_list - kreg : Int) : ℚ)) + 10))) all_preds, hE, ?_, ?_⟩
  · unfold optimization_objective
    rw [hE]
  · intro lambda
    beta_reduce
    rw [lamhat_threshold_eq sortP lambda _ labels _ all_preds n
      (by rw [List.length_map, hscores]), hqueries]
    rfl

/-- The objective of a split of one query. -/
theorem optimization_objective_eq_witness :
    ∃ E F, regularize_scores (insertionSortBy scoreLess) 2 [[1 / 2, 1]] (1 / 10) 1 = some E ∧
      optimization_objective (insertionSortBy scoreLess) (insertionSortBy pairLess) 2 (1 / 5) 1
        (1 / 10) [[]] [[5]] [[1 / 2, 1]] [[[5], [7]]] = some F ∧
      ∀ lambda, F lambda
        = (∑ q in Finset.range 1,
            (recall_per_query (compute_predictions (insertionSortBy pairLess) lambda E
              [[[5], [7]]]).1 [[5]]).getD q 0) / ((1 : Nat) : ℚ)
          - ((((1 : Nat) : ℚ) + 1) / ((1 : Nat) : ℚ) * (1 / 5) - 1 / (((1 : Nat) : ℚ) + 1)) :=
  optimization_objective_eq (insertionSortBy scoreLess) (insertionSortBy pairLess) 2 (1 / 5) 1
    (1 / 10) [[]] [[5]] [[1 / 2, 1]] [[[5], [7]]] 1 2 (by decide) (by decide) (by decide)
    (by simp)


/-- C9 as stated fails: with costs `1/22 < 1/11`, snapshots `[5]` and `[7]` and ground truth
`[5]`, the miss rate is 0 at `lambda = 1/22` and 1 at `lambda = 1/11`. -/
theorem miss_rate_not_antitone :
    ¬ (miss_rate (insertionSortBy pairLess) (1 / 11) [[1 / 22, 1 / 11]] [[[5], [7]]] [[5]]
        ≤ miss_rate (insertionSortBy pairLess) (1 / 22) [[1 / 22, 1 / 11]] [[[5], [7]]] [[5]]) := by
  decide!

/-- C9, amended: on a fixed split in which every query has a non-empty ground truth and the miss
rate of its snapshots does not increase along the lists taken by ascending regularized cost
(ties by list id), the empirical miss rate of `compute_predictions` followed by
`false_negative_rate` is non-increasing in `lambda`. -/
theorem miss_rate_antitone_of_improving {sort : List (ℚ × Nat) → List (ℚ × Nat)}
    (hsort : IsStdSort pairLess sort) (nonconf_scores : List (List ℚ))
    (all_preds : List (List (List Int))) (labels : List (List Int))
    (_hgt : ∀ q, q < nonconf_scores.length → labels.getD q [] ≠ [])
    (himp : ∀ q, q < nonconf_scores.length →
      SnapshotsImprove (nonconf_scores.getD q []) (all_preds.getD q []) (labels.getD q []))
    (lambda1 lambda2 : ℚ) (hle : lambda1 ≤ lambda2) :
    miss_rate sort lambda2 nonconf_scores all_preds labels
      ≤ miss_rate sort lambda1 nonconf_scores all_preds labels :=
  miss_rate_antitone hsort nonconf_scores all_preds labels himp lambda1 lambda2 hle

/-- The split of the counterexample with the two snapshots exchanged. -/
theorem miss_rate_antitone_of_improving_witness :
    miss_rate (insertionSortBy pairLess) (1 / 11) [[1 / 22, 1 / 11]] [[[7], [5]]] [[5]]
      ≤ miss_rate (insertionSortBy pairLess) (1 / 22) [[1 / 22, 1 / 11]] [[[7], [5]]] [[5]] :=
  miss_rate_antitone_of_improving insertionSortBy_pairLess [[1 / 22, 1 / 11]] [[[7], [5]]] [[5]]
    (by
      intro q hq
      have hq2 : q < 1 := hq
      interval_cases q
      decide)
    (by
      intro q hq
      have hq2 : q < 1 := hq
      interval_cases q
      intro a b ha hb
      have ha2 : a < 2 := ha
      have hb2 : b < 2 := hb
      interval_cases a <;> interval_cases b <;> decide!)
    (1 / 22) (1 / 11) (by norm_num)


theorem recall_query_nonneg (prediction gt : List Int) : 0 ≤ recall_query prediction gt := by
  unfold recall_query
  have h1 : ((int_set prediction).filter (fun pred => decide (pred ∈ int_set gt))).length
      ≤ (int_set gt).length := by
    apply List.Subperm.length_le
    apply List.Nodup.subperm ((List.nodup_dedup _).filter _)
    intro x hx
    simpa using (List.mem_filter.mp hx).2
  have h2 : (int_set gt).length ≤ gt.length := by
    have := (List.dedup_sublist (gt.map toInt32)).length_le
    simpa [int_set] using this
  have h3 : (((int_set prediction).filter (fun pred => decide (pred ∈ int_set gt))).length : ℚ)
      ≤ (gt.length : ℚ) := by exact_mod_cast le_trans h1 h2
  have h4 : (((int_set prediction).filter (fun pred => decide (pred ∈ int_set gt))).length : ℚ)
      / (gt.length : ℚ) ≤ 1 := div_le_one_of_le₀ h3 (Nat.cast_nonneg _)
  linarith

theorem miss_rate_nonneg (sort : List (ℚ × Nat) → List (ℚ × Nat)) (lambda : ℚ)
    (nonconf_scores : List (List ℚ)) (all_preds : List (List (List Int)))
    (labels : List (List Int)) : 0 ≤ miss_rate sort lambda nonconf_scores all_preds labels := by
  rw [miss_rate_eq]
  apply div_nonneg _ (Nat.cast_nonneg _)
  apply List.sum_nonneg
  intro x hx
  obtain ⟨q, _, rfl⟩ := List.mem_map.mp hx
  exact recall_query_nonneg _ _

theorem admit_loop_congr (lambda1 lambda2 : ℚ) (l : List (ℚ × Nat))
    (h : ∀ x ∈ l, (x.1 ≤ lambda1 ↔ x.1 ≤ lambda2)) (i : Nat) (st : ℚ × Nat × Int) :
    admit_loop lambda1 l i st = admit_loop lambda2 l i st := by
  induction l generalizing i st with
  | nil => rfl
  | cons a rest ih =>
      have ha := h a (List.mem_cons_self _ _)
      have hrest : ∀ x ∈ rest, (x.1 ≤ lambda1 ↔ x.1 ≤ lambda2) :=
        fun x hx => h x (List.mem_cons_of_mem _ hx)
      by_cases h1 : a.1 ≤ lambda1
      · simp only [admit_loop, h1, ha.mp h1, if_true]
        exact ih hrest _ _
      · have h2 : ¬ a.1 ≤ lambda2 := fun h2 => h1 (ha.mpr h2)
        simp only [admit_loop, h1, h2, if_false]

theorem compute_predictions_query_congr {sort : List (ℚ × Nat) → List (ℚ × Nat)}
    (hsort : IsStdSort pairLess sort) (lambda1 lambda2 : ℚ) (sc : List ℚ)
    (p : List (List Int))
    (h : ∀ l, l < sc.length → (sc.getD l 0 ≤ lambda1 ↔ sc.getD l 0 ≤ lambda2)) :
    compute_predictions_query sort lambda1 sc p = compute_predictions_query sort lambda2 sc p := by
  unfold compute_predictions_query
  have hc := admit_loop_congr lambda1 lambda2 (indexed_sc sort sc) (by
    intro x hx
    obtain ⟨hx2, hx1⟩ := (mem_indexed_sc hsort sc x).mp hx
    rw [hx1]
    exact h _ hx2) 0 (-1, (indexed_sc sort sc).length, 0)
  simp only [hc]

theorem miss_rate_congr {sort : List (ℚ × Nat) → List (ℚ × Nat)}
    (hsort : IsStdSort pairLess sort) (lambda1 lambda2 : ℚ) (E : List (List ℚ))
    (all_preds : List (List (List Int))) (labels : List (List Int))
    (h : ∀ e ∈ E.flatten, (e ≤ lambda1 ↔ e ≤ lambda2)) :
    miss_rate sort lambda1 E all_preds labels = miss_rate sort lambda2 E all_preds labels := by
  rw [miss_rate_eq, miss_rate_eq]
  congr 2
  apply List.map_congr_left
  intro q hq
  have hq2 : q < E.length := List.mem_range.mp hq
  rw [compute_predictions_query_congr hsort lambda1 lambda2 (E.getD q []) (all_preds.getD q [])]
  intro l hl
  apply h
  apply List.mem_flatten_of_mem (l := E.getD q [])
  · rw [List.getD_eq_getElem E [] hq2]
    exact List.getElem_mem _
  · rw [List.getD_eq_getElem (E.getD q []) 0 hl]
    exact List.getElem_mem _

theorem exists_least_threshold {sort : List (ℚ × Nat) → List (ℚ × Nat)}
    (hsort : IsStdSort pairLess sort) (E : List (List ℚ))
    (all_preds : List (List (List Int))) (labels : List (List Int))
    (himp : ∀ q, q < E.length →
      SnapshotsImprove (E.getD q []) (all_preds.getD q []) (labels.getD q []))
    (target lo hi : ℚ) (hlo : target < miss_rate sort lo E all_preds labels)
    (hhi : miss_rate sort hi E all_preds labels ≤ target) :
    ∃ lamstar, lo < lamstar ∧ lamstar ≤ hi ∧
      miss_rate sort lamstar E all_preds labels ≤ target ∧
      ∀ lam, miss_rate sort lam E all_preds labels ≤ target → lamstar ≤ lam := by
  have hmono := miss_rate_antitone hsort E all_preds labels himp
  have above : ∀ lam, miss_rate sort lam E all_preds labels ≤ target → lo < lam := by
    intro lam hlam
    by_contra hcon
    exact absurd (lt_of_lt_of_le hlo (le_trans (hmono lam lo (not_lt.mp hcon)) hlam))
      (lt_irrefl _)
  let S : Finset ℚ := (insert hi E.flatten.toFinset).filter
    (fun v => lo < v ∧ v ≤ hi ∧ miss_rate sort v E all_preds labels ≤ target)
  have hS : S.Nonempty :=
    ⟨hi, Finset.mem_filter.mpr ⟨Finset.mem_insert_self _ _, above hi hhi, le_refl _, hhi⟩⟩
  obtain ⟨lamstar, hmem, hmin⟩ := Finset.exists_min_image S id hS
  obtain ⟨_, h1, h2, h3⟩ := Finset.mem_filter.mp hmem
  refine ⟨lamstar, h1, h2, h3, ?_⟩
  intro lam hlam
  by_cases hge : hi ≤ lam
  · exact le_trans h2 hge
  · have hlt : lam < hi := not_le.mp hge
    have hlo2 : lo < lam := above lam hlam
    let T : Finset ℚ := E.flatten.toFinset.filter (fun e => e ≤ lam)
    by_cases hT : T.Nonempty
    · obtain ⟨v, hv, hvmax⟩ := Finset.exists_max_image T id hT
      obtain ⟨hvE, hvl⟩ := Finset.mem_filter.mp hv
      have heq : miss_rate sort v E all_preds labels = miss_rate sort lam E all_preds labels := by
        apply miss_rate_congr hsort
        intro e he
        constructor
        · intro h; exact le_trans h hvl
        · intro h
          exact hvmax e (Finset.mem_filter.mpr ⟨List.mem_toFinset.mpr he, h⟩)
      have hvt : miss_rate sort v E all_preds labels ≤ target := by rw [heq]; exact hlam
      have hvS : v ∈ S := Finset.mem_filter.mpr
        ⟨Finset.mem_insert_of_mem hvE, above v hvt, le_of_lt (lt_of_le_of_lt hvl hlt), hvt⟩
      exact le_trans (hmin v hvS) hvl
    · have hnone : ∀ e ∈ E.flatten, ¬ e ≤ lam := by
        intro e he hle
        exact hT ⟨e, Finset.mem_filter.mpr ⟨List.mem_toFinset.mpr he, hle⟩⟩
      have heq : miss_rate sort lam E all_preds labels = miss_rate sort lo E all_preds labels := by
        apply miss_rate_congr hsort
        intro e he
        constructor
        · intro h; exact absurd h (hnone e he)
        · intro h; exact absurd (le_trans h (le_of_lt hlo2)) (hnone e he)
      rw [heq] at hlam
      exact absurd (lt_of_lt_of_le hlo hlam) (lt_irrefl _)


/-- C10 as stated fails: for a calibration split of one query and `alpha = 1/10` the target
`alpha'` is `-3/10`, below every miss rate, so whatever root finder is used the value that
`optimization` returns has an empirical miss rate above `alpha'`. -/
theorem optimization_target_out_of_reach :
    ¬ ∃ (S : RootSolver) (lamhat : ℚ) (E : List (List ℚ)),
      optimization S (insertionSortBy scoreLess) (insertionSortBy pairLess) 1 (1 / 10) 1 0
        [[]] [[5]] [[0]] [[[5]]] = some lamhat ∧
      regularize_scores (insertionSortBy scoreLess) 1 [[0]] 0 1 = some E ∧
      miss_rate (insertionSortBy pairLess) lamhat E [[[5]]] [[5]] ≤ target_fnr 1 (1 / 10) := by
  rintro ⟨S, lamhat, E, _, _, h⟩
  have h0 := miss_rate_nonneg (insertionSortBy pairLess) lamhat E [[[5]]] [[5]]
  have ht : target_fnr 1 (1 / 10) < 0 := by norm_num [target_fnr]
  linarith

/-- C10, amended: `optimization` returns the root the solver reports at the end of its loop for
the objective `miss_rate(lambda) - alpha'`. If the solver's final bracket `[x_lower, x_upper]`
holds that root and the objective changes sign over it (`miss_rate(x_lower) > alpha'` and
`miss_rate(x_upper) <= alpha'`), and on the split every ground truth is non-empty and the
snapshots' miss rates do not increase along ascending regularized cost, then there is a smallest
threshold whose empirical miss rate is `<= alpha'`, it lies in `(x_lower, x_upper]`, and the
returned `lamhat` differs from it by at most `x_upper - x_lower`. -/
theorem optimization_brackets_least_threshold (S : RootSolver)
    (sortR : List (Nat × ℚ) → List (Nat × ℚ)) {sortP : List (ℚ × Nat) → List (ℚ × Nat)}
    (hsortP : IsStdSort pairLess sortP) (n_list : Int) (alpha : ℚ) (kreg : Int)
    (lambda_reg : ℚ) (queries : List (List ℚ)) (labels : List (List Int))
    (nonconf_scores : List (List ℚ)) (all_preds : List (List (List Int)))
    (E : List (List ℚ))
    (hE : regularize_scores sortR n_list nonconf_scores lambda_reg kreg = some E)
    (_hgt : ∀ q, q < E.length → labels.getD q [] ≠ [])
    (himp : ∀ q, q < E.length →
      SnapshotsImprove (E.getD q []) (all_preds.getD q []) (labels.getD q []))
    (st : S.State)
    (hst : st = optimization_state S (fun lambda =>
      lamhat_threshold sortP lambda (target_fnr queries.length alpha) labels E all_preds))
    (hlo : target_fnr queries.length alpha
      < miss_rate sortP (S.gsl_root_fsolver_x_lower st) E all_preds labels)
    (hhi : miss_rate sortP (S.gsl_root_fsolver_x_upper st) E all_preds labels
      ≤ target_fnr queries.length alpha)
    (hroot : S.gsl_root_fsolver_x_lower st ≤ S.gsl_root_fsolver_root st ∧
      S.gsl_root_fsolver_root st ≤ S.gsl_root_fsolver_x_upper st) :
    ∃ lamhat lamstar,
      optimization S sortR sortP n_list alpha kreg lambda_reg queries labels nonconf_scores
        all_preds = some lamhat ∧
      lamhat = S.gsl_root_fsolver_root st ∧
      S.gsl_root_fsolver_x_lower st < lamstar ∧ lamstar ≤ S.gsl_root_fsolver_x_upper st ∧
      miss_rate sortP lamstar E all_preds labels ≤ target_fnr queries.length alpha ∧
      (∀ lam, miss_rate sortP lam E all_preds labels ≤ target_fnr queries.length alpha →
        lamstar ≤ lam) ∧
      |lamhat - lamstar| ≤ S.gsl_root_fsolver_x_upper st - S.gsl_root_fsolver_x_lower st := by
  obtain ⟨lamstar, h1, h2, h3, h4⟩ := exists_least_threshold hsortP E all_preds labels himp
    (target_fnr queries.length alpha) _ _ hlo hhi
  refine ⟨S.gsl_root_fsolver_root st, lamstar, ?_, rfl, h1, h2, h3, h4, ?_⟩
  · unfold optimization optimization_objective
    rw [hE, hst]
  · rw [abs_le]
    constructor <;> linarith [hroot.1, hroot.2]

/-- Bisection on a split of one query with costs `1/22, 1/11` and `alpha = 1/2`. -/
theorem optimization_brackets_least_threshold_witness :
    ∃ lamhat lamstar,
      optimization bisectionSolver (insertionSortBy scoreLess) (insertionSortBy pairLess) 2
        (1 / 2) 1 0 [[]] [[5]] [[1 / 2, 0]] [[[7], [5]]] = some lamhat ∧
      lamhat = bisectionSolver.gsl_root_fsolver_root (optimization_state bisectionSolver
        (fun lambda => lamhat_threshold (insertionSortBy pairLess) lambda
          (target_fnr [([] : List ℚ)].length (1 / 2)) [[5]] [[1 / 22, 1 / 11]] [[[7], [5]]])) ∧
      bisectionSolver.gsl_root_fsolver_x_lower (optimization_state bisectionSolver
        (fun lambda => lamhat_threshold (insertionSortBy pairLess) lambda
          (target_fnr [([] : List ℚ)].length (1 / 2)) [[5]] [[1 / 22, 1 / 11]] [[[7], [5]]]))
        < lamstar ∧
      lamstar ≤ bisectionSolver.gsl_root_fsolver_x_upper (optimization_state bisectionSolver
        (fun lambda => lamhat_threshold (insertionSortBy pairLess) lambda
          (target_fnr [([] : List ℚ)].length (1 / 2)) [[5]] [[1 / 22, 1 / 11]] [[[7], [5]]])) ∧
      miss_rate (insertionSortBy pairLess) lamstar [[1 / 22, 1 / 11]] [[[7], [5]]] [[5]]
        ≤ target_fnr [([] : List ℚ)].length (1 / 2) ∧
      (∀ lam, miss_rate (insertionSortBy pairLess) lam [[1 / 22, 1 / 11]] [[[7], [5]]] [[5]]
        ≤ target_fnr [([] : List ℚ)].length (1 / 2) → lamstar ≤ lam) ∧
      |lamhat - lamstar|
        ≤ bisectionSolver.gsl_root_fsolver_x_upper (optimization_state bisectionSolver
            (fun lambda => lamhat_threshold (insertionSortBy pairLess) lambda
              (target_fnr [([] : List ℚ)].length (1 / 2)) [[5]] [[1 / 22, 1 / 11]]
              [[[7], [5]]]))
          - bisectionSolver.gsl_root_fsolver_x_lower (optimization_state bisectionSolver
            (fun lambda => lamhat_threshold (insertionSortBy pairLess) lambda
              (target_fnr [([] : List ℚ)].length (1 / 2)) [[5]] [[1 / 22, 1 / 11]]
              [[[7], [5]]])) :=
  optimization_brackets_least_threshold bisectionSolver (insertionSortBy scoreLess)
    insertionSortBy_pairLess 2 (1 / 2) 1 0 [[]] [[5]] [[1 / 2, 0]] [[[7], [5]]]
    [[1 / 22, 1 / 11]] (by decide!)
    (by
      intro q hq
      have hq2 : q < 1 := hq
      interval_cases q
      decide)
    (by
      intro q hq
      have hq2 : q < 1 := hq
      interval_cases q
      intro a b ha hb
      have ha2 : a < 2 := ha
      have hb2 : b < 2 := hb
      interval_cases a <;> interval_cases b <;> decide!)
    _ rfl (by decide!) (by decide!) (by decide!)

end IndexIVF

namespace ConannCache

end ConannCache

namespace IndexIVF

theorem getElem?_drop_take {α : Type} (l : List α) (c t i : Nat) (hi : i < t) :
    ((l.drop c).take t)[i]? = l[c + i]? := by
  rw [List.getElem?_take_of_lt hi, List.getElem?_drop]

theorem getElem?_range_map {β : Type} (f : Nat → β) (n i : Nat) (hi : i < n) :
    ((List.range n).map f)[i]? = some (f i) := by
  rw [List.getElem?_map, List.getElem?_range hi]
  rfl

end IndexIVF

namespace IndexIVF

end IndexIVF

namespace IndexIVF

theorem read_from_cache_of_check (T : ConannCache.Elem) (fs : ConannCache.FileSystem)
    (key : String) (h : ConannCache.check_cached_file fs key = true) :
    ∃ v, ConannCache.read_from_cache T fs key = Except.ok v := by
  unfold ConannCache.check_cached_file at h
  obtain ⟨bytes, hb⟩ := Option.isSome_iff_exists.mp h
  refine ⟨(ConannCache._read_nested_vector T { bytes := bytes, good := true }).1, ?_⟩
  simp only [ConannCache.read_from_cache, ConannCache._read_from_file, hb]

/-- C20: `prep_execution` reads the score matrix and the snapshots from the cache when caching is
enabled and both files exist for the key, and in every other case, so also when only one of
the two files is missing, it takes both the score matrix and the snapshots from
`compute_scores`. -/
theorem prep_load_cache_condition (floatBits : ℚ → Nat) (floatOfBits : Nat → ℚ)
    (enable_cache : Bool) (fs : ConannCache.FileSystem) (dataset_name : String) (n_list : Int)
    (ks : List Int) (computed_scores : List (List ℚ))
    (computed_preds : List (List (List Int))) :
    (¬ (enable_cache = true ∧
        ConannCache.check_cached_file fs (cacheKeyNonConf dataset_name n_list ks) = true ∧
        ConannCache.check_cached_file fs (cacheKeyAllPreds dataset_name n_list ks) = true) →
      ∃ fs', prep_load floatBits floatOfBits enable_cache fs dataset_name n_list ks
          (Except.ok (computed_scores, computed_preds))
        = Except.ok (computed_scores, computed_preds, fs')) ∧
    ((enable_cache = true ∧
        ConannCache.check_cached_file fs (cacheKeyNonConf dataset_name n_list ks) = true ∧
        ConannCache.check_cached_file fs (cacheKeyAllPreds dataset_name n_list ks) = true) →
      ∃ (bits : List (List Nat)) (cached_preds : List (List (List Int))),
        ConannCache.read_from_cache (ConannCache.Elem.vector ConannCache.Elem.float) fs
          (cacheKeyNonConf dataset_name n_list ks) = Except.ok bits ∧
        ConannCache.read_from_cache
          (ConannCache.Elem.vector (ConannCache.Elem.vector ConannCache.Elem.int64)) fs
          (cacheKeyAllPreds dataset_name n_list ks) = Except.ok cached_preds ∧
        prep_load floatBits floatOfBits enable_cache fs dataset_name n_list ks
          (Except.ok (computed_scores, computed_preds))
        = Except.ok (bits.map (fun row => row.map floatOfBits), cached_preds, fs)) := by
  constructor
  · intro h
    have hcond : (enable_cache
        && ConannCache.check_cached_file fs (cacheKeyNonConf dataset_name n_list ks)
        && ConannCache.check_cached_file fs (cacheKeyAllPreds dataset_name n_list ks))
        = false := by
      rw [Bool.eq_false_iff]
      intro hc
      simp only [Bool.and_eq_true] at hc
      exact h ⟨hc.1.1, hc.1.2, hc.2⟩
    unfold prep_load
    simp only [hcond]
    cases enable_cache
    · exact ⟨fs, rfl⟩
    · exact ⟨_, rfl⟩
  · rintro ⟨h1, h2, h3⟩
    obtain ⟨bits, hb⟩ := read_from_cache_of_check
      (ConannCache.Elem.vector ConannCache.Elem.float) fs _ h2
    obtain ⟨cached, hp⟩ := read_from_cache_of_check
      (ConannCache.Elem.vector (ConannCache.Elem.vector ConannCache.Elem.int64)) fs _ h3
    refine ⟨bits, cached, hb, hp, ?_⟩
    unfold prep_load
    simp only [h1, h2, h3, Bool.and_self, if_true, hb, hp]

/-- Caching is enabled and the scores file exists, but the snapshots file has been deleted: both
the scores and the snapshots are the computed ones. -/
theorem prep_load_cache_condition_witness :
    ∃ fs', prep_load (fun _ => 0) (fun _ => 0) true scoresOnlyDisk "sift" 2 [1]
        (Except.ok ([[1 / 2, 0]], [[[5], [7]]]))
      = Except.ok ([[1 / 2, 0]], [[[5], [7]]], fs') :=
  (prep_load_cache_condition (fun _ => 0) (fun _ => 0) true scoresOnlyDisk "sift" 2 [1]
    [[1 / 2, 0]] [[[5], [7]]]).1 (by decide!)

end IndexIVF

namespace IndexIVF

theorem range_map_getD (sc : List ℚ) : (List.range sc.length).map (fun l => sc.getD l 0) = sc := by
  apply List.ext_getElem
  · simp
  · intro i h1 h2
    simp [List.getD_eq_getElem?_getD, List.getElem?_eq_getElem h2]

theorem getElem?_eq_some_getD {α : Type} (l : List α) (i : Nat) (h : i < l.length) (d : α) :
    l[i]? = some (l.getD i d) := by
  simp [List.getD_eq_getElem?_getD, List.getElem?_eq_getElem h]

theorem getD_mem_of_lt {α : Type} (l : List α) (i : Nat) (h : i < l.length) (d : α) :
    l.getD i d ∈ l := by
  have h1 : l.getD i d = l.get ⟨i, h⟩ := by
    simp [List.getD_eq_getElem?_getD, List.getElem?_eq_getElem h]
  rw [h1]
  exact List.get_mem l i h

theorem admitted_count_eq_countP (lambda : ℚ) (sc : List ℚ) :
    ((List.range sc.length).filter (fun l => decide (sc.getD l 0 ≤ lambda))).length
      = sc.countP (fun e => decide (e ≤ lambda)) := by
  rw [← List.countP_eq_length_filter]
  conv_rhs => rw [← range_map_getD sc, List.countP_map]
  rfl

/-- C26: for a query with at least one admitted list, the number of clusters searched that
`compute_predictions` reports is the number of entries of the score row that are at most
`lambda`; it is the same for every rearrangement of the row. -/
theorem compute_predictions_cluster_count {sort : List (ℚ × Nat) → List (ℚ × Nat)}
    (hsort : IsStdSort pairLess sort) (lambda : ℚ) (nonconf_scores : List (List ℚ))
    (all_preds : List (List (List Int))) (q : Nat) (hq : q < nonconf_scores.length)
    (hex : ∃ l, l < (nonconf_scores.getD q []).length ∧
      (nonconf_scores.getD q []).getD l 0 ≤ lambda) :
    (compute_predictions sort lambda nonconf_scores all_preds).2[q]?
        = some (((nonconf_scores.getD q []).countP (fun e => decide (e ≤ lambda)) : Nat) : Int)
      ∧ 0 < (nonconf_scores.getD q []).countP (fun e => decide (e ≤ lambda))
      ∧ ∀ (row : List ℚ) (p : List (List Int)), row.Perm (nonconf_scores.getD q []) →
          (compute_predictions_query sort lambda row p).2
            = (((nonconf_scores.getD q []).countP (fun e => decide (e ≤ lambda)) : Nat) : Int) := by
  have hlen := (compute_predictions_length sort lambda nonconf_scores all_preds).2
  have hget := (compute_predictions_getD sort lambda nonconf_scores all_preds q hq).2
  obtain ⟨index, -, -, -, hres⟩ := compute_predictions_query_admitted hsort lambda
    (nonconf_scores.getD q []) (all_preds.getD q []) hex
  obtain ⟨l, hl, hle⟩ := hex
  have hmem : (nonconf_scores.getD q []).getD l 0 ∈ nonconf_scores.getD q [] :=
    getD_mem_of_lt _ l hl 0
  refine ⟨?_, ?_, ?_⟩
  · rw [getElem?_eq_some_getD _ q (by rw [hlen]; exact hq) 0, hget, hres,
      admitted_count_eq_countP]
  · exact List.countP_pos_iff.mpr ⟨_, hmem, by simpa using hle⟩
  · intro row p hperm
    have hex2 : ∃ l, l < row.length ∧ row.getD l 0 ≤ lambda := by
      have hm2 : (nonconf_scores.getD q []).getD l 0 ∈ row := hperm.symm.subset hmem
      obtain ⟨i, hi, hie⟩ := List.getElem_of_mem hm2
      refine ⟨i, hi, ?_⟩
      have h3 : row.getD i 0 = row[i] := by
        rw [List.getD_eq_getElem?_getD, List.getElem?_eq_getElem hi]; rfl
      rw [h3, hie]; exact hle
    obtain ⟨index2, -, -, -, hres2⟩ := compute_predictions_query_admitted hsort lambda row p hex2
    rw [hres2, admitted_count_eq_countP]
    exact congrArg _ (hperm.countP_eq _)

theorem compute_predictions_cluster_count_witness :
    (compute_predictions (insertionSortBy pairLess) (1 / 5) [[1 / 10, 1 / 5, 1 / 2]]
        [[[5], [7], [9]]]).2[0]?
        = some ((([[(1 : ℚ) / 10, 1 / 5, 1 / 2]].getD 0 []).countP
            (fun e => decide (e ≤ 1 / 5)) : Nat) : Int)
      ∧ 0 < ([[(1 : ℚ) / 10, 1 / 5, 1 / 2]].getD 0 []).countP (fun e => decide (e ≤ 1 / 5))
      ∧ ∀ (row : List ℚ) (p : List (List Int)),
          row.Perm ([[(1 : ℚ) / 10, 1 / 5, 1 / 2]].getD 0 []) →
          (compute_predictions_query (insertionSortBy pairLess) (1 / 5) row p).2
            = ((([[(1 : ℚ) / 10, 1 / 5, 1 / 2]].getD 0 []).countP
                (fun e => decide (e ≤ 1 / 5)) : Nat) : Int) :=
  compute_predictions_cluster_count insertionSortBy_pairLess (1 / 5) [[1 / 10, 1 / 5, 1 / 2]]
    [[[5], [7], [9]]] 0 (by decide) ⟨0, by decide, by decide!⟩

end IndexIVF

namespace IndexIVF

theorem rank_of_lt_of_score_gt {sort : List (Nat × ℚ) → List (Nat × ℚ)}
    (hsort : IsStdSort scoreLess sort) (K : Nat) (row : List ℚ) (a b : Nat) (ha : a < K)
    (hb : b < K) (hab : row.getD b 0 < row.getD a 0) :
    rank_of (sorted_classes sort K row) a < rank_of (sorted_classes sort K row) b := by
  have hlen := sorted_classes_length hsort K row
  have hperm := sorted_classes_fst_perm hsort K row
  have hmaplen : ((sorted_classes sort K row).map Prod.fst).length = K := by simpa using hlen
  have hdesc := sorted_classes_descending hsort K row
  have hma : a ∈ (sorted_classes sort K row).map Prod.fst :=
    hperm.mem_iff.mpr (List.mem_range.mpr ha)
  have hmb : b ∈ (sorted_classes sort K row).map Prod.fst :=
    hperm.mem_iff.mpr (List.mem_range.mpr hb)
  have hia : ((sorted_classes sort K row).map Prod.fst).indexOf a < (sorted_classes sort K row).length := by
    have := List.indexOf_lt_length.mpr hma
    simpa using this
  have hib : ((sorted_classes sort K row).map Prod.fst).indexOf b < (sorted_classes sort K row).length := by
    have := List.indexOf_lt_length.mpr hmb
    simpa using this
  have hga : ∀ (i : Nat) (h : i < (sorted_classes sort K row).length),
      (sorted_classes sort K row).get ⟨i, h⟩ = (sorted_classes sort K row).getD i (0, 0) := by
    intro i h
    simp [List.getD_eq_getElem?_getD, List.getElem?_eq_getElem h]
  have hfa : ((sorted_classes sort K row).get ⟨_, hia⟩).1 = a := by
    rw [hga, getD_fst_eq_map _ hia]
    exact List.indexOf_get _
  have hfb : ((sorted_classes sort K row).get ⟨_, hib⟩).1 = b := by
    rw [hga, getD_fst_eq_map _ hib]
    exact List.indexOf_get _
  have hsa := (sorted_classes_snd hsort K row _ (List.get_mem _ _ hia)).2
  have hsb := (sorted_classes_snd hsort K row _ (List.get_mem _ _ hib)).2
  rw [hfa] at hsa
  rw [hfb] at hsb
  unfold rank_of
  by_contra hcon
  have hle : ((sorted_classes sort K row).map Prod.fst).indexOf b
      ≤ ((sorted_classes sort K row).map Prod.fst).indexOf a := by omega
  rcases Nat.lt_or_eq_of_le hle with hlt | heq
  · have := List.pairwise_iff_get.mp hdesc ⟨_, hib⟩ ⟨_, hia⟩ hlt
    rw [hsa, hsb] at this
    exact absurd hab (not_lt.mpr this)
  · have h1 : (sorted_classes sort K row).get ⟨_, hib⟩ = (sorted_classes sort K row).get ⟨_, hia⟩ := by
      congr 1
      exact Fin.ext heq
    rw [h1, hsa] at hsb
    rw [hsb] at hab
    exact lt_irrefl _ hab

end IndexIVF

namespace IndexIVF

end IndexIVF

namespace IndexIVF

theorem target_fnr_bound (n : Nat) (alpha r : ℚ) (hn : 1 ≤ n) (hr : r ≤ target_fnr n alpha) :
    ((n : ℚ) * r + 1) / ((n : ℚ) + 1) ≤ alpha + 1 / ((n : ℚ) + 1) ^ 2 ∧
      ((n : ℚ) * target_fnr n alpha + 1) / ((n : ℚ) + 1) = alpha + 1 / ((n : ℚ) + 1) ^ 2 := by
  have hn0 : (0 : ℚ) < (n : ℚ) := by exact_mod_cast hn
  have hn1 : (0 : ℚ) < (n : ℚ) + 1 := by linarith
  have heq : ((n : ℚ) * target_fnr n alpha + 1) / ((n : ℚ) + 1)
      = alpha + 1 / ((n : ℚ) + 1) ^ 2 := by
    unfold target_fnr
    field_simp
    ring
  refine ⟨?_, heq⟩
  rw [← heq]
  apply div_le_div_of_nonneg_right _ (le_of_lt hn1)
  have := mul_le_mul_of_nonneg_left hr (le_of_lt hn0)
  linarith

/-- C28 (counterexample): for one calibration query with two true neighbours of which one is
found, the miss rate `r = 1/2` equals the target `alpha'` of `alpha = 1/2`, and
`(n * r + 1) / (n + 1) = 3/4` is above `alpha`. -/
theorem target_fnr_above_alpha :
    recall_query [5] [5, 6] = 1 / 2 ∧ recall_query [5] [5, 6] ≤ target_fnr 1 (1 / 2) ∧
      ¬ (((1 : Nat) : ℚ) * recall_query [5] [5, 6] + 1) / (((1 : Nat) : ℚ) + 1) ≤ 1 / 2 := by
  have h : recall_query [5] [5, 6] = 1 / 2 := by decide!
  rw [h]
  refine ⟨rfl, ?_, ?_⟩
  · unfold target_fnr; norm_num
  · norm_num

/-- C28: for every `n >= 1` and `alpha` in `(0, 1)`, with
`alpha' = (n+1)/n * alpha - 1/(n+1)` as computed in `optimization`, every empirical miss rate
`r <= alpha'` satisfies `(n * r + 1) / (n + 1) <= alpha + 1 / (n+1)^2`, with equality at
`r = alpha'`. -/
theorem target_fnr_conformal_bound (n : Nat) (alpha r : ℚ) (hn : 1 ≤ n) (_h0 : 0 < alpha)
    (_h1 : alpha < 1) (hr : r ≤ target_fnr n alpha) :
    ((n : ℚ) * r + 1) / ((n : ℚ) + 1) ≤ alpha + 1 / ((n : ℚ) + 1) ^ 2 ∧
      ((n : ℚ) * target_fnr n alpha + 1) / ((n : ℚ) + 1) = alpha + 1 / ((n : ℚ) + 1) ^ 2 :=
  target_fnr_bound n alpha r hn hr

theorem target_fnr_conformal_bound_witness :
    (((1 : Nat) : ℚ) * (1 / 2) + 1) / (((1 : Nat) : ℚ) + 1) ≤ 1 / 2 + 1 / (((1 : Nat) : ℚ) + 1) ^ 2 ∧
      (((1 : Nat) : ℚ) * target_fnr 1 (1 / 2) + 1) / (((1 : Nat) : ℚ) + 1)
        = 1 / 2 + 1 / (((1 : Nat) : ℚ) + 1) ^ 2 :=
  target_fnr_conformal_bound 1 (1 / 2) (1 / 2) (by decide) (by norm_num) (by norm_num)
    (by unfold target_fnr; norm_num)

end IndexIVF

namespace IndexIVF

end IndexIVF

namespace ConannCache

end ConannCache

namespace IndexIVF

theorem candidate_averages_defined (S : RootSolver) (sortR : List (Nat × ℚ) → List (Nat × ℚ))
    (sortP : List (ℚ × Nat) → List (ℚ × Nat)) (n_list : Int) (alpha : ℚ) (kreg : Int)
    (tune_cx : List (List ℚ)) (tune_labels : List (List Int)) (tune_nonconf : List (List ℚ))
    (tune_preds : List (List (List Int))) (L : Nat) (hne : tune_nonconf ≠ [])
    (hrows : ∀ row ∈ tune_nonconf, row.length = L) (temp_lambda : ℚ) :
    ∃ average_fnr avg_cls_searched, candidate_averages S sortR sortP n_list alpha kreg tune_cx
      tune_labels tune_nonconf tune_preds temp_lambda = some (average_fnr, avg_cls_searched) := by
  have hreg := regularize_scores_eq sortR n_list L tune_nonconf temp_lambda kreg hrows hne
  unfold candidate_averages optimization optimization_objective evaluate
  simp only [hreg]
  exact ⟨_, _, rfl⟩

theorem pick_lambda_reg_loop_keep (alpha : ℚ) (averages : ℚ → Option (ℚ × ℚ)) :
    ∀ (l : List ℚ) (st : Int × ℚ),
      (∀ c ∈ l, ∃ fnr cls, averages c = some (fnr, cls) ∧ alpha < fnr) →
      pick_lambda_reg_loop alpha averages l st = some st := by
  intro l
  induction l with
  | nil => intro st _; rfl
  | cons c rest ih =>
      intro st h
      obtain ⟨fnr, cls, hc, hlt⟩ := h c (List.mem_cons_self _ _)
      have hupd : pick_lambda_reg_update alpha st c fnr cls = st := by
        unfold pick_lambda_reg_update
        rw [if_neg]
        intro hcon
        exact absurd hcon.2 (not_le.mpr hlt)
      simp only [pick_lambda_reg_loop, hc, hupd]
      exact ih st (fun c2 hc2 => h c2 (List.mem_cons_of_mem _ hc2))

/-- C15: on a non-empty tuning part whose score rows have one length, if every candidate of the
grid has a mean miss rate above `alpha`, `pick_lambda_reg` returns `0`. -/
theorem pick_lambda_reg_default (S : RootSolver) (sortR : List (Nat × ℚ) → List (Nat × ℚ))
    (sortP : List (ℚ × Nat) → List (ℚ × Nat)) (n_list : Int) (alpha : ℚ) (kreg : Int)
    (tune_cx : List (List ℚ)) (tune_labels : List (List Int)) (tune_nonconf : List (List ℚ))
    (tune_preds : List (List (List Int))) (L : Nat) (hne : tune_nonconf ≠ [])
    (hrows : ∀ row ∈ tune_nonconf, row.length = L)
    (hnone : ∀ c ∈ lambda_values, ∀ average_fnr avg_cls_searched,
      candidate_averages S sortR sortP n_list alpha kreg tune_cx tune_labels tune_nonconf
        tune_preds c = some (average_fnr, avg_cls_searched) → alpha < average_fnr) :
    pick_lambda_reg S sortR sortP n_list alpha kreg tune_cx tune_labels tune_nonconf tune_preds
      = some 0 := by
  unfold pick_lambda_reg
  rw [pick_lambda_reg_loop_keep alpha _ lambda_values (n_list, 0)]
  intro c hc
  obtain ⟨fnr, cls, h⟩ := candidate_averages_defined S sortR sortP n_list alpha kreg tune_cx
    tune_labels tune_nonconf tune_preds L hne hrows c
  exact ⟨fnr, cls, h, hnone c hc fnr cls h⟩

theorem tuning_sample_averages :
    ∀ c ∈ lambda_values, candidate_averages bisectionSolver (insertionSortBy scoreLess) (insertionSortBy pairLess) 1
      (1 / 10) 1 [[]] [[5]] [[1 / 2]] [[[7]]] c = some (1, 1) := by
  decide!

theorem pick_lambda_reg_default_witness :
    pick_lambda_reg bisectionSolver (insertionSortBy scoreLess) (insertionSortBy pairLess) 1
      (1 / 10) 1 [[]] [[5]] [[1 / 2]] [[[7]]] = some 0 :=
  pick_lambda_reg_default bisectionSolver (insertionSortBy scoreLess) (insertionSortBy pairLess) 1
    (1 / 10) 1 [[]] [[5]] [[1 / 2]] [[[7]]] 1 (by simp) (by simp)
    (by
      intro c hc fnr cls h
      rw [tuning_sample_averages c hc] at h
      cases h
      norm_num)

end IndexIVF

namespace IndexIVF

theorem truncate_le_of_lt (x : ℚ) (n : Int) (h : x < (n : ℚ)) : truncate x ≤ n := by
  unfold truncate
  split_ifs with h0
  · exact le_of_lt (Int.floor_lt.mpr h)
  · exact Int.ceil_le.mpr (le_of_lt h)

theorem pick_lambda_reg_update_inv (alpha : ℚ) (n_list : Int) (averages : ℚ → Option (ℚ × ℚ))
    (st : Int × ℚ) (c fnr cls : ℚ) (hc : averages c = some (fnr, cls))
    (hinv : st.1 ≤ n_list ∧
      ((∃ f k, averages st.2 = some (f, k) ∧ f ≤ alpha ∧ k < (n_list : ℚ)) ∨ st.1 = n_list)) :
    ((pick_lambda_reg_update alpha st c fnr cls).1 ≤ n_list ∧
      ((∃ f k, averages (pick_lambda_reg_update alpha st c fnr cls).2 = some (f, k) ∧ f ≤ alpha ∧
        k < (n_list : ℚ)) ∨ (pick_lambda_reg_update alpha st c fnr cls).1 = n_list)) ∧
    (((fnr ≤ alpha ∧ cls < (n_list : ℚ)) ∨
        (∃ f k, averages st.2 = some (f, k) ∧ f ≤ alpha ∧ k < (n_list : ℚ))) →
      ∃ f k, averages (pick_lambda_reg_update alpha st c fnr cls).2 = some (f, k) ∧ f ≤ alpha ∧
        k < (n_list : ℚ)) ∧
    ((pick_lambda_reg_update alpha st c fnr cls).2 = st.2 ∨
      (pick_lambda_reg_update alpha st c fnr cls).2 = c) := by
  unfold pick_lambda_reg_update
  by_cases hret : cls < (st.1 : ℚ) ∧ fnr ≤ alpha
  · rw [if_pos hret]
    have hlt : cls < (n_list : ℚ) :=
      lt_of_lt_of_le hret.1 (by exact_mod_cast hinv.1)
    have hQ : ∃ f k, averages c = some (f, k) ∧ f ≤ alpha ∧ k < (n_list : ℚ) :=
      ⟨fnr, cls, hc, hret.2, hlt⟩
    exact ⟨⟨truncate_le_of_lt cls n_list hlt, Or.inl hQ⟩, fun _ => hQ, Or.inr rfl⟩
  · rw [if_neg hret]
    refine ⟨hinv, ?_, Or.inl rfl⟩
    rintro (⟨hf, hk⟩ | hQ)
    · rcases hinv.2 with hQ | heq
      · exact hQ
      · exfalso
        apply hret
        refine ⟨?_, hf⟩
        rw [heq]
        exact hk
    · exact hQ

theorem pick_lambda_reg_loop_inv (alpha : ℚ) (n_list : Int) (averages : ℚ → Option (ℚ × ℚ)) :
    ∀ (l : List ℚ) (st : Int × ℚ),
      (st.1 ≤ n_list ∧
        ((∃ f k, averages st.2 = some (f, k) ∧ f ≤ alpha ∧ k < (n_list : ℚ)) ∨ st.1 = n_list)) →
      (∀ c ∈ l, ∃ fnr cls, averages c = some (fnr, cls)) →
      ∃ st', pick_lambda_reg_loop alpha averages l st = some st' ∧
        (((∃ f k, averages st.2 = some (f, k) ∧ f ≤ alpha ∧ k < (n_list : ℚ)) ∨
            (∃ c ∈ l, ∃ f k, averages c = some (f, k) ∧ f ≤ alpha ∧ k < (n_list : ℚ))) →
          ∃ f k, averages st'.2 = some (f, k) ∧ f ≤ alpha ∧ k < (n_list : ℚ)) ∧
        (st'.2 = st.2 ∨ st'.2 ∈ l) := by
  intro l
  induction l with
  | nil =>
      intro st _ _
      refine ⟨st, rfl, ?_, Or.inl rfl⟩
      rintro (h | ⟨c, hc, _⟩)
      · exact h
      · exact absurd hc (List.not_mem_nil c)
  | cons c rest ih =>
      intro st hinv hdef
      obtain ⟨fnr, cls, hc⟩ := hdef c (List.mem_cons_self _ _)
      obtain ⟨hinv2, hQ2, hsnd⟩ := pick_lambda_reg_update_inv alpha n_list averages st c fnr cls
        hc hinv
      obtain ⟨st', hloop, hQ', hsnd'⟩ := ih (pick_lambda_reg_update alpha st c fnr cls) hinv2
        (fun c2 hc2 => hdef c2 (List.mem_cons_of_mem _ hc2))
      refine ⟨st', ?_, ?_, ?_⟩
      · simp only [pick_lambda_reg_loop, hc]
        exact hloop
      · rintro (h | ⟨c2, hc2, f, k, hav, hf, hk⟩)
        · exact hQ' (Or.inl (hQ2 (Or.inr h)))
        · rcases List.mem_cons.mp hc2 with rfl | hin
          · rw [hc] at hav
            cases hav
            exact hQ' (Or.inl (hQ2 (Or.inl ⟨hf, hk⟩)))
          · exact hQ' (Or.inr ⟨c2, hin, f, k, hav, hf, hk⟩)
      · rcases hsnd' with h | h
        · rcases hsnd with h2 | h2
          · exact Or.inl (h.trans h2)
          · exact Or.inr (by rw [h, h2]; exact List.mem_cons_self _ _)
        · exact Or.inr (List.mem_cons_of_mem _ h)

/-- C14 (counterexample): the averages `(average_fnr, avg_cls_searched)` of the four candidates
on two tuning parts, with bisection as the root finder, and the candidate returned. With
`n_list = 2` and `alpha = 1/2` the candidates `0.01` and `0.1` have miss rate `0` but probe
`2 = n_list` lists on average, so none is retained and the default `0` is returned, whose miss
rate is `1`. With `n_list = 4` and `alpha = 0.45` the candidate `0` is retained with mean `5/2`
and `best_size` becomes `2`, so the candidate `0.1` with miss rate `0` and mean `2` is passed
over. -/
theorem pick_lambda_reg_not_minimal :
    (lambda_values.map (candidate_averages bisectionSolver (insertionSortBy scoreLess)
        (insertionSortBy pairLess) 2 (1 / 2) 1 [[]] [[1]] [[1 / 2, 0]] [[[0], [1]]])
        = [some (1, 1), some (1, 1), some (0, 2), some (0, 2)] ∧
      pick_lambda_reg bisectionSolver (insertionSortBy scoreLess) (insertionSortBy pairLess) 2
        (1 / 2) 1 [[]] [[1]] [[1 / 2, 0]] [[[0], [1]]] = some 0) ∧
    (lambda_values.map (candidate_averages bisectionSolver (insertionSortBy scoreLess)
        (insertionSortBy pairLess) 4 (9 / 20) 1 [[], []] [[1], [2]] tuningScores tuningPreds)
        = [some (0, 5 / 2), some (0, 5 / 2), some (1 / 2, 3 / 2), some (0, 2)] ∧
      pick_lambda_reg bisectionSolver (insertionSortBy scoreLess) (insertionSortBy pairLess) 4
        (9 / 20) 1 [[], []] [[1], [2]] tuningScores tuningPreds = some 0) := by
  decide!

/-- C14: on a non-empty tuning part whose score rows have one length, whenever some candidate
of the grid has a mean miss rate of at most `alpha` and probes fewer than `n_list` lists on
average, `pick_lambda_reg` returns a candidate of the grid that has a mean miss rate of at most
`alpha` and probes fewer than `n_list` lists on average. -/
theorem pick_lambda_reg_meets_constraint (S : RootSolver)
    (sortR : List (Nat × ℚ) → List (Nat × ℚ)) (sortP : List (ℚ × Nat) → List (ℚ × Nat))
    (n_list : Int) (alpha : ℚ) (kreg : Int) (tune_cx : List (List ℚ))
    (tune_labels : List (List Int)) (tune_nonconf : List (List ℚ))
    (tune_preds : List (List (List Int))) (L : Nat) (hne : tune_nonconf ≠ [])
    (hrows : ∀ row ∈ tune_nonconf, row.length = L)
    (hex : ∃ c ∈ lambda_values, ∃ average_fnr avg_cls_searched,
      candidate_averages S sortR sortP n_list alpha kreg tune_cx tune_labels tune_nonconf
        tune_preds c = some (average_fnr, avg_cls_searched) ∧
      average_fnr ≤ alpha ∧ avg_cls_searched < (n_list : ℚ)) :
    ∃ lambda_star ∈ lambda_values,
      pick_lambda_reg S sortR sortP n_list alpha kreg tune_cx tune_labels tune_nonconf tune_preds
        = some lambda_star ∧
      ∃ average_fnr avg_cls_searched,
        candidate_averages S sortR sortP n_list alpha kreg tune_cx tune_labels tune_nonconf
          tune_preds lambda_star = some (average_fnr, avg_cls_searched) ∧
        average_fnr ≤ alpha ∧ avg_cls_searched < (n_list : ℚ) := by
  obtain ⟨st, hloop, hQ, hsnd⟩ := pick_lambda_reg_loop_inv alpha n_list
    (candidate_averages S sortR sortP n_list alpha kreg tune_cx tune_labels tune_nonconf
      tune_preds) lambda_values (n_list, 0) ⟨le_refl _, Or.inr rfl⟩
    (fun c _ => candidate_averages_defined S sortR sortP n_list alpha kreg tune_cx tune_labels
      tune_nonconf tune_preds L hne hrows c)
  refine ⟨st.2, ?_, ?_, hQ (Or.inr hex)⟩
  · rcases hsnd with h | h
    · rw [h]
      simp [lambda_values]
    · exact h
  · unfold pick_lambda_reg
    rw [hloop]

theorem pick_lambda_reg_meets_constraint_witness :
    ∃ lambda_star ∈ lambda_values,
      pick_lambda_reg bisectionSolver (insertionSortBy scoreLess) (insertionSortBy pairLess) 4
        (9 / 20) 1 [[], []] [[1], [2]] tuningScores tuningPreds = some lambda_star ∧
      ∃ average_fnr avg_cls_searched,
        candidate_averages bisectionSolver (insertionSortBy scoreLess) (insertionSortBy pairLess)
          4 (9 / 20) 1 [[], []] [[1], [2]] tuningScores tuningPreds lambda_star
          = some (average_fnr, avg_cls_searched) ∧
        average_fnr ≤ 9 / 20 ∧ avg_cls_searched < ((4 : Int) : ℚ) :=
  pick_lambda_reg_meets_constraint bisectionSolver (insertionSortBy scoreLess)
    (insertionSortBy pairLess) 4 (9 / 20) 1 [[], []] [[1], [2]] tuningScores tuningPreds 4
    (by simp [tuningScores]) (by simp [tuningScores])
    ⟨0, by simp [lambda_values], 0, 5 / 2, by decide!, by norm_num, by norm_num⟩

end IndexIVF

namespace IndexIVF

end IndexIVF

namespace IndexIVF

end IndexIVF

namespace IndexIVF

theorem heap_after_succ (H : HeapLib) (ix : SearchIndex) (keys : List Int)
    (heap : List ℚ × List Int) (j : Nat) (key : Int) (hk : keys[j]? = some key) :
    heap_after H ix keys heap (j + 1)
      = (scan_codes H ix.keep_max (ix.lists key.toNat) (heap_after H ix keys heap j)).1 := by
  unfold heap_after
  have hj : j < keys.length := by
    by_contra h
    rw [List.getElem?_eq_none (by omega)] at hk
    exact absurd hk (by simp)
  rw [List.take_succ, hk]
  simp [List.foldl_append]

theorem codes_upto_succ (ix : SearchIndex) (keys : List Int) (j : Nat) (key : Int)
    (hk : keys[j]? = some key) :
    codes_upto ix keys (j + 1) = codes_upto ix keys j + (ix.lists key.toNat).length := by
  unfold codes_upto
  rw [List.take_succ, hk]
  simp

theorem lists_upto_succ (ix : SearchIndex) (keys : List Int) (j : Nat) (key : Int)
    (hk : keys[j]? = some key) :
    lists_upto ix keys (j + 1)
      = lists_upto ix keys j + (if (ix.lists key.toNat).isEmpty then 0 else 1) := by
  unfold lists_upto
  rw [List.take_succ, hk]
  simp only [Option.toList_some, List.countP_append, List.countP_cons, List.countP_nil]
  by_cases h : (ix.lists key.toNat).isEmpty <;> simp [h]

theorem codes_upto_mono (ix : SearchIndex) (keys : List Int) (i j : Nat) (h : i ≤ j) :
    codes_upto ix keys i ≤ codes_upto ix keys j := by
  unfold codes_upto
  obtain ⟨d, rfl⟩ := Nat.exists_eq_add_of_le h
  rw [List.take_add, List.map_append, List.sum_append]
  omega

theorem scan_one_list_full (H : HeapLib) (ix : SearchIndex) (key : Int)
    (heap : List ℚ × List Int) (list_size_max : Int) (nlistv : Nat) (h0 : 0 ≤ key)
    (h1 : key < (ix.nlist : Int)) (h2 : 0 ≤ list_size_max) (h3 : list_size_max < 2 ^ 64)
    (h4 : ((ix.lists key.toNat).length : Int) ≤ list_size_max) :
    scan_one_list H ix key heap list_size_max nlistv
      = .ok ((scan_codes H ix.keep_max (ix.lists key.toNat) heap).1,
          (ix.lists key.toNat).length,
          nlistv + (if (ix.lists key.toNat).isEmpty then 0 else 1)) := by
  unfold scan_one_list
  rw [if_neg (not_lt.mpr h0), if_neg (not_not.mpr h1)]
  by_cases he : (ix.lists key.toNat).isEmpty
  · rw [if_pos he]
    have : ix.lists key.toNat = [] := List.isEmpty_iff.mp he
    simp [this, scan_codes]
  · rw [if_neg he]
    have hmod : list_size_max % 2 ^ 64 = list_size_max := Int.emod_eq_of_lt h2 h3
    simp only [hmod, if_neg (not_lt.mpr h4), List.take_length, he]
    rfl

end IndexIVF

namespace IndexIVF

theorem probe_step_scan (H : HeapLib) (ix : SearchIndex) (keys : List Int)
    (hreg : FullProbes ix keys) (ik : Nat) (hik : ik < ix.nlist) (st : ProbeState)
    (hn : st.nscan = (codes_upto ix keys ik : Int)) (key : Int) (hk : keys[ik]? = some key)
    (h0 : 0 ≤ key) (h1 : key < (ix.nlist : Int)) :
    scan_one_list H ix key (st.simi, st.idxi) (ix.max_codes - st.nscan) st.nlistv
        = .ok ((scan_codes H ix.keep_max (ix.lists key.toNat) (st.simi, st.idxi)).1,
            (ix.lists key.toNat).length,
            st.nlistv + (if (ix.lists key.toNat).isEmpty then 0 else 1)) ∧
      ¬ (st.nscan + ((ix.lists key.toNat).length : Int) ≥ ix.max_codes) ∧
      st.nscan + ((ix.lists key.toNat).length : Int) = (codes_upto ix keys (ik + 1) : Int) := by
  obtain ⟨-, hcodes, hmax⟩ := hreg
  have hsucc := codes_upto_succ ix keys ik key hk
  have hmono := codes_upto_mono ix keys (ik + 1) ix.nlist (by omega)
  have hsum : st.nscan + ((ix.lists key.toNat).length : Int)
      = (codes_upto ix keys (ik + 1) : Int) := by
    rw [hn, hsucc]; push_cast; ring
  have hlt : (codes_upto ix keys (ik + 1) : Int) < ix.max_codes :=
    lt_of_le_of_lt (by exact_mod_cast hmono) hcodes
  refine ⟨?_, ?_, hsum⟩
  · apply scan_one_list_full H ix key _ _ _ h0 h1
    · rw [hn]
      have := codes_upto_mono ix keys ik (ik + 1) (by omega)
      have : (codes_upto ix keys ik : Int) ≤ (codes_upto ix keys (ik + 1) : Int) := by
        exact_mod_cast this
      omega
    · have : (0 : Int) ≤ st.nscan := by rw [hn]; exact Int.natCast_nonneg _
      omega
    · omega
  · rw [hsum]
    omega

theorem probe_loop_early (H : HeapLib) (ix : SearchIndex) (cal_params : CalibrationResults)
    (keys : List Int) (heap0 : List ℚ × List Int) (r : Nat)
    (hreg : FullProbes ix keys) (hr : r ≤ ix.nlist)
    (hle : ∀ j, j < r → ¬ (cal_params.lamhat ≤ 1 ∧
      reg_score_k ix.nlist ix.MAX_DISTANCE cal_params j
        (heap_after H ix keys heap0 (j + 1)).1 > cal_params.lamhat))
    (hgt : r < ix.nlist → cal_params.lamhat ≤ 1 ∧
      reg_score_k ix.nlist ix.MAX_DISTANCE cal_params r
        (heap_after H ix keys heap0 (r + 1)).1 > cal_params.lamhat) :
    ∀ (n ik : Nat) (st : ProbeState), ik + n = ix.nlist → ik ≤ r →
      (st.simi, st.idxi) = heap_after H ix keys heap0 ik →
      (st.prev_simi, st.prev_idxi) = heap_after H ix keys heap0 ik →
      st.nscan = (codes_upto ix keys ik : Int) → st.nlistv = lists_upto ix keys ik →
      ∃ st', probe_loop H ix cal_params false keys n ik st = .ok st' ∧
        (st'.simi, st'.idxi) = heap_after H ix keys heap0 r ∧
        st'.nscan = (codes_upto ix keys (min (r + 1) ix.nlist) : Int) ∧
        st'.nlistv = lists_upto ix keys (min (r + 1) ix.nlist) ∧
        st'.nonconf = st.nonconf ∧ st'.all_preds = st.all_preds := by
  intro n
  induction n with
  | zero =>
      intro ik st hsum hikr hheap _ hn hl
      have hik : ik = ix.nlist := by omega
      have hrr : r = ix.nlist := by omega
      refine ⟨st, rfl, ?_, ?_, ?_, rfl, rfl⟩
      · rw [hheap, hrr, hik]
      · rw [hn, hrr, hik]; simp
      · rw [hl, hrr, hik]; simp
  | succ n ih =>
      intro ik st hsum hikr hheap hprev hn hl
      have hik : ik < ix.nlist := by omega
      obtain ⟨key, hk, h0, h1⟩ := hreg.1 ik hik
      obtain ⟨hscan, hnocut, hnsum⟩ := probe_step_scan H ix keys hreg ik hik st hn key hk h0 h1
      have hafter := heap_after_succ H ix keys heap0 ik key hk
      rw [← hheap] at hafter
      have hlsucc := lists_upto_succ ix keys ik key hk
      by_cases hstop : ik = r
      · have hrl : r < ix.nlist := by omega
        have hE := hgt hrl
        rw [← hstop, hafter] at hE
        refine ⟨{ st with simi := st.prev_simi, idxi := st.prev_idxi,
                          nscan := st.nscan + ((ix.lists key.toNat).length : Int),
                          nlistv := st.nlistv + (if (ix.lists key.toNat).isEmpty then 0 else 1) },
          ?_, ?_, ?_, ?_, rfl, rfl⟩
        · simp only [probe_loop, probe_step, hk, hscan, if_neg hnocut, Bool.not_false,
            if_true]
          rw [if_pos hE]
        · simp only
          rw [hprev, hstop]
        · simp only
          rw [hnsum, ← hstop, Nat.min_eq_left (by omega)]
        · simp only
          rw [hl, ← hlsucc, ← hstop, Nat.min_eq_left (by omega)]
      · have hlt : ik < r := by omega
        have hE := hle ik hlt
        rw [hafter] at hE
        have hstep : ∃ st1, probe_step H ix cal_params false keys ik st = .ok (st1, true) ∧
            (st1.simi, st1.idxi)
              = (scan_codes H ix.keep_max (ix.lists key.toNat) (st.simi, st.idxi)).1 ∧
            (st1.prev_simi, st1.prev_idxi)
              = (scan_codes H ix.keep_max (ix.lists key.toNat) (st.simi, st.idxi)).1 ∧
            st1.nscan = st.nscan + ((ix.lists key.toNat).length : Int) ∧
            st1.nlistv = st.nlistv + (if (ix.lists key.toNat).isEmpty then 0 else 1) ∧
            st1.nonconf = st.nonconf ∧ st1.all_preds = st.all_preds := by
          refine ⟨{ st with
                simi := (scan_codes H ix.keep_max (ix.lists key.toNat) (st.simi, st.idxi)).1.1,
                idxi := (scan_codes H ix.keep_max (ix.lists key.toNat) (st.simi, st.idxi)).1.2,
                nscan := st.nscan + ((ix.lists key.toNat).length : Int),
                nlistv := st.nlistv + (if (ix.lists key.toNat).isEmpty then 0 else 1),
                prev_simi :=
                  (scan_codes H ix.keep_max (ix.lists key.toNat) (st.simi, st.idxi)).1.1,
                prev_idxi :=
                  (scan_codes H ix.keep_max (ix.lists key.toNat) (st.simi, st.idxi)).1.2 },
              ?_, rfl, rfl, rfl, rfl, rfl, rfl⟩
          simp only [probe_step, hk, hscan, if_neg hnocut, Bool.not_false, if_true]
          rw [if_neg hE]
        obtain ⟨st1, hstep, hs1, hs2, hs3, hs4, hs5, hs6⟩ := hstep
        obtain ⟨st', hloop, hres1, hres2, hres3, hres4, hres5⟩ := ih (ik + 1) st1 (by omega)
          (by omega) (by rw [hs1, hafter]) (by rw [hs2, hafter]) (by rw [hs3]; exact hnsum)
          (by rw [hs4, hl, ← hlsucc])
        refine ⟨st', ?_, hres1, hres2, hres3, hres4.trans hs5, hres5.trans hs6⟩
        simp only [probe_loop, hstep]
        exact hloop

end IndexIVF

namespace IndexIVF

theorem listHeap_isHeapLib : IsHeapLib listHeap := by
  refine ⟨?_, ?_, ?_⟩
  · intro ip k heap
    simp [listHeap]
  · intro heap dis id hne hlen
    have hz1 : (heap.1.zip heap.2).tail.map Prod.fst = heap.1.tail := by
      rw [List.map_tail, List.map_fst_zip _ _ (by omega)]
    have hz2 : (heap.1.zip heap.2).tail.map Prod.snd = heap.2.tail := by
      rw [List.map_tail, List.map_snd_zip _ _ (by omega)]
    have hp := List.perm_orderedInsert (fun a b : ℚ × Int => b.1 ≤ a.1) (dis, id)
      (heap.1.zip heap.2).tail
    constructor
    · have := hp.map Prod.fst
      simp only [List.map_cons, hz1] at this
      simpa [listHeap] using this
    · have := hp.map Prod.snd
      simp only [List.map_cons, hz2] at this
      simpa [listHeap] using this
  · intro ip heap hlen
    have hp := List.perm_insertionSort
      (fun a b : ℚ × Int => if ip = true then b.1 ≤ a.1 else a.1 ≤ b.1) (heap.1.zip heap.2)
    constructor
    · have := hp.map Prod.fst
      rw [List.map_fst_zip _ _ (by omega)] at this
      simpa [listHeap] using this
    · have := hp.map Prod.snd
      rw [List.map_snd_zip _ _ (by omega)] at this
      simpa [listHeap] using this

theorem search_query_early (H : HeapLib) (ix : SearchIndex) (cal_params : CalibrationResults)
    (keys : List Int) (k : Nat) (distances : List ℚ) (labels : List Int) (nonconf : List ℚ)
    (all_preds : List (List Int)) (r : Nat)
    (hreg : FullProbes ix keys) (hr : r ≤ ix.nlist)
    (hle : ∀ j, j < r → ¬ (cal_params.lamhat ≤ 1 ∧
      reg_score_k ix.nlist ix.MAX_DISTANCE cal_params j
        (heap_after H ix keys (init_result H ix k (distances, labels)) (j + 1)).1
          > cal_params.lamhat))
    (hgt : r < ix.nlist → cal_params.lamhat ≤ 1 ∧
      reg_score_k ix.nlist ix.MAX_DISTANCE cal_params r
        (heap_after H ix keys (init_result H ix k (distances, labels)) (r + 1)).1
          > cal_params.lamhat) :
    ∃ st, search_query H ix cal_params false keys k distances labels nonconf all_preds = .ok st ∧
      (st.simi, st.idxi)
        = reorder_result H ix (heap_after H ix keys (init_result H ix k (distances, labels)) r) ∧
      st.nscan = (codes_upto ix keys (min (r + 1) ix.nlist) : Int) ∧
      st.nlistv = lists_upto ix keys (min (r + 1) ix.nlist) ∧
      st.nonconf = nonconf ∧ st.all_preds = all_preds := by
  obtain ⟨st', hloop, h1, h2, h3, h4, h5⟩ := probe_loop_early H ix cal_params keys
    (init_result H ix k (distances, labels)) r hreg hr hle hgt ix.nlist 0
    { simi := (init_result H ix k (distances, labels)).1,
      idxi := (init_result H ix k (distances, labels)).2,
      prev_simi := (init_result H ix k (distances, labels)).1,
      prev_idxi := (init_result H ix k (distances, labels)).2,
      nscan := 0, nlistv := 0, nonconf := nonconf, all_preds := all_preds }
    (by omega) (by omega) (by simp [heap_after]) (by simp [heap_after])
    (by simp [codes_upto]) (by simp [lists_upto])
  refine ⟨{ st' with simi := (reorder_result H ix (st'.simi, st'.idxi)).1,
                     idxi := (reorder_result H ix (st'.simi, st'.idxi)).2 }, ?_, ?_, h2, h3, h4, h5⟩
  · simp only [search_query, hloop]
  · simp only
    rw [h1]

end IndexIVF

namespace IndexIVF

theorem fullProbes_sample : FullProbes sampleIndex [1, 0] := by
  refine ⟨?_, by decide, by decide⟩
  intro j hj
  have hj2 : j < 2 := hj
  interval_cases j
  · exact ⟨1, rfl, by decide, by decide⟩
  · exact ⟨0, rfl, by decide, by decide⟩

end IndexIVF

namespace IndexIVF

end IndexIVF

namespace IndexIVF

theorem scan_one_list_negative (H : HeapLib) (ix : SearchIndex) (key : Int)
    (heap : List ℚ × List Int) (list_size_max : Int) (nlistv : Nat) (h : key < 0) :
    scan_one_list H ix key heap list_size_max nlistv = .ok (heap, 0, nlistv) := by
  unfold scan_one_list
  rw [if_pos h]

theorem scan_one_list_too_large (H : HeapLib) (ix : SearchIndex) (key : Int)
    (heap : List ℚ × List Int) (list_size_max : Int) (nlistv : Nat) (h : (ix.nlist : Int) ≤ key) :
    scan_one_list H ix key heap list_size_max nlistv
      = .error (Failure.thrown
          ("Invalid key=" ++ toString key ++ " nlist=" ++ toString ix.nlist ++ "\n")) := by
  unfold scan_one_list
  have h0 : ¬ key < 0 := by
    have : (0 : Int) ≤ (ix.nlist : Int) := Int.natCast_nonneg _
    omega
  rw [if_neg h0, if_pos (not_lt.mpr h)]

/-- C25 (counterexample): on the sample index, `scan_one_list` called with the missing-list id
`-1` returns `0` with the heap unchanged and no error; the score builder run on the ranking
`[-1, 0]` raises no error either: after the skipped scan it writes the snapshot and the score
at position `-1`, outside the arrays of the query. -/
theorem missing_list_is_skipped :
    scan_one_list listHeap sampleIndex (-1) ([FLT_MAX], [-1]) 9223372036854775807 0
        = .ok (([FLT_MAX], [-1]), 0, 0) ∧
      search_query listHeap sampleIndex { lamhat := 10, kreg := 0, regLambda := 0 } true [-1, 0] 1
        [0] [0] [0, 0] [[0], [0]] = .error Failure.undefined := by
  constructor <;> rfl

/-- C25: when the ranking of a query holds the missing-list id `-1` (any negative id),
`scan_one_list` skips the probe: it scans no code, leaves the heap and the counter of scanned
lists as they are, returns `0` and raises no error. A fatal error is raised for a list id that
is `nlist` or larger. -/
theorem scan_one_list_missing_list (H : HeapLib) (ix : SearchIndex) (key : Int)
    (heap : List ℚ × List Int) (list_size_max : Int) (nlistv : Nat) :
    (key < 0 → scan_one_list H ix key heap list_size_max nlistv = .ok (heap, 0, nlistv)) ∧
      ((ix.nlist : Int) ≤ key → ∃ msg, scan_one_list H ix key heap list_size_max nlistv
        = .error (Failure.thrown msg)) :=
  ⟨scan_one_list_negative H ix key heap list_size_max nlistv,
    fun h => ⟨_, scan_one_list_too_large H ix key heap list_size_max nlistv h⟩⟩

theorem scan_one_list_missing_list_witness :
    scan_one_list listHeap sampleIndex (-1) ([FLT_MAX], [-1]) 9223372036854775807 0
      = .ok (([FLT_MAX], [-1]), 0, 0) :=
  (scan_one_list_missing_list listHeap sampleIndex (-1) ([FLT_MAX], [-1]) 9223372036854775807
    0).1 (by decide)

end IndexIVF

namespace IndexIVF

theorem list_eq_singleton_of_perm {α : Type} (l : List α) (a : α) (h : l.Perm [a]) : l = [a] :=
  List.perm_singleton.mp h

theorem scan_codes_no_update (H : HeapLib) (codes : List (ℚ × Int)) (heap : List ℚ × List Int)
    (n : Nat) (h : ∀ c ∈ codes, ¬ c.1 < heap.1.headD 0) :
    codes.foldl
      (fun (acc : (List ℚ × List Int) × Nat) (c : ℚ × Int) =>
        if !false then
          if c.1 < acc.1.1.headD 0 then (H.maxheap_replace_top acc.1 c.1 c.2, acc.2 + 1)
          else acc
        else
          if c.1 > acc.1.1.headD 0 then (H.minheap_replace_top acc.1 c.1 c.2, acc.2 + 1)
          else acc)
      (heap, n) = (heap, n) := by
  induction codes with
  | nil => rfl
  | cons c rest ih =>
      simp only [List.foldl_cons, Bool.not_false, if_true]
      rw [if_neg (h c (List.mem_cons_self _ _))]
      exact ih (fun c2 hc2 => h c2 (List.mem_cons_of_mem _ hc2))

theorem scan_codes_identical (H : HeapLib) (hH : IsHeapLib H) (codes : List (ℚ × Int))
    (id1 : Int) (rest : List (ℚ × Int)) (hcodes : codes = (0, id1) :: rest)
    (hzero : ∀ c ∈ codes, c.1 = 0) (v : ℚ) (hv : 0 < v) :
    (scan_codes H false codes ([v], [-1])).1 = ([0], [id1]) := by
  subst hcodes
  unfold scan_codes
  simp only [List.foldl_cons, Bool.not_false, if_true, List.headD_cons, if_pos hv]
  obtain ⟨h1, h2⟩ := hH.2.1 ([v], [-1]) 0 id1 (by simp) (by simp)
  simp only [List.tail_cons] at h1 h2
  have e : H.maxheap_replace_top ([v], [-1]) 0 id1 = ([0], [id1]) :=
    Prod.ext (List.perm_singleton.mp h1) (List.perm_singleton.mp h2)
  rw [e]
  have := scan_codes_no_update H rest ([0], [id1]) (0 + 1) (by
    intro c hc
    have hc0 := hzero c (List.mem_cons_of_mem _ hc)
    simp [hc0])
  simp only [Bool.not_false, if_true] at this
  rw [this]

theorem regularize_row_single {sort : List (Nat × ℚ) → List (Nat × ℚ)}
    (hsort : IsStdSort scoreLess sort) (lambda_reg : ℚ) :
    regularize_row sort 1 [0] lambda_reg 1
      ((1 + lambda_reg * ((((1 : Nat) : Int) - 1 : Int) : ℚ)) + 10) = [1 / 11] := by
  obtain ⟨hlen, hget⟩ := regularize_row_getD hsort 1 [0] lambda_reg 1
    ((1 + lambda_reg * ((((1 : Nat) : Int) - 1 : Int) : ℚ)) + 10)
  have h0 := hget 0 (by omega)
  have hrank := rank_of_le hsort 1 [0] 0
  have hr1 : rank_of (sorted_classes sort 1 [0]) 0 = 1 := by
    have := hrank.2 (by omega)
    omega
  rw [hr1] at h0
  generalize regularize_row sort 1 [0] lambda_reg 1
    ((1 + lambda_reg * ((((1 : Nat) : Int) - 1 : Int) : ℚ)) + 10) = row at hlen h0
  match row, hlen with
  | [x], _ =>
      simp only [List.getD_cons_zero] at h0
      rw [h0]
      norm_num

theorem single_cluster_offline {sortR : List (Nat × ℚ) → List (Nat × ℚ)}
    (hsortR : IsStdSort scoreLess sortR) {sortP : List (ℚ × Nat) → List (ℚ × Nat)}
    (hsortP : IsStdSort pairLess sortP) (n : Nat) (lambda_reg lamhat : ℚ)
    (all_preds : List (List (List Int))) (q : Nat) (hq : q < n) :
    regularize_scores sortR 1 (List.replicate n [0]) lambda_reg 1
        = some (List.replicate n [1 / 11]) ∧
      (1 / 11 ≤ lamhat →
        (compute_predictions sortP lamhat (List.replicate n [1 / 11]) all_preds).1[q]?
            = some ((all_preds.getD q []).getD 0 []) ∧
          (compute_predictions sortP lamhat (List.replicate n [1 / 11]) all_preds).2[q]?
            = some 1) ∧
      (lamhat < 1 / 11 →
        (compute_predictions sortP lamhat (List.replicate n [1 / 11]) all_preds).1[q]? = some [] ∧
          (compute_predictions sortP lamhat (List.replicate n [1 / 11]) all_preds).2[q]?
            = some (-1)) := by
  have hqr : q < (List.replicate n [(1 : ℚ) / 11]).length := by simpa using hq
  have hlen := compute_predictions_length sortP lamhat (List.replicate n [1 / 11]) all_preds
  have hget := compute_predictions_getD sortP lamhat (List.replicate n [1 / 11]) all_preds q hqr
  have hrow : (List.replicate n [(1 : ℚ) / 11]).getD q [] = [1 / 11] := by
    rw [List.getD_eq_getElem?_getD, List.getElem?_eq_getElem hqr]
    simp
  rw [hrow] at hget
  have e1 := getElem?_eq_some_getD
    (compute_predictions sortP lamhat (List.replicate n [1 / 11]) all_preds).1 q
    (by rw [hlen.1]; exact hqr) []
  have e2 := getElem?_eq_some_getD
    (compute_predictions sortP lamhat (List.replicate n [1 / 11]) all_preds).2 q
    (by rw [hlen.2]; exact hqr) 0
  rw [e1, e2, hget.1, hget.2]
  refine ⟨?_, ?_, ?_⟩
  · rw [regularize_scores_eq sortR 1 1 (List.replicate n [0]) lambda_reg 1
      (by intro row hrow; rw [List.eq_of_mem_replicate hrow]; rfl)
      (by intro h; rw [List.replicate_eq_nil_iff] at h; omega)]
    rw [List.map_replicate]
    have := regularize_row_single hsortR lambda_reg
    simp only [Nat.cast_one] at this
    rw [this]
  · intro h
    obtain ⟨index, hi, -, -, hres⟩ := compute_predictions_query_admitted hsortP lamhat [1 / 11]
      (all_preds.getD q []) ⟨0, by simp, by simpa using h⟩
    have hi0 : index = 0 := by simpa using hi
    subst hi0
    rw [hres]
    have h11 : (11 : ℚ)⁻¹ ≤ lamhat := by simpa using h
    simp [List.range_succ, List.filter_cons, h11]
  · intro h
    rw [compute_predictions_query_empty hsortP lamhat [1 / 11] (all_preds.getD q []) (by
      intro l hl
      have hl0 : l = 0 := by simpa using hl
      subst hl0
      simpa using h)]
    exact ⟨rfl, rfl⟩

theorem single_cluster_search (H : HeapLib) (hH : IsHeapLib H) (ix : SearchIndex)
    (id1 : Int) (rest : List (ℚ × Int)) (distances : List ℚ) (labels : List Int)
    (nonconf : List ℚ) (all_preds : List (List Int)) (lamhat lambda_reg : ℚ)
    (hn : ix.nlist = 1) (hkm : ix.keep_max = false) (hmetric : ix.metric_inner_product = false)
    (hinit : ix.do_heap_init = true) (hlist : ix.lists 0 = (0, id1) :: rest)
    (hzero : ∀ c ∈ rest, c.1 = 0) (hcut : ((rest.length + 1 : Nat) : Int) < ix.max_codes)
    (hmax : ix.max_codes < 2 ^ 64)
    (hneutral : ∀ v ∈ (H.heap_heapify false 1 (distances, labels)).1, 0 < v) :
    (1 / 11 ≤ lamhat →
      ∃ st, search_query H ix { lamhat := lamhat, kreg := 1, regLambda := lambda_reg } false [0]
        1 distances labels nonconf all_preds = .ok st ∧ st.idxi = [id1]) ∧
    (lamhat < 1 / 11 →
      ∃ st, search_query H ix { lamhat := lamhat, kreg := 1, regLambda := lambda_reg } false [0]
        1 distances labels nonconf all_preds = .ok st ∧ st.idxi = [-1]) := by
  obtain ⟨h0len, h0id⟩ := hH.1 false 1 (distances, labels)
  obtain ⟨v, hv⟩ : ∃ v, (H.heap_heapify false 1 (distances, labels)).1 = [v] :=
    List.length_eq_one.mp h0len
  have hvpos : 0 < v := hneutral v (by rw [hv]; simp)
  have hheap0 : init_result H ix 1 (distances, labels) = ([v], [-1]) := by
    simp only [init_result, hinit, if_true, hmetric]
    exact Prod.ext hv (by rw [h0id]; rfl)
  have hre : ∀ heap, reorder_result H ix heap = H.heap_reorder false heap := by
    intro heap; simp [reorder_result, hinit, hmetric]
  have hreg : FullProbes ix [0] := by
    refine ⟨?_, ?_, hmax⟩
    · intro j hj
      rw [hn] at hj
      have hj0 : j = 0 := by omega
      subst hj0
      exact ⟨0, rfl, le_refl _, by rw [hn]; norm_num⟩
    · rw [hn]
      simp only [codes_upto, List.take_succ_cons, List.take_zero, List.map_cons, List.map_nil,
        List.sum_cons, List.sum_nil, Int.toNat_zero, hlist, List.length_cons]
      simpa using hcut
  have hafter : heap_after H ix [0] ([v], [-1]) 1 = ([0], [id1]) := by
    rw [heap_after_succ H ix [0] ([v], [-1]) 0 0 rfl]
    simp only [heap_after, List.take_zero, List.foldl_nil, Int.toNat_zero, hkm]
    exact scan_codes_identical H hH _ id1 rest hlist (by
      intro c hc
      rw [hlist] at hc
      rcases List.mem_cons.mp hc with rfl | h
      · rfl
      · exact hzero c h) v hvpos
  have hE : reg_score_k ix.nlist ix.MAX_DISTANCE
      { lamhat := lamhat, kreg := 1, regLambda := lambda_reg } 0 [0] = 1 / 11 := by
    simp only [reg_score_k, max_reg_val, compute_regularization, max_element, toInt32, hn]
    norm_num
  constructor
  · intro hle
    obtain ⟨st, hs, hheap, -⟩ := search_query_early H ix
      { lamhat := lamhat, kreg := 1, regLambda := lambda_reg } [0] 1 distances labels nonconf
      all_preds 1 hreg (by omega)
      (by
        intro j hj
        have hj0 : j = 0 := by omega
        subst hj0
        rw [hheap0, hafter, hE]
        rintro ⟨-, hcon⟩
        exact absurd hle (not_le.mpr hcon))
      (by
        intro hcon
        omega)
    refine ⟨st, hs, ?_⟩
    rw [hheap0, hafter, hre] at hheap
    have hp := (hH.2.2 false ([0], [id1]) (by simp)).2
    have : st.idxi = (H.heap_reorder false ([0], [id1])).2 := by rw [← hheap]
    rw [this]
    exact List.perm_singleton.mp hp
  · intro hlt
    obtain ⟨st, hs, hheap, -⟩ := search_query_early H ix
      { lamhat := lamhat, kreg := 1, regLambda := lambda_reg } [0] 1 distances labels nonconf
      all_preds 0 hreg (by omega)
      (by
        intro j hj
        omega)
      (by
        intro _
        rw [hheap0, hafter, hE]
        refine ⟨?_, hlt⟩
        simp only
        linarith)
    refine ⟨st, hs, ?_⟩
    have hz : heap_after H ix [0] ([v], [-1]) 0 = ([v], [-1]) := by simp [heap_after]
    rw [hheap0, hz, hre] at hheap
    have hp := (hH.2.2 false ([v], [-1]) (by simp)).2
    have : st.idxi = (H.heap_reorder false ([v], [-1])).2 := by rw [← hheap]
    rw [this]
    exact List.perm_singleton.mp hp

/-- C24 (counterexample): in the single-cluster scenario the regularized score of the only
list is `1/11`, so under `lamhat = 0.0` the offline prediction is empty with `-1` clusters
searched, and the early-stopping search returns the initial heap with the id `-1`. -/
theorem single_cluster_empty_at_zero :
    regularize_scores (insertionSortBy scoreLess) 1 [[0]] 0 1 = some [[1 / 11]] ∧
      compute_predictions (insertionSortBy pairLess) 0 [[1 / 11]] [[[3]]] = ([[]], [-1]) ∧
      (search_query listHeap singleClusterIndex { lamhat := 0, kreg := 1, regLambda := 0 } false
          [0] 1 [0] [0] [] []).toOption.map (fun st => st.idxi) = some [-1] := by
  decide!

/-- C24: in the single-cluster scenario (`L = 1`, `k = 1`, every stored point at distance `0`
from the query, so every raw score is `0`, with `k_reg = 1`) the regularized score of the only
list is `1/11` for every query. For `lamhat >= 1/11` the offline prediction of a query is the
snapshot of the list with one cluster searched, and the adaptive search returns the first
stored point; for `lamhat < 1/11`, as for `lamhat = 0`, the offline prediction is empty with
`-1` clusters searched and the adaptive search returns the initial heap with the id `-1`. -/
theorem single_cluster_threshold {sortR : List (Nat × ℚ) → List (Nat × ℚ)}
    (hsortR : IsStdSort scoreLess sortR) {sortP : List (ℚ × Nat) → List (ℚ × Nat)}
    (hsortP : IsStdSort pairLess sortP) (H : HeapLib) (hH : IsHeapLib H) (ix : SearchIndex)
    (id1 : Int) (rest : List (ℚ × Int)) (distances : List ℚ) (labels : List Int)
    (nonconf : List ℚ) (preds : List (List Int)) (n : Nat) (lambda_reg lamhat : ℚ)
    (all_preds : List (List (List Int))) (q : Nat) (hq : q < n)
    (hn : ix.nlist = 1) (hkm : ix.keep_max = false) (hmetric : ix.metric_inner_product = false)
    (hinit : ix.do_heap_init = true) (hlist : ix.lists 0 = (0, id1) :: rest)
    (hzero : ∀ c ∈ rest, c.1 = 0) (hcut : ((rest.length + 1 : Nat) : Int) < ix.max_codes)
    (hmax : ix.max_codes < 2 ^ 64)
    (hneutral : ∀ v ∈ (H.heap_heapify false 1 (distances, labels)).1, 0 < v) :
    regularize_scores sortR 1 (List.replicate n [0]) lambda_reg 1
        = some (List.replicate n [1 / 11]) ∧
      (1 / 11 ≤ lamhat →
        ((compute_predictions sortP lamhat (List.replicate n [1 / 11]) all_preds).1[q]?
            = some ((all_preds.getD q []).getD 0 []) ∧
          (compute_predictions sortP lamhat (List.replicate n [1 / 11]) all_preds).2[q]?
            = some 1) ∧
        ∃ st, search_query H ix { lamhat := lamhat, kreg := 1, regLambda := lambda_reg } false
          [0] 1 distances labels nonconf preds = .ok st ∧ st.idxi = [id1]) ∧
      (lamhat < 1 / 11 →
        ((compute_predictions sortP lamhat (List.replicate n [1 / 11]) all_preds).1[q]?
            = some [] ∧
          (compute_predictions sortP lamhat (List.replicate n [1 / 11]) all_preds).2[q]?
            = some (-1)) ∧
        ∃ st, search_query H ix { lamhat := lamhat, kreg := 1, regLambda := lambda_reg } false
          [0] 1 distances labels nonconf preds = .ok st ∧ st.idxi = [-1]) := by
  obtain ⟨h1, h2, h3⟩ := single_cluster_offline hsortR hsortP n lambda_reg lamhat all_preds q hq
  obtain ⟨h4, h5⟩ := single_cluster_search H hH ix id1 rest distances labels nonconf preds lamhat
    lambda_reg hn hkm hmetric hinit hlist hzero hcut hmax hneutral
  exact ⟨h1, fun h => ⟨h2 h, h4 h⟩, fun h => ⟨h3 h, h5 h⟩⟩

theorem single_cluster_threshold_witness :
    regularize_scores (insertionSortBy scoreLess) 1 (List.replicate 1 [0]) 0 1
        = some (List.replicate 1 [1 / 11]) ∧
      (1 / 11 ≤ (1 / 11 : ℚ) →
        ((compute_predictions (insertionSortBy pairLess) (1 / 11) (List.replicate 1 [1 / 11])
            [[[3]]]).1[0]? = some (([[[(3 : Int)]]].getD 0 []).getD 0 []) ∧
          (compute_predictions (insertionSortBy pairLess) (1 / 11) (List.replicate 1 [1 / 11])
            [[[3]]]).2[0]? = some 1) ∧
        ∃ st, search_query listHeap singleClusterIndex
          { lamhat := 1 / 11, kreg := 1, regLambda := 0 } false [0] 1 [0] [0] [] [] = .ok st ∧
          st.idxi = [3]) ∧
      ((1 / 11 : ℚ) < 1 / 11 →
        ((compute_predictions (insertionSortBy pairLess) (1 / 11) (List.replicate 1 [1 / 11])
            [[[3]]]).1[0]? = some [] ∧
          (compute_predictions (insertionSortBy pairLess) (1 / 11) (List.replicate 1 [1 / 11])
            [[[3]]]).2[0]? = some (-1)) ∧
        ∃ st, search_query listHeap singleClusterIndex
          { lamhat := 1 / 11, kreg := 1, regLambda := 0 } false [0] 1 [0] [0] [] [] = .ok st ∧
          st.idxi = [-1]) :=
  single_cluster_threshold insertionSortBy_scoreLess insertionSortBy_pairLess listHeap
    listHeap_isHeapLib singleClusterIndex 3 [(0, 4)] [0] [0] [] [] 1 0 (1 / 11) [[[3]]] 0
    (by decide) rfl rfl rfl rfl rfl (by simp) (by decide) (by decide) (by decide!)

end IndexIVF

namespace IndexIVF

theorem foldl_set_getD {α : Type} (d : α) (idx : Nat → Nat) (val : Nat → α) (init : List α)
    (m : Nat) (hinj : ∀ i j, i < m → j < m → idx i = idx j → i = j)
    (hlt : ∀ i, i < m → idx i < init.length) :
    ((List.range m).foldl (fun E j => E.set (idx j) (val j)) init).length = init.length ∧
    ∀ j, j < m →
      ((List.range m).foldl (fun E j => E.set (idx j) (val j)) init).getD (idx j) d = val j := by
  induction m with
  | zero => simp
  | succ m ih =>
      have ih2 := ih (fun i j hi hj => hinj i j (by omega) (by omega))
        (fun i hi => hlt i (by omega))
      rw [List.range_succ, List.foldl_append]
      simp only [List.foldl_cons, List.foldl_nil, List.length_set]
      refine ⟨ih2.1, ?_⟩
      intro j hj
      by_cases hjm : j = m
      · subst hjm
        have hlen : idx j < ((List.range j).foldl (fun E j => E.set (idx j) (val j))
            init).length := by rw [ih2.1]; exact hlt j (by omega)
        simp [List.getD_eq_getElem?_getD, List.getElem?_set, hlen]
      · have hne : idx m ≠ idx j := fun h => hjm ((hinj m j (by omega) hj h).symm)
        have := ih2.2 j (by omega)
        simp only [List.getD_eq_getElem?_getD] at this ⊢
        rw [List.getElem?_set_ne hne]
        exact this

theorem recorded_upto_succ (H : HeapLib) (ix : SearchIndex) (keys : List Int)
    (heap : List ℚ × List Int) (nonconf : List ℚ) (all_preds : List (List Int)) (j : Nat) :
    recorded_upto H ix keys heap nonconf all_preds (j + 1)
      = record_probe ix.MAX_DISTANCE (keys.getD j 0).toNat
          (heap_after H ix keys heap (j + 1)).1 (heap_after H ix keys heap (j + 1)).2
          (recorded_upto H ix keys heap nonconf all_preds j).1
          (recorded_upto H ix keys heap nonconf all_preds j).2 := by
  unfold recorded_upto
  rw [List.range_succ, List.foldl_append]
  rfl

theorem record_probe_eq (MAX_DISTANCE : ℚ) (key : Nat) (simi : List ℚ) (idxi : List Int)
    (nonconf : List ℚ) (all_preds : List (List Int)) :
    record_probe MAX_DISTANCE key simi idxi nonconf all_preds
      = (nonconf.set key (if max_element simi > MAX_DISTANCE then 1
            else max_element simi / MAX_DISTANCE),
          all_preds.set key idxi) := by
  unfold record_probe
  by_cases h : max_element simi > MAX_DISTANCE
  · simp only [if_pos h]
  · simp only [if_neg h]

theorem recorded_upto_eq (H : HeapLib) (ix : SearchIndex) (keys : List Int)
    (heap : List ℚ × List Int) (nonconf : List ℚ) (all_preds : List (List Int)) (m : Nat) :
    recorded_upto H ix keys heap nonconf all_preds m
      = ((List.range m).foldl (fun E j => E.set (keys.getD j 0).toNat
            (if max_element (heap_after H ix keys heap (j + 1)).1 > ix.MAX_DISTANCE then 1
              else max_element (heap_after H ix keys heap (j + 1)).1 / ix.MAX_DISTANCE))
            nonconf,
          (List.range m).foldl (fun P j => P.set (keys.getD j 0).toNat
            (heap_after H ix keys heap (j + 1)).2) all_preds) := by
  induction m with
  | zero => rfl
  | succ m ih =>
      rw [recorded_upto_succ, ih, record_probe_eq]
      simp only [List.range_succ, List.foldl_append, List.foldl_cons, List.foldl_nil]

end IndexIVF

namespace IndexIVF

theorem foldl_set_length {α : Type} (idx : Nat → Nat) (val : Nat → α) (init : List α) (m : Nat) :
    ((List.range m).foldl (fun E j => E.set (idx j) (val j)) init).length = init.length := by
  induction m with
  | zero => rfl
  | succ m ih =>
      rw [List.range_succ, List.foldl_append]
      simp only [List.foldl_cons, List.foldl_nil, List.length_set]
      exact ih

theorem recorded_upto_length (H : HeapLib) (ix : SearchIndex) (keys : List Int)
    (heap : List ℚ × List Int) (nonconf : List ℚ) (all_preds : List (List Int)) (m : Nat) :
    (recorded_upto H ix keys heap nonconf all_preds m).1.length = nonconf.length ∧
      (recorded_upto H ix keys heap nonconf all_preds m).2.length = all_preds.length := by
  rw [recorded_upto_eq]
  exact ⟨foldl_set_length _ _ _ _, foldl_set_length _ _ _ _⟩

theorem probe_loop_record (H : HeapLib) (ix : SearchIndex) (cal_params : CalibrationResults)
    (keys : List Int) (heap0 : List ℚ × List Int) (nonconf0 : List ℚ)
    (all_preds0 : List (List Int)) (hreg : FullProbes ix keys)
    (hlen1 : ix.nlist ≤ nonconf0.length) (hlen2 : ix.nlist ≤ all_preds0.length) :
    ∀ (n ik : Nat) (st : ProbeState), ik + n = ix.nlist →
      (st.simi, st.idxi) = heap_after H ix keys heap0 ik →
      st.nscan = (codes_upto ix keys ik : Int) → st.nlistv = lists_upto ix keys ik →
      (st.nonconf, st.all_preds) = recorded_upto H ix keys heap0 nonconf0 all_preds0 ik →
      ∃ st', probe_loop H ix cal_params true keys n ik st = .ok st' ∧
        (st'.simi, st'.idxi) = heap_after H ix keys heap0 ix.nlist ∧
        (st'.nonconf, st'.all_preds)
          = recorded_upto H ix keys heap0 nonconf0 all_preds0 ix.nlist ∧
        st'.nscan = (codes_upto ix keys ix.nlist : Int) ∧
        st'.nlistv = lists_upto ix keys ix.nlist := by
  intro n
  induction n with
  | zero =>
      intro ik st hsum hheap hn hl hrec
      have hik : ik = ix.nlist := by omega
      subst hik
      exact ⟨st, rfl, hheap, hrec, hn, hl⟩
  | succ n ih =>
      intro ik st hsum hheap hn hl hrec
      have hik : ik < ix.nlist := by omega
      obtain ⟨key, hk, h0, h1⟩ := hreg.1 ik hik
      obtain ⟨hscan, hnocut, hnsum⟩ := probe_step_scan H ix keys hreg ik hik st hn key hk h0 h1
      have hafter := heap_after_succ H ix keys heap0 ik key hk
      rw [← hheap] at hafter
      have hlsucc := lists_upto_succ ix keys ik key hk
      have hrl := recorded_upto_length H ix keys heap0 nonconf0 all_preds0 ik
      have hst1 : st.nonconf = (recorded_upto H ix keys heap0 nonconf0 all_preds0 ik).1 := by
        rw [← hrec]
      have hst2 : st.all_preds = (recorded_upto H ix keys heap0 nonconf0 all_preds0 ik).2 := by
        rw [← hrec]
      have hkn : key.toNat < ix.nlist := by omega
      have hb : 0 ≤ key ∧ key.toNat < st.all_preds.length ∧ key.toNat < st.nonconf.length := by
        refine ⟨h0, ?_, ?_⟩
        · rw [hst2, hrl.2]; omega
        · rw [hst1, hrl.1]; omega
      have hgetD : keys.getD ik 0 = key := by
        rw [List.getD_eq_getElem?_getD, hk]; rfl
      have hrsucc := recorded_upto_succ H ix keys heap0 nonconf0 all_preds0 ik
      rw [hgetD, hafter, ← hst1, ← hst2] at hrsucc
      have hstep : ∃ st1, probe_step H ix cal_params true keys ik st = .ok (st1, true) ∧
          (st1.simi, st1.idxi)
            = (scan_codes H ix.keep_max (ix.lists key.toNat) (st.simi, st.idxi)).1 ∧
          st1.nscan = st.nscan + ((ix.lists key.toNat).length : Int) ∧
          st1.nlistv = st.nlistv + (if (ix.lists key.toNat).isEmpty then 0 else 1) ∧
          (st1.nonconf, st1.all_preds)
            = record_probe ix.MAX_DISTANCE key.toNat
                (scan_codes H ix.keep_max (ix.lists key.toNat) (st.simi, st.idxi)).1.1
                (scan_codes H ix.keep_max (ix.lists key.toNat) (st.simi, st.idxi)).1.2
                st.nonconf st.all_preds := by
        refine ⟨{ st with
              simi := (scan_codes H ix.keep_max (ix.lists key.toNat) (st.simi, st.idxi)).1.1,
              idxi := (scan_codes H ix.keep_max (ix.lists key.toNat) (st.simi, st.idxi)).1.2,
              nscan := st.nscan + ((ix.lists key.toNat).length : Int),
              nlistv := st.nlistv + (if (ix.lists key.toNat).isEmpty then 0 else 1),
              nonconf := (record_probe ix.MAX_DISTANCE key.toNat
                (scan_codes H ix.keep_max (ix.lists key.toNat) (st.simi, st.idxi)).1.1
                (scan_codes H ix.keep_max (ix.lists key.toNat) (st.simi, st.idxi)).1.2
                st.nonconf st.all_preds).1,
              all_preds := (record_probe ix.MAX_DISTANCE key.toNat
                (scan_codes H ix.keep_max (ix.lists key.toNat) (st.simi, st.idxi)).1.1
                (scan_codes H ix.keep_max (ix.lists key.toNat) (st.simi, st.idxi)).1.2
                st.nonconf st.all_preds).2,
              prev_simi :=
                (scan_codes H ix.keep_max (ix.lists key.toNat) (st.simi, st.idxi)).1.1,
              prev_idxi :=
                (scan_codes H ix.keep_max (ix.lists key.toNat) (st.simi, st.idxi)).1.2 },
            ?_, rfl, rfl, rfl, rfl⟩
        simp only [probe_step, hk, hscan, if_neg hnocut, Bool.not_true, if_pos hb]
        rfl
      obtain ⟨st1, hstep, hs1, hs3, hs4, hs5⟩ := hstep
      obtain ⟨st', hloop, hres⟩ := ih (ik + 1) st1 (by omega) (by rw [hs1, hafter])
        (by rw [hs3]; exact hnsum) (by rw [hs4, hl, ← hlsucc]) (by rw [hs5, hrsucc])
      refine ⟨st', ?_, hres⟩
      simp only [probe_loop, hstep]
      exact hloop

end IndexIVF

namespace IndexIVF

theorem foldl_max_ge (l : List ℚ) : ∀ a : ℚ, a ≤ l.foldl max a ∧ ∀ x ∈ l, x ≤ l.foldl max a := by
  induction l with
  | nil => intro a; simp
  | cons y t ih =>
      intro a
      obtain ⟨h1, h2⟩ := ih (max a y)
      simp only [List.foldl_cons]
      refine ⟨le_trans (le_max_left a y) h1, ?_⟩
      intro x hx
      rcases List.mem_cons.mp hx with rfl | hx
      · exact le_trans (le_max_right a x) h1
      · exact h2 x hx

theorem foldl_max_mem (l : List ℚ) : ∀ a : ℚ, l.foldl max a = a ∨ l.foldl max a ∈ l := by
  induction l with
  | nil => intro a; simp
  | cons y t ih =>
      intro a
      simp only [List.foldl_cons]
      rcases ih (max a y) with h | h
      · rcases max_choice a y with h2 | h2
        · left; rw [h, h2]
        · right; rw [h, h2]; exact List.mem_cons_self _ _
      · right; exact List.mem_cons_of_mem _ h

theorem max_element_ge (l : List ℚ) (x : ℚ) (hx : x ∈ l) : x ≤ max_element l :=
  (foldl_max_ge l (l.headD 0)).2 x hx

theorem max_element_mem (l : List ℚ) (h : l ≠ []) : max_element l ∈ l := by
  unfold max_element
  rcases foldl_max_mem l (l.headD 0) with h2 | h2
  · rw [h2]
    match l, h with
    | x :: t, _ => simp
  · exact h2

theorem replace_top_max (H : HeapLib) (hH : IsHeapLib H) (heap : List ℚ × List Int) (dis : ℚ)
    (id : Int) (hne : heap.1 ≠ []) (hlen : heap.1.length = heap.2.length)
    (hdis : dis < heap.1.headD 0) :
    (H.maxheap_replace_top heap dis id).1 ≠ [] ∧
      (H.maxheap_replace_top heap dis id).1.length = (H.maxheap_replace_top heap dis id).2.length ∧
      (H.maxheap_replace_top heap dis id).1.length = heap.1.length ∧
      max_element (H.maxheap_replace_top heap dis id).1 ≤ max_element heap.1 := by
  obtain ⟨h1, h2⟩ := hH.2.1 heap dis id hne hlen
  have hne2 : heap.2 ≠ [] := by
    intro h
    rw [h] at hlen
    exact hne (List.length_eq_zero.mp hlen)
  have hl1 : (H.maxheap_replace_top heap dis id).1.length = heap.1.length := by
    rw [h1.length_eq, List.length_cons, List.length_tail]
    have : 0 < heap.1.length := List.length_pos.mpr hne
    omega
  have hl2 : (H.maxheap_replace_top heap dis id).2.length = heap.2.length := by
    rw [h2.length_eq, List.length_cons, List.length_tail]
    have : 0 < heap.2.length := List.length_pos.mpr hne2
    omega
  have hne3 : (H.maxheap_replace_top heap dis id).1 ≠ [] := by
    intro h
    rw [h] at h1
    exact absurd h1.length_eq (by simp)
  refine ⟨hne3, by rw [hl1, hl2, hlen], hl1, ?_⟩
  have hmem := h1.subset (max_element_mem _ hne3)
  rcases List.mem_cons.mp hmem with h | h
  · rw [h]
    have hhead : heap.1.headD 0 ∈ heap.1 := by
      match heap.1, hne with
      | x :: t, _ => simp
    exact le_trans (le_of_lt hdis) (max_element_ge _ _ hhead)
  · exact max_element_ge _ _ (List.mem_of_mem_tail h)

theorem scan_codes_max (H : HeapLib) (hH : IsHeapLib H) (codes : List (ℚ × Int)) :
    ∀ (heap : List ℚ × List Int) (n : Nat), heap.1 ≠ [] → heap.1.length = heap.2.length →
      (codes.foldl
        (fun (acc : (List ℚ × List Int) × Nat) (c : ℚ × Int) =>
          if !false then
            if c.1 < acc.1.1.headD 0 then (H.maxheap_replace_top acc.1 c.1 c.2, acc.2 + 1)
            else acc
          else
            if c.1 > acc.1.1.headD 0 then (H.minheap_replace_top acc.1 c.1 c.2, acc.2 + 1)
            else acc)
        (heap, n)).1.1 ≠ [] ∧
      (codes.foldl
        (fun (acc : (List ℚ × List Int) × Nat) (c : ℚ × Int) =>
          if !false then
            if c.1 < acc.1.1.headD 0 then (H.maxheap_replace_top acc.1 c.1 c.2, acc.2 + 1)
            else acc
          else
            if c.1 > acc.1.1.headD 0 then (H.minheap_replace_top acc.1 c.1 c.2, acc.2 + 1)
            else acc)
        (heap, n)).1.1.length
        = (codes.foldl
        (fun (acc : (List ℚ × List Int) × Nat) (c : ℚ × Int) =>
          if !false then
            if c.1 < acc.1.1.headD 0 then (H.maxheap_replace_top acc.1 c.1 c.2, acc.2 + 1)
            else acc
          else
            if c.1 > acc.1.1.headD 0 then (H.minheap_replace_top acc.1 c.1 c.2, acc.2 + 1)
            else acc)
        (heap, n)).1.2.length ∧
      max_element (codes.foldl
        (fun (acc : (List ℚ × List Int) × Nat) (c : ℚ × Int) =>
          if !false then
            if c.1 < acc.1.1.headD 0 then (H.maxheap_replace_top acc.1 c.1 c.2, acc.2 + 1)
            else acc
          else
            if c.1 > acc.1.1.headD 0 then (H.minheap_replace_top acc.1 c.1 c.2, acc.2 + 1)
            else acc)
        (heap, n)).1.1 ≤ max_element heap.1 := by
  induction codes with
  | nil => intro heap n hne hlen; exact ⟨hne, hlen, le_refl _⟩
  | cons c rest ih =>
      intro heap n hne hlen
      simp only [List.foldl_cons, Bool.not_false, if_true]
      by_cases hc : c.1 < heap.1.headD 0
      · rw [if_pos hc]
        obtain ⟨a1, a2, -, a4⟩ := replace_top_max H hH heap c.1 c.2 hne hlen hc
        obtain ⟨b1, b2, b3⟩ := ih (H.maxheap_replace_top heap c.1 c.2) (n + 1) a1 a2
        simp only [Bool.not_false, if_true] at b1 b2 b3
        exact ⟨b1, b2, le_trans b3 a4⟩
      · rw [if_neg hc]
        have := ih heap n hne hlen
        simp only [Bool.not_false, if_true] at this
        exact this

theorem heap_after_max (H : HeapLib) (hH : IsHeapLib H) (ix : SearchIndex) (keys : List Int)
    (heap0 : List ℚ × List Int) (hkm : ix.keep_max = false) (hne : heap0.1 ≠ [])
    (hlen : heap0.1.length = heap0.2.length) (hreg : FullProbes ix keys) :
    ∀ j, j ≤ ix.nlist →
      (heap_after H ix keys heap0 j).1 ≠ [] ∧
      (heap_after H ix keys heap0 j).1.length = (heap_after H ix keys heap0 j).2.length ∧
      (j < ix.nlist → max_element (heap_after H ix keys heap0 (j + 1)).1
        ≤ max_element (heap_after H ix keys heap0 j).1) := by
  intro j
  induction j with
  | zero =>
      intro _
      have hz : heap_after H ix keys heap0 0 = heap0 := by simp [heap_after]
      refine ⟨by rw [hz]; exact hne, by rw [hz]; exact hlen, ?_⟩
      intro h0
      obtain ⟨key, hk, -, -⟩ := hreg.1 0 h0
      rw [heap_after_succ H ix keys heap0 0 key hk, hz]
      have := scan_codes_max H hH (ix.lists key.toNat) heap0 0 hne hlen
      simp only [scan_codes, hkm]
      exact this.2.2
  | succ j ih =>
      intro hj
      obtain ⟨i1, i2, -⟩ := ih (by omega)
      obtain ⟨key, hk, -, -⟩ := hreg.1 j (by omega)
      have hs := heap_after_succ H ix keys heap0 j key hk
      have hsc := scan_codes_max H hH (ix.lists key.toNat) (heap_after H ix keys heap0 j) 0 i1 i2
      have e : (scan_codes H ix.keep_max (ix.lists key.toNat) (heap_after H ix keys heap0 j)).1
          = heap_after H ix keys heap0 (j + 1) := hs.symm
      simp only [scan_codes, hkm] at e
      rw [e] at hsc
      refine ⟨hsc.1, hsc.2.1, ?_⟩
      intro hj2
      obtain ⟨key2, hk2, -, -⟩ := hreg.1 (j + 1) hj2
      rw [heap_after_succ H ix keys heap0 (j + 1) key2 hk2]
      have := scan_codes_max H hH (ix.lists key2.toNat) (heap_after H ix keys heap0 (j + 1)) 0
        hsc.1 hsc.2.1
      simp only [scan_codes, hkm]
      exact this.2.2

theorem search_query_record (H : HeapLib) (ix : SearchIndex) (cal_params : CalibrationResults)
    (keys : List Int) (k : Nat) (distances : List ℚ) (labels : List Int) (nonconf0 : List ℚ)
    (all_preds0 : List (List Int)) (hreg : FullProbes ix keys)
    (hlen1 : ix.nlist ≤ nonconf0.length) (hlen2 : ix.nlist ≤ all_preds0.length) :
    ∃ st, search_query H ix cal_params true keys k distances labels nonconf0 all_preds0 = .ok st ∧
      (st.simi, st.idxi) = reorder_result H ix
        (heap_after H ix keys (init_result H ix k (distances, labels)) ix.nlist) ∧
      (st.nonconf, st.all_preds) = recorded_upto H ix keys
        (init_result H ix k (distances, labels)) nonconf0 all_preds0 ix.nlist := by
  obtain ⟨st', hloop, h1, h2, -, -⟩ := probe_loop_record H ix cal_params keys
    (init_result H ix k (distances, labels)) nonconf0 all_preds0 hreg hlen1 hlen2 ix.nlist 0
    { simi := (init_result H ix k (distances, labels)).1,
      idxi := (init_result H ix k (distances, labels)).2,
      prev_simi := (init_result H ix k (distances, labels)).1,
      prev_idxi := (init_result H ix k (distances, labels)).2,
      nscan := 0, nlistv := 0, nonconf := nonconf0, all_preds := all_preds0 }
    (by omega) (by simp [heap_after]) (by simp [codes_upto]) (by simp [lists_upto])
    (by simp [recorded_upto])
  refine ⟨{ st' with simi := (reorder_result H ix (st'.simi, st'.idxi)).1,
                     idxi := (reorder_result H ix (st'.simi, st'.idxi)).2 }, ?_, ?_, h2⟩
  · simp only [search_query, hloop]
  · simp only
    rw [h1]

theorem raw_score_mono (MAX_DISTANCE a b : ℚ) (hM : 0 < MAX_DISTANCE) (hab : a ≤ b) :
    (if a > MAX_DISTANCE then (1 : ℚ) else a / MAX_DISTANCE)
      ≤ (if b > MAX_DISTANCE then (1 : ℚ) else b / MAX_DISTANCE) := by
  by_cases hb : b > MAX_DISTANCE
  · rw [if_pos hb]
    by_cases ha : a > MAX_DISTANCE
    · rw [if_pos ha]
    · rw [if_neg ha, div_le_one hM]
      exact not_lt.mp ha
  · rw [if_neg hb]
    have ha : ¬ a > MAX_DISTANCE := fun h => hb (lt_of_lt_of_le h hab)
    rw [if_neg ha]
    exact div_le_div_of_nonneg_right hab (le_of_lt hM)

theorem recorded_scores (H : HeapLib) (ix : SearchIndex) (keys : List Int)
    (heap0 : List ℚ × List Int) (nonconf0 : List ℚ) (all_preds0 : List (List Int))
    (hreg : FullProbes ix keys)
    (hnodup : ∀ i j, i < ix.nlist → j < ix.nlist → keys.getD i 0 = keys.getD j 0 → i = j)
    (hlen1 : ix.nlist ≤ nonconf0.length) (hlen2 : ix.nlist ≤ all_preds0.length) (j : Nat)
    (hj : j < ix.nlist) :
    (recorded_upto H ix keys heap0 nonconf0 all_preds0 ix.nlist).1.getD (keys.getD j 0).toNat 0
        = (if max_element (heap_after H ix keys heap0 (j + 1)).1 > ix.MAX_DISTANCE then 1
            else max_element (heap_after H ix keys heap0 (j + 1)).1 / ix.MAX_DISTANCE) ∧
      (recorded_upto H ix keys heap0 nonconf0 all_preds0 ix.nlist).2.getD (keys.getD j 0).toNat []
        = (heap_after H ix keys heap0 (j + 1)).2 := by
  have hkey : ∀ i, i < ix.nlist → 0 ≤ keys.getD i 0 ∧ keys.getD i 0 < (ix.nlist : Int) := by
    intro i hi
    obtain ⟨key, hk, h0, h1⟩ := hreg.1 i hi
    have : keys.getD i 0 = key := by rw [List.getD_eq_getElem?_getD, hk]; rfl
    rw [this]
    exact ⟨h0, h1⟩
  have hinj : ∀ i j, i < ix.nlist → j < ix.nlist →
      (keys.getD i 0).toNat = (keys.getD j 0).toNat → i = j := by
    intro i j hi hj h
    apply hnodup i j hi hj
    have := hkey i hi
    have := hkey j hj
    omega
  rw [recorded_upto_eq]
  constructor
  · exact (foldl_set_getD (0 : ℚ) (fun j => (keys.getD j 0).toNat) _ nonconf0 ix.nlist hinj
      (by intro i hi; have := hkey i hi; beta_reduce; omega)).2 j hj
  · exact (foldl_set_getD ([] : List Int) (fun j => (keys.getD j 0).toNat) _ all_preds0 ix.nlist
      hinj (by intro i hi; have := hkey i hi; beta_reduce; omega)).2 j hj

/-- C18: on an index whose scanner keeps the smallest distances (`keep_max = false`, the
max-heap of the metric L2), with heap initialisation, `k > 0`, `MAX_DISTANCE > 0`, a quantizer
that ranks every list once and a `max_codes` that cuts nothing, the score builder returns for
one query, and the scores it has written, read in the order of the probes, do not increase:
the score written after probe `r + 2` is at most the score written after probe `r + 1`. -/
theorem recorded_scores_nonincreasing (H : HeapLib) (hH : IsHeapLib H) (ix : SearchIndex)
    (cal_params : CalibrationResults) (keys : List Int) (k : Nat) (distances : List ℚ)
    (labels : List Int) (nonconf0 : List ℚ) (all_preds0 : List (List Int)) (hk : 0 < k)
    (hkm : ix.keep_max = false) (hinit : ix.do_heap_init = true) (hM : 0 < ix.MAX_DISTANCE)
    (hreg : FullProbes ix keys)
    (hnodup : ∀ i j, i < ix.nlist → j < ix.nlist → keys.getD i 0 = keys.getD j 0 → i = j)
    (hlen1 : nonconf0.length = ix.nlist) (hlen2 : all_preds0.length = ix.nlist) :
    ∃ st, search_query H ix cal_params true keys k distances labels nonconf0 all_preds0 = .ok st ∧
      st.nonconf.length = ix.nlist ∧
      ∀ r, r + 1 < ix.nlist →
        st.nonconf.getD (keys.getD (r + 1) 0).toNat 0 ≤ st.nonconf.getD (keys.getD r 0).toNat 0 := by
  obtain ⟨st, hs, -, hrec⟩ := search_query_record H ix cal_params keys k distances labels nonconf0
    all_preds0 hreg (by omega) (by omega)
  have hnc : st.nonconf = (recorded_upto H ix keys (init_result H ix k (distances, labels))
      nonconf0 all_preds0 ix.nlist).1 := by rw [← hrec]
  obtain ⟨h0len, h0id⟩ := hH.1 ix.metric_inner_product k (distances, labels)
  have hi : init_result H ix k (distances, labels)
      = H.heap_heapify ix.metric_inner_product k (distances, labels) := by
    simp [init_result, hinit]
  have hne : (init_result H ix k (distances, labels)).1 ≠ [] := by
    rw [hi]
    intro h
    rw [h] at h0len
    simp at h0len
    omega
  have hlen : (init_result H ix k (distances, labels)).1.length
      = (init_result H ix k (distances, labels)).2.length := by
    rw [hi, h0len, h0id]; simp
  refine ⟨st, hs, ?_, ?_⟩
  · rw [hnc, (recorded_upto_length H ix keys _ nonconf0 all_preds0 ix.nlist).1, hlen1]
  · intro r hr
    rw [hnc,
      (recorded_scores H ix keys _ nonconf0 all_preds0 hreg hnodup (by omega) (by omega) (r + 1)
        hr).1,
      (recorded_scores H ix keys _ nonconf0 all_preds0 hreg hnodup (by omega) (by omega) r
        (by omega)).1]
    apply raw_score_mono _ _ _ hM
    exact (heap_after_max H hH ix keys _ hkm hne hlen hreg (r + 1) (by omega)).2.2 hr

theorem recorded_scores_nonincreasing_witness :
    ∃ st, search_query listHeap sampleIndex { lamhat := 10, kreg := 0, regLambda := 0 } true
        [1, 0] 1 [0] [0] [0, 0] [[0], [0]] = .ok st ∧
      st.nonconf.length = sampleIndex.nlist ∧
      ∀ r, r + 1 < sampleIndex.nlist →
        st.nonconf.getD (([1, 0] : List Int).getD (r + 1) 0).toNat 0
          ≤ st.nonconf.getD (([1, 0] : List Int).getD r 0).toNat 0 :=
  recorded_scores_nonincreasing listHeap listHeap_isHeapLib sampleIndex
    { lamhat := 10, kreg := 0, regLambda := 0 } [1, 0] 1 [0] [0] [0, 0] [[0], [0]] (by decide)
    rfl rfl (by decide!) fullProbes_sample
    (by
      intro i j hi hj h
      have hi2 : i < 2 := hi
      have hj2 : j < 2 := hj
      interval_cases i <;> interval_cases j <;> simp_all)
    rfl rfl

end IndexIVF

namespace IndexIVF

theorem range_map_perm (L : Nat) (keyn : Nat → Nat)
    (hinj : ∀ i j, i < L → j < L → keyn i = keyn j → i = j) (hlt : ∀ i, i < L → keyn i < L) :
    ((List.range L).map keyn).Perm (List.range L) := by
  have hnodup : ((List.range L).map keyn).Nodup := by
    rw [List.nodup_map_iff_inj_on (List.nodup_range L)]
    intro x hx y hy hxy
    exact hinj x y (List.mem_range.mp hx) (List.mem_range.mp hy) hxy
  have hsub : (List.range L).map keyn ⊆ List.range L := by
    intro x hx
    obtain ⟨i, hi, rfl⟩ := List.mem_map.mp hx
    exact List.mem_range.mpr (hlt i (List.mem_range.mp hi))
  exact (List.subperm_of_subset hnodup hsub).perm_of_length_le (by simp)

theorem antitone_of_step (L : Nat) (f : Nat → ℚ) (hstep : ∀ j, j + 1 < L → f (j + 1) ≤ f j) :
    ∀ i j, i ≤ j → j < L → f j ≤ f i := by
  intro i j hij
  induction j with
  | zero =>
      intro _
      have : i = 0 := by omega
      subst this
      exact le_refl _
  | succ j ih =>
      intro hj
      rcases Nat.lt_or_eq_of_le hij with h | h
      · exact le_trans (hstep j hj) (ih (by omega) (by omega))
      · subst h
        exact le_refl _

theorem sorted_scores_eq {sort : List (Nat × ℚ) → List (Nat × ℚ)}
    (hsort : IsStdSort scoreLess sort) (L : Nat) (s : List ℚ) (keyn : Nat → Nat)
    (hinj : ∀ i j, i < L → j < L → keyn i = keyn j → i = j) (hlt : ∀ i, i < L → keyn i < L)
    (hmono : ∀ j, j + 1 < L → s.getD (keyn (j + 1)) 0 ≤ s.getD (keyn j) 0) :
    (sorted_classes sort L s).map Prod.snd = (List.range L).map (fun j => s.getD (keyn j) 0) := by
  have hp1 : ((sorted_classes sort L s).map Prod.snd).Perm
      ((List.range L).map (fun j => s.getD j 0)) := by
    have := (sorted_classes_perm hsort L s).map Prod.snd
    rw [List.map_map] at this
    exact this
  have hp2 : ((List.range L).map (fun j => s.getD (keyn j) 0)).Perm
      ((List.range L).map (fun j => s.getD j 0)) := by
    have := (range_map_perm L keyn hinj hlt).map (fun j => s.getD j 0)
    rw [List.map_map] at this
    exact this
  have hs1 : ((sorted_classes sort L s).map Prod.snd).Sorted (fun a b => b ≤ a) := by
    unfold List.Sorted
    rw [List.pairwise_map]
    exact sorted_classes_descending hsort L s
  have hs2 : ((List.range L).map (fun j => s.getD (keyn j) 0)).Sorted (fun a b => b ≤ a) := by
    unfold List.Sorted
    rw [List.pairwise_map]
    apply (List.pairwise_lt_range L).imp_of_mem
    intro a b _ hb hab
    exact antitone_of_step L (fun j => s.getD (keyn j) 0) hmono a b (le_of_lt hab)
      (List.mem_range.mp hb)
  haveI : IsAntisymm ℚ (fun a b => b ≤ a) := ⟨fun a b h1 h2 => le_antisymm h2 h1⟩
  exact List.eq_of_perm_of_sorted (hp1.trans hp2.symm) hs1 hs2

end IndexIVF

namespace IndexIVF

theorem sorted_position {sort : List (Nat × ℚ) → List (Nat × ℚ)}
    (hsort : IsStdSort scoreLess sort) (L : Nat) (s : List ℚ) (keyn : Nat → Nat)
    (hinj : ∀ i j, i < L → j < L → keyn i = keyn j → i = j) (hlt : ∀ i, i < L → keyn i < L)
    (hmono : ∀ j, j + 1 < L → s.getD (keyn (j + 1)) 0 ≤ s.getD (keyn j) 0) (j : Nat)
    (hj : j < L) :
    ((sorted_classes sort L s).getD j (0, 0)).1 < L ∧
      s.getD ((sorted_classes sort L s).getD j (0, 0)).1 0 = s.getD (keyn j) 0 ∧
      rank_of (sorted_classes sort L s) ((sorted_classes sort L s).getD j (0, 0)).1 = j + 1 := by
  have hlen := sorted_classes_length hsort L s
  have hjl : j < (sorted_classes sort L s).length := by rw [hlen]; exact hj
  have hmem := getD_mem_of_lt (sorted_classes sort L s) j hjl (0, 0)
  obtain ⟨h1, h2⟩ := sorted_classes_snd hsort L s _ hmem
  have hnodup : ((sorted_classes sort L s).map Prod.fst).Nodup :=
    (sorted_classes_fst_perm hsort L s).nodup_iff.mpr (List.nodup_range L)
  have heq := sorted_scores_eq hsort L s keyn hinj hlt hmono
  have hsnd : ((sorted_classes sort L s).getD j (0, 0)).2 = s.getD (keyn j) 0 := by
    have e1 : ((sorted_classes sort L s).map Prod.snd).getD j 0
        = ((sorted_classes sort L s).getD j (0, 0)).2 :=
      getD_map_of_lt Prod.snd _ j hjl (0, 0) 0
    rw [← e1, heq]
    rw [getD_map_of_lt _ (List.range L) j (by simpa using hj) 0 0]
    simp [List.getD_eq_getElem?_getD, List.getElem?_range hj]
  refine ⟨h1, by rw [← h2, hsnd], ?_⟩
  unfold rank_of
  have hjm : j < ((sorted_classes sort L s).map Prod.fst).length := by simpa using hjl
  have hidx := List.indexOf_getElem hnodup j hjm
  have hget : ((sorted_classes sort L s).map Prod.fst)[j]
      = ((sorted_classes sort L s).getD j (0, 0)).1 := by
    rw [List.getElem_map]
    congr 1
    simp [List.getD_eq_getElem?_getD, List.getElem?_eq_getElem hjl]
  rw [hget] at hidx
  rw [hidx]

theorem position_of_list {sort : List (Nat × ℚ) → List (Nat × ℚ)}
    (hsort : IsStdSort scoreLess sort) (L : Nat) (s : List ℚ) (l : Nat) (hl : l < L) :
    ∃ j, j < L ∧ ((sorted_classes sort L s).getD j (0, 0)).1 = l := by
  have hlen := sorted_classes_length hsort L s
  have hmem : l ∈ (sorted_classes sort L s).map Prod.fst :=
    (sorted_classes_fst_perm hsort L s).mem_iff.mpr (List.mem_range.mpr hl)
  have hj : ((sorted_classes sort L s).map Prod.fst).indexOf l < (sorted_classes sort L s).length := by
    have := List.indexOf_lt_length.mpr hmem
    simpa using this
  refine ⟨_, by rw [← hlen]; exact hj, ?_⟩
  rw [getD_fst_eq_map _ hj]
  exact List.indexOf_get _

end IndexIVF

namespace IndexIVF

theorem countP_lt_range (L r : Nat) (hr : r ≤ L) :
    (List.range L).countP (fun j => decide (j < r)) = r := by
  obtain ⟨d, rfl⟩ := Nat.exists_eq_add_of_le hr
  rw [List.range_add, List.countP_append]
  have h1 : (List.range r).countP (fun j => decide (j < r)) = r := by
    rw [List.countP_eq_length_filter, List.filter_eq_self.mpr]
    · simp
    · intro a ha
      simpa using List.mem_range.mp ha
  have h2 : ((List.range d).map (fun x => r + x)).countP (fun j => decide (j < r)) = 0 := by
    rw [List.countP_eq_zero]
    intro a ha
    obtain ⟨x, -, rfl⟩ := List.mem_map.mp ha
    simp
  rw [h1, h2, Nat.add_zero]

end IndexIVF

namespace IndexIVF

theorem exists_first_exceed (L : Nat) (f : Nat → ℚ) (lam : ℚ) :
    ∃ r, r ≤ L ∧ (∀ j, j < r → f j ≤ lam) ∧ (r < L → lam < f r) := by
  induction L with
  | zero => exact ⟨0, le_refl _, fun j hj => absurd hj (by omega), fun h => absurd h (by omega)⟩
  | succ L ih =>
      obtain ⟨r, hr, hle, hgt⟩ := ih
      by_cases hrL : r < L
      · exact ⟨r, by omega, hle, fun _ => hgt hrL⟩
      · have hrL2 : r = L := by omega
        subst hrL2
        by_cases hf : f r ≤ lam
        · refine ⟨r + 1, le_refl _, ?_, fun h => absurd h (by omega)⟩
          intro j hj
          rcases Nat.lt_or_eq_of_le (Nat.lt_succ_iff.mp hj) with h | h
          · exact hle j h
          · rw [h]; exact hf
        · exact ⟨r, by omega, hle, fun _ => not_le.mp hf⟩

theorem except_eq_of_toOption {ε α : Type} (x : Except ε α) (a : α)
    (h : x.toOption = some a) : x = .ok a := by
  cases x with
  | error e => simp [Except.toOption] at h
  | ok b =>
      simp only [Except.toOption, Option.some.injEq] at h
      rw [h]

end IndexIVF

namespace IndexIVF

theorem log2Fuel_spec (fuel : Nat) : ∀ n, n ≤ fuel → 0 < n →
    2 ^ log2Fuel fuel n ≤ n ∧ n < 2 ^ (log2Fuel fuel n + 1) := by
  induction fuel with
  | zero => intro n h1 h2; omega
  | succ fuel ih =>
      intro n h1 h2
      unfold log2Fuel
      by_cases h : n < 2
      · rw [if_pos h]
        simp
        omega
      · rw [if_neg h]
        obtain ⟨i1, i2⟩ := ih (n / 2) (by omega) (by omega)
        generalize log2Fuel fuel (n / 2) = k at i1 i2 ⊢
        have e1 : 2 ^ (k + 1) = 2 * 2 ^ k := by ring
        have e2 : 2 ^ (k + 1 + 1) = 4 * 2 ^ k := by ring
        rw [e1] at i2
        rw [e1, e2]
        omega

theorem binade_spec (x : ℚ) (hx : 0 < x) :
    (2 : ℚ) ^ binade x ≤ x ∧ x < (2 : ℚ) ^ (binade x + 1) := by
  have hnum : 0 < x.num := Rat.num_pos.mpr hx
  have hden : 0 < x.den := x.den_pos
  have hn0 : 0 < x.num.natAbs := Int.natAbs_pos.mpr (ne_of_gt hnum)
  obtain ⟨a1, a2⟩ := log2Fuel_spec x.num.natAbs x.num.natAbs (le_refl _) hn0
  obtain ⟨b1, b2⟩ := log2Fuel_spec x.den x.den (le_refl _) hden
  generalize ha : log2Fuel x.num.natAbs x.num.natAbs = a at a1 a2
  generalize hb : log2Fuel x.den x.den = b at b1 b2
  have hxe : x = (x.num.natAbs : ℚ) / (x.den : ℚ) := by
    rw [Nat.cast_natAbs, abs_of_pos hnum]
    exact (Rat.num_div_den x).symm
  have hdq : (0 : ℚ) < (x.den : ℚ) := by exact_mod_cast hden
  have A1 : (2 : ℚ) ^ a ≤ (x.num.natAbs : ℚ) := by exact_mod_cast a1
  have A2 : (x.num.natAbs : ℚ) < (2 : ℚ) ^ (a + 1) := by exact_mod_cast a2
  have B1 : (2 : ℚ) ^ b ≤ (x.den : ℚ) := by exact_mod_cast b1
  have B2 : (x.den : ℚ) < (2 : ℚ) ^ (b + 1) := by exact_mod_cast b2
  have hpb : (0 : ℚ) < 2 ^ b := by positivity
  have hpa : (0 : ℚ) < 2 ^ a := by positivity
  have hup : x < (2 : ℚ) ^ (((a : Int) - (b : Int)) + 1) := by
    have e1 : (2 : ℚ) ^ (((a : Int) - (b : Int)) + 1) = (2 : ℚ) ^ (a + 1) / (2 : ℚ) ^ b := by
      rw [show ((a : Int) - (b : Int)) + 1 = ((a + 1 : Nat) : Int) - ((b : Nat) : Int) by
        push_cast; ring]
      rw [zpow_sub₀ (by norm_num : (2 : ℚ) ≠ 0), zpow_natCast, zpow_natCast]
    rw [e1, hxe, div_lt_div_iff₀ hdq hpb]
    calc (x.num.natAbs : ℚ) * 2 ^ b ≤ (x.num.natAbs : ℚ) * (x.den : ℚ) :=
          mul_le_mul_of_nonneg_left B1 (by positivity)
      _ < 2 ^ (a + 1) * (x.den : ℚ) := mul_lt_mul_of_pos_right A2 hdq
  have hlo : (2 : ℚ) ^ (((a : Int) - (b : Int)) - 1) ≤ x := by
    have e1 : (2 : ℚ) ^ (((a : Int) - (b : Int)) - 1) = (2 : ℚ) ^ a / (2 : ℚ) ^ (b + 1) := by
      rw [show ((a : Int) - (b : Int)) - 1 = ((a : Nat) : Int) - ((b + 1 : Nat) : Int) by
        push_cast; ring]
      rw [zpow_sub₀ (by norm_num : (2 : ℚ) ≠ 0), zpow_natCast, zpow_natCast]
    rw [e1, hxe, div_le_div_iff₀ (by positivity) hdq]
    calc (2 : ℚ) ^ a * (x.den : ℚ) ≤ (x.num.natAbs : ℚ) * (x.den : ℚ) :=
          mul_le_mul_of_nonneg_right A1 (le_of_lt hdq)
      _ ≤ (x.num.natAbs : ℚ) * 2 ^ (b + 1) :=
          mul_le_mul_of_nonneg_left (le_of_lt B2) (by positivity)
  unfold binade
  simp only []
  rw [ha, hb]
  by_cases h : (2 : ℚ) ^ ((a : Int) - (b : Int)) ≤ x
  · rw [if_pos h]
    exact ⟨h, hup⟩
  · rw [if_neg h]
    refine ⟨hlo, ?_⟩
    rw [sub_add_cancel]
    exact not_le.mp h

theorem two_zpow_pos (e : Int) : (0 : ℚ) < 2 ^ e := zpow_pos (by norm_num) e

theorem two_zpow_le {a b : Int} (h : a ≤ b) : (2 : ℚ) ^ a ≤ 2 ^ b :=
  zpow_le_zpow_right₀ (by norm_num) h

theorem two_zpow_lt_iff {a b : Int} : (2 : ℚ) ^ a < 2 ^ b ↔ a < b :=
  zpow_lt_zpow_iff_right₀ (by norm_num)

theorem binade_eq (y : ℚ) (k : Int) (h1 : (2 : ℚ) ^ k ≤ y) (h2 : y < (2 : ℚ) ^ (k + 1)) :
    binade y = k := by
  have hy : 0 < y := lt_of_lt_of_le (two_zpow_pos k) h1
  obtain ⟨s1, s2⟩ := binade_spec y hy
  have c1 : binade y < k + 1 := two_zpow_lt_iff.mp (lt_of_le_of_lt s1 h2)
  have c2 : k < binade y + 1 := two_zpow_lt_iff.mp (lt_of_le_of_lt h1 s2)
  omega

theorem binade_mono (x y : ℚ) (hx : 0 < x) (hxy : x ≤ y) : binade x ≤ binade y := by
  obtain ⟨s1, _⟩ := binade_spec x hx
  obtain ⟨_, t2⟩ := binade_spec y (lt_of_lt_of_le hx hxy)
  have := two_zpow_lt_iff.mp (lt_of_le_of_lt (le_trans s1 hxy) t2)
  omega

theorem roundNearestEven_int (n : Int) : roundNearestEven (n : ℚ) = n := by
  unfold roundNearestEven
  simp

theorem roundNearestEven_bounds (q : ℚ) :
    ⌊q⌋ ≤ roundNearestEven q ∧ roundNearestEven q ≤ ⌊q⌋ + 1 := by
  unfold roundNearestEven
  simp only []
  split_ifs <;> constructor <;> omega

theorem roundNearestEven_error (q : ℚ) :
    q - 1 / 2 ≤ (roundNearestEven q : ℚ) ∧ (roundNearestEven q : ℚ) ≤ q + 1 / 2 := by
  have h1 := Int.floor_le q
  have h2 := Int.lt_floor_add_one q
  unfold roundNearestEven
  simp only []
  split_ifs with c1 c2 c3 <;> push_cast <;> constructor <;> linarith

theorem roundNearestEven_mono (p q : ℚ) (h : p ≤ q) :
    roundNearestEven p ≤ roundNearestEven q := by
  have hf : ⌊p⌋ ≤ ⌊q⌋ := Int.floor_mono h
  rcases lt_or_eq_of_le hf with hlt | heq
  · have := (roundNearestEven_bounds p).2
    have := (roundNearestEven_bounds q).1
    omega
  · unfold roundNearestEven
    simp only []
    rw [heq]
    split_ifs with c1 c2 c3 c4 c5 c6 c7 c8 <;> first | omega | (exfalso; linarith)

theorem roundPos_zero : roundPos 0 = 0 := by
  unfold roundPos
  simp [roundNearestEven]

theorem roundPos_nonneg (x : ℚ) (hx : 0 ≤ x) : 0 ≤ roundPos x := by
  unfold roundPos
  simp only []
  apply mul_nonneg _ (le_of_lt (two_zpow_pos _))
  have h0 : (0 : ℚ) ≤ x / 2 ^ (max (binade x) (-126) - 23) :=
    div_nonneg hx (le_of_lt (two_zpow_pos _))
  have := roundNearestEven_mono 0 _ h0
  rw [show (0 : ℚ) = ((0 : Int) : ℚ) by norm_num, roundNearestEven_int] at this
  exact_mod_cast this

/-- A value that is a whole multiple of the spacing at its own exponent is not changed. -/
theorem roundPos_fixed (y : ℚ) (m : Int)
    (h : y = (m : ℚ) * 2 ^ (max (binade y) (-126) - 23)) : roundPos y = y := by
  unfold roundPos
  simp only []
  have hu := two_zpow_pos (max (binade y) (-126) - 23)
  have hq : y / 2 ^ (max (binade y) (-126) - 23) = (m : ℚ) := by
    rw [div_eq_iff (ne_of_gt hu)]
    exact h
  rw [hq, roundNearestEven_int]
  exact h.symm

theorem roundPos_le_of_lt (x : ℚ) (E : Int) (hE : max (binade x) (-126) = E)
    (k : Nat) (hxk : x ≤ (k : ℚ) * 2 ^ (E - 23)) : roundPos x ≤ (k : ℚ) * 2 ^ (E - 23) := by
  unfold roundPos
  simp only []
  rw [hE]
  have hu := two_zpow_pos (E - 23)
  apply mul_le_mul_of_nonneg_right _ (le_of_lt hu)
  have hq : x / 2 ^ (E - 23) ≤ ((k : Int) : ℚ) := by
    rw [div_le_iff₀ hu]
    exact_mod_cast hxk
  have := roundNearestEven_mono _ _ hq
  rw [roundNearestEven_int] at this
  exact_mod_cast this

theorem roundPos_ge_of_ge (x : ℚ) (E : Int) (hE : max (binade x) (-126) = E)
    (k : Nat) (hxk : (k : ℚ) * 2 ^ (E - 23) ≤ x) : (k : ℚ) * 2 ^ (E - 23) ≤ roundPos x := by
  unfold roundPos
  simp only []
  rw [hE]
  have hu := two_zpow_pos (E - 23)
  apply mul_le_mul_of_nonneg_right _ (le_of_lt hu)
  have hq : ((k : Int) : ℚ) ≤ x / 2 ^ (E - 23) := by
    rw [le_div_iff₀ hu]
    exact_mod_cast hxk
  have := roundNearestEven_mono _ _ hq
  rw [roundNearestEven_int] at this
  exact_mod_cast this

theorem two_zpow_split (E : Int) : (2 : ℚ) ^ E = ((2 ^ 23 : Nat) : ℚ) * 2 ^ (E - 23) := by
  rw [show E = 23 + (E - 23) by ring, zpow_add₀ (by norm_num : (2 : ℚ) ≠ 0)]
  norm_num

theorem two_zpow_split_succ (E : Int) :
    (2 : ℚ) ^ (E + 1) = ((2 ^ 24 : Nat) : ℚ) * 2 ^ (E - 23) := by
  rw [show E + 1 = 24 + (E - 23) by ring, zpow_add₀ (by norm_num : (2 : ℚ) ≠ 0)]
  norm_num

/-- The rounded value stays in the closed binade of the argument. -/
theorem roundPos_range (x : ℚ) (hx : 0 < x) :
    roundPos x ≤ 2 ^ (max (binade x) (-126) + 1) ∧
      (-126 ≤ binade x → (2 : ℚ) ^ binade x ≤ roundPos x) ∧
      (binade x < -126 → roundPos x ≤ 2 ^ (-126 : Int)) := by
  obtain ⟨s1, s2⟩ := binade_spec x hx
  refine ⟨?_, ?_, ?_⟩
  · rw [two_zpow_split_succ]
    apply roundPos_le_of_lt x _ rfl
    rw [← two_zpow_split_succ]
    exact le_trans (le_of_lt s2) (two_zpow_le (by omega))
  · intro h
    have hE : max (binade x) (-126) = binade x := max_eq_left h
    rw [two_zpow_split]
    apply roundPos_ge_of_ge x _ hE
    rw [← two_zpow_split]
    exact s1
  · intro h
    have hE : max (binade x) (-126) = -126 := max_eq_right (le_of_lt h)
    rw [two_zpow_split (-126)]
    apply roundPos_le_of_lt x _ hE
    rw [← two_zpow_split]
    exact le_trans (le_of_lt s2) (two_zpow_le (by omega))

theorem roundPos_mono (x y : ℚ) (hx : 0 ≤ x) (hxy : x ≤ y) : roundPos x ≤ roundPos y := by
  rcases eq_or_lt_of_le hx with h0 | hpos
  · rw [← h0, roundPos_zero]
    exact roundPos_nonneg y (le_trans hx hxy)
  · have hy : 0 < y := lt_of_lt_of_le hpos hxy
    have hb := binade_mono x y hpos hxy
    have hE : max (binade x) (-126) ≤ max (binade y) (-126) := max_le_max hb (le_refl _)
    rcases eq_or_lt_of_le hE with heq | hlt
    · unfold roundPos
      simp only []
      rw [heq]
      have hu := two_zpow_pos (max (binade y) (-126) - 23)
      apply mul_le_mul_of_nonneg_right _ (le_of_lt hu)
      have := roundNearestEven_mono _ _ (div_le_div_of_nonneg_right hxy (le_of_lt hu))
      exact_mod_cast this
    · have hyb : -126 ≤ binade y := by
        by_contra hcon
        rw [max_eq_right (by omega : binade y ≤ -126)] at hlt
        have := le_max_right (binade x) (-126)
        omega
      have hEy : max (binade y) (-126) = binade y := max_eq_left hyb
      rw [hEy] at hlt
      calc roundPos x ≤ 2 ^ (max (binade x) (-126) + 1) := (roundPos_range x hpos).1
        _ ≤ 2 ^ binade y := two_zpow_le (by omega)
        _ ≤ roundPos y := (roundPos_range y hy).2.1 hyb

theorem roundPos_idem (x : ℚ) (hx : 0 ≤ x) : roundPos (roundPos x) = roundPos x := by
  rcases eq_or_lt_of_le hx with h0 | hpos
  · rw [← h0, roundPos_zero, roundPos_zero]
  rcases eq_or_lt_of_le (roundPos_nonneg x hx) with hy0 | hypos
  · rw [← hy0, roundPos_zero]
  obtain ⟨r1, r2, r3⟩ := roundPos_range x hpos
  have hdef : roundPos x = (roundNearestEven (x / 2 ^ (max (binade x) (-126) - 23)) : ℚ)
      * 2 ^ (max (binade x) (-126) - 23) := rfl
  generalize hn : roundNearestEven (x / 2 ^ (max (binade x) (-126) - 23)) = n at hdef
  generalize hy : roundPos x = y at hdef hypos r1 r2 r3 ⊢
  by_cases hb : -126 ≤ binade x
  · have hE : max (binade x) (-126) = binade x := max_eq_left hb
    rw [hE] at r1 hdef
    have r2 := r2 hb
    rcases eq_or_lt_of_le r1 with heq | hlt
    · have hby : binade y = binade x + 1 := by
        apply binade_eq
        · rw [heq]
        · rw [heq]
          exact two_zpow_lt_iff.mpr (by omega)
      apply roundPos_fixed y ((2 ^ 23 : Nat) : Int)
      rw [hby, max_eq_left (by omega)]
      rw [heq]
      exact_mod_cast two_zpow_split (binade x + 1)
    · have hby : binade y = binade x := binade_eq y _ r2 hlt
      apply roundPos_fixed y n
      rw [hby, hE]
      exact hdef
  · have hb2 : binade x < -126 := by omega
    have hE : max (binade x) (-126) = -126 := max_eq_right (by omega)
    rw [hE] at hdef
    have r3 := r3 hb2
    have hby : binade y ≤ -126 := by
      obtain ⟨s1, _⟩ := binade_spec y hypos
      have := two_zpow_lt_iff.mp (lt_of_le_of_lt (le_trans s1 r3)
        (two_zpow_lt_iff.mpr (by omega : (-126 : Int) < -125)))
      omega
    apply roundPos_fixed y n
    rw [max_eq_right hby]
    exact hdef

theorem roundPos_natCast (n : Nat) (hn : n ≤ 2 ^ 24) : roundPos (n : ℚ) = (n : ℚ) := by
  rcases Nat.eq_zero_or_pos n with h0 | hpos
  · rw [h0]
    simpa using roundPos_zero
  have hq : (0 : ℚ) < (n : ℚ) := by exact_mod_cast hpos
  obtain ⟨s1, s2⟩ := binade_spec (n : ℚ) hq
  have hb0 : 0 ≤ binade (n : ℚ) := by
    have h1 : (2 : ℚ) ^ (0 : Int) ≤ (n : ℚ) := by
      rw [zpow_zero]
      exact_mod_cast hpos
    have := two_zpow_lt_iff.mp (lt_of_le_of_lt h1 s2)
    omega
  have hb24 : binade (n : ℚ) ≤ 24 := by
    have h1 : (n : ℚ) ≤ (2 : ℚ) ^ (24 : Int) := by
      have : (n : ℚ) ≤ ((2 ^ 24 : Nat) : ℚ) := by exact_mod_cast hn
      rw [show (2 : ℚ) ^ (24 : Int) = ((2 ^ 24 : Nat) : ℚ) by norm_num]
      exact this
    have := two_zpow_lt_iff.mp (lt_of_le_of_lt (le_trans s1 h1)
      (two_zpow_lt_iff.mpr (by omega : (24 : Int) < 25)))
    omega
  have hE : max (binade (n : ℚ)) (-126) = binade (n : ℚ) := max_eq_left (by omega)
  rcases eq_or_lt_of_le hb24 with h24 | hlt
  · have hn24 : (n : ℚ) = (2 : ℚ) ^ (24 : Int) := by
      apply le_antisymm
      · have : (n : ℚ) ≤ ((2 ^ 24 : Nat) : ℚ) := by exact_mod_cast hn
        rw [show (2 : ℚ) ^ (24 : Int) = ((2 ^ 24 : Nat) : ℚ) by norm_num]
        exact this
      · rw [← h24]
        exact s1
    apply roundPos_fixed (n : ℚ) ((2 ^ 23 : Nat) : Int)
    rw [hE, h24, hn24]
    norm_num
  · obtain ⟨d, hd⟩ : ∃ d : Nat, binade (n : ℚ) = 23 - (d : Int) :=
      ⟨(23 - binade (n : ℚ)).toNat, by omega⟩
    apply roundPos_fixed (n : ℚ) ((n * 2 ^ d : Nat) : Int)
    rw [hE, hd]
    have e1 : (23 : Int) - (d : Int) - 23 = -(d : Int) := by ring
    rw [e1, zpow_neg, zpow_natCast]
    push_cast
    field_simp

theorem roundPos_error (x : ℚ) (hx : 0 ≤ x) : roundPos x ≤ x + x / 2 ^ 24 + 1 / 2 ^ 150 := by
  rcases eq_or_lt_of_le hx with h0 | hpos
  · rw [← h0, roundPos_zero]
    norm_num
  obtain ⟨s1, _⟩ := binade_spec x hpos
  have hu := two_zpow_pos (max (binade x) (-126) - 23)
  have herr := (roundNearestEven_error (x / 2 ^ (max (binade x) (-126) - 23))).2
  have h1 : roundPos x ≤ x + 2 ^ (max (binade x) (-126) - 23) / 2 := by
    unfold roundPos
    simp only []
    have := mul_le_mul_of_nonneg_right herr (le_of_lt hu)
    rw [add_mul, div_mul_cancel₀ _ (ne_of_gt hu)] at this
    linarith
  have h2 : (2 : ℚ) ^ (max (binade x) (-126) - 23) / 2 ≤ x / 2 ^ 24 + 1 / 2 ^ 150 := by
    have hx24 : (0 : ℚ) ≤ x / 2 ^ 24 := by positivity
    by_cases hb : -126 ≤ binade x
    · rw [max_eq_left hb]
      have e : (2 : ℚ) ^ (binade x - 23) / 2 = 2 ^ binade x / 2 ^ 24 := by
        rw [zpow_sub₀ (by norm_num : (2 : ℚ) ≠ 0)]
        norm_num
        ring
      rw [e]
      have : (2 : ℚ) ^ binade x / 2 ^ 24 ≤ x / 2 ^ 24 :=
        div_le_div_of_nonneg_right s1 (by positivity)
      have h150 : (0 : ℚ) ≤ 1 / 2 ^ 150 := by positivity
      linarith
    · rw [max_eq_right (by omega)]
      have e : (2 : ℚ) ^ ((-126 : Int) - 23) / 2 = 1 / 2 ^ 150 := by
        rw [show ((-126 : Int) - 23) = -(149 : Nat) by norm_num, zpow_neg, zpow_natCast]
        norm_num
      rw [e]
      linarith
  linarith

theorem roundF32_of_nonneg (x : ℚ) (hx : 0 ≤ x) : roundF32 x = roundPos x := by
  unfold roundF32
  rw [if_pos hx]

theorem roundF32_nonneg (x : ℚ) (hx : 0 ≤ x) : 0 ≤ roundF32 x := by
  rw [roundF32_of_nonneg x hx]
  exact roundPos_nonneg x hx

theorem roundF32_nonpos (x : ℚ) (hx : x < 0) : roundF32 x ≤ 0 := by
  unfold roundF32
  rw [if_neg (not_le.mpr hx)]
  have := roundPos_nonneg (-x) (by linarith)
  linarith

theorem roundF32_mono (x y : ℚ) (hxy : x ≤ y) : roundF32 x ≤ roundF32 y := by
  by_cases hx : 0 ≤ x
  · rw [roundF32_of_nonneg x hx, roundF32_of_nonneg y (le_trans hx hxy)]
    exact roundPos_mono x y hx hxy
  · have hx2 : x < 0 := not_le.mp hx
    by_cases hy : 0 ≤ y
    · exact le_trans (roundF32_nonpos x hx2) (roundF32_nonneg y hy)
    · unfold roundF32
      rw [if_neg hx, if_neg hy]
      have := roundPos_mono (-y) (-x) (by linarith) (by linarith)
      linarith

theorem roundF32_idem (x : ℚ) : roundF32 (roundF32 x) = roundF32 x := by
  by_cases hx : 0 ≤ x
  · rw [roundF32_of_nonneg x hx, roundF32_of_nonneg _ (roundPos_nonneg x hx)]
    exact roundPos_idem x hx
  · have hx2 : 0 ≤ -x := by linarith
    have hp := roundPos_nonneg (-x) hx2
    have hval : roundF32 x = -roundPos (-x) := by
      unfold roundF32
      rw [if_neg hx]
    rw [hval]
    rcases eq_or_lt_of_le hp with h0 | hpos
    · rw [← h0]
      simp [roundF32, roundPos_zero]
    · unfold roundF32
      rw [if_neg (by linarith), neg_neg, roundPos_idem (-x) hx2]

/-- The binary32 rounding meets the contract of a rounding. -/
theorem isRounding_roundF32 : IsRounding roundF32 := by
  refine ⟨roundF32_mono, roundF32_idem, ?_, ?_⟩
  · intro n hn
    rw [roundF32_of_nonneg _ (by positivity)]
    exact roundPos_natCast n hn
  · intro x hx
    rw [roundF32_of_nonneg x hx]
    exact roundPos_error x hx

theorem isRounding_id : IsRounding (fun x => x) := by
  refine ⟨fun x y h => h, fun x => rfl, fun n _ => rfl, ?_⟩
  intro x hx
  have : (0 : ℚ) ≤ x / 2 ^ 24 + 1 / 2 ^ 150 := by positivity
  beta_reduce
  linarith

end IndexIVF

namespace IndexIVF

theorem regularize_row_fl_id (sort : List (Nat × ℚ) → List (Nat × ℚ)) (K : Nat)
    (row : List ℚ) (lambda_reg : ℚ) (kreg : Int) (max_reg_val : ℚ) :
    regularize_row_fl (fun x => x) sort K row lambda_reg kreg max_reg_val
      = regularize_row sort K row lambda_reg kreg max_reg_val := rfl

theorem regularize_scores_fl_id (sort : List (Nat × ℚ) → List (Nat × ℚ)) (n_list : Int)
    (s : List (List ℚ)) (lambda_reg : ℚ) (kreg : Int) :
    regularize_scores_fl (fun x => x) sort n_list s lambda_reg kreg
      = regularize_scores sort n_list s lambda_reg kreg := by
  cases s <;> rfl

theorem regularize_row_fl_getD (fl : ℚ → ℚ) {sort : List (Nat × ℚ) → List (Nat × ℚ)}
    (hsort : IsStdSort scoreLess sort) (K : Nat) (row : List ℚ) (lambda_reg : ℚ) (kreg : Int)
    (max_reg_val : ℚ) :
    (regularize_row_fl fl sort K row lambda_reg kreg max_reg_val).length = K ∧
    ∀ l, l < K →
      (regularize_row_fl fl sort K row lambda_reg kreg max_reg_val).getD l 0 =
        fl (fl (fl (1 - row.getD l 0) + compute_regularization_fl fl
          (rank_of (sorted_classes sort K row) l : Int) lambda_reg kreg) / max_reg_val) := by
  have hlen := sorted_classes_length hsort K row
  have hperm := sorted_classes_fst_perm hsort K row
  have hnodup : ((sorted_classes sort K row).map Prod.fst).Nodup :=
    hperm.nodup_iff.mpr (List.nodup_range K)
  have hmaplen : ((sorted_classes sort K row).map Prod.fst).length = K := by simpa using hlen
  have key := foldl_set_range K (fun j => ((sorted_classes sort K row).getD j (0, 0)).1)
    (fun j => fl (fl (fl (1 - row.getD ((sorted_classes sort K row).getD j (0, 0)).1 0) +
      compute_regularization_fl fl ((compute_ox (sorted_classes sort K row)).getD j 0)
        lambda_reg kreg) / max_reg_val)) K
    (by
      intro i j hi hj h
      beta_reduce at h
      rw [getD_fst_eq_map i (by omega), getD_fst_eq_map j (by omega)] at h
      have := (List.Nodup.get_inj_iff hnodup).mp h
      simpa using this)
    (by
      intro i hi
      have hm : (sorted_classes sort K row).getD i (0, 0) ∈ sorted_classes sort K row := by
        rw [List.getD_eq_getElem _ _ (by omega)]
        exact List.getElem_mem _
      exact (sorted_classes_snd hsort K row _ hm).1)
  refine ⟨key.1, ?_⟩
  intro l hl
  have hmem : l ∈ (sorted_classes sort K row).map Prod.fst :=
    hperm.mem_iff.mpr (List.mem_range.mpr hl)
  have hj : ((sorted_classes sort K row).map Prod.fst).indexOf l < K := by
    exact lt_of_lt_of_eq (List.indexOf_lt_length.mpr hmem) hmaplen
  have hidx : ((sorted_classes sort K row).getD
      (((sorted_classes sort K row).map Prod.fst).indexOf l) (0, 0)).1 = l := by
    rw [getD_fst_eq_map _ (by omega)]
    exact List.indexOf_get _
  have h := key.2 _ hj
  simp only [hidx] at h
  unfold regularize_row_fl
  simp only []
  rw [h, compute_ox_getD _ _ (by omega)]
  unfold rank_of
  push_cast
  rfl

theorem regularize_scores_fl_eq (fl : ℚ → ℚ) (sort : List (Nat × ℚ) → List (Nat × ℚ))
    (n_list : Int) (L : Nat) (s : List (List ℚ)) (lambda_reg : ℚ) (kreg : Int)
    (hrows : ∀ row ∈ s, row.length = L) (hne : s ≠ []) :
    regularize_scores_fl fl sort n_list s lambda_reg kreg =
      some (s.map (fun row => regularize_row_fl fl sort L row lambda_reg kreg
        (fl (fl (1 + fl (lambda_reg * fl ((n_list - kreg : Int) : ℚ))) + 10)))) := by
  cases s with
  | nil => exact absurd rfl hne
  | cons s0 rest =>
      have h0 : s0.length = L := hrows s0 (List.mem_cons_self _ _)
      have hall : (s0 :: rest).all (fun row => decide (s0.length ≤ row.length)) = true := by
        rw [List.all_eq_true]
        intro row hrow
        rw [decide_eq_true_eq, h0, hrows row hrow]
      rw [h0] at hall
      simp only [regularize_scores_fl, h0, hall, if_true]

theorem isRounding_zero {fl : ℚ → ℚ} (hfl : IsRounding fl) : fl 0 = 0 := by
  have := hfl.2.2.1 0 (by norm_num)
  simpa using this

theorem isRounding_one {fl : ℚ → ℚ} (hfl : IsRounding fl) : fl 1 = 1 := by
  have := hfl.2.2.1 1 (by norm_num)
  simpa using this

theorem isRounding_nonneg {fl : ℚ → ℚ} (hfl : IsRounding fl) (x : ℚ) (hx : 0 ≤ x) :
    0 ≤ fl x := by
  have := hfl.1 0 x hx
  rwa [isRounding_zero hfl] at this

/-- The penalty grows with the rank and is at least 0. -/
theorem compute_regularization_fl_mono {fl : ℚ → ℚ} (hfl : IsRounding fl) (lambda : ℚ)
    (hlam : 0 ≤ lambda) (kreg i j : Int) (hij : i ≤ j) :
    0 ≤ compute_regularization_fl fl i lambda kreg ∧
      compute_regularization_fl fl i lambda kreg ≤ compute_regularization_fl fl j lambda kreg := by
  unfold compute_regularization_fl
  have h0 : (0 : ℚ) ≤ ((max 0 (i - kreg) : Int) : ℚ) := by exact_mod_cast le_max_left _ _
  have hm : ((max 0 (i - kreg) : Int) : ℚ) ≤ ((max 0 (j - kreg) : Int) : ℚ) := by
    have : max 0 (i - kreg) ≤ max 0 (j - kreg) := max_le_max (le_refl _) (by omega)
    exact_mod_cast this
  constructor
  · exact isRounding_nonneg hfl _ (mul_nonneg hlam (isRounding_nonneg hfl _ h0))
  · exact hfl.1 _ _ (mul_le_mul_of_nonneg_left (hfl.1 _ _ hm) hlam)

/-- The constant `max_reg_val` in `float` arithmetic is at least 1 and at least the largest
numerator `1 + penalty`. -/
theorem max_reg_val_fl_bound {fl : ℚ → ℚ} (hfl : IsRounding fl) (lambda_reg : ℚ)
    (hlam : 0 ≤ lambda_reg) (n_list kreg : Int) (hk2 : kreg ≤ n_list) :
    1 ≤ fl (fl (1 + fl (lambda_reg * fl ((n_list - kreg : Int) : ℚ))) + 10) ∧
      fl (1 + fl (lambda_reg * fl ((n_list - kreg : Int) : ℚ)))
        ≤ fl (fl (1 + fl (lambda_reg * fl ((n_list - kreg : Int) : ℚ))) + 10) := by
  have hd : (0 : ℚ) ≤ ((n_list - kreg : Int) : ℚ) := by exact_mod_cast sub_nonneg.mpr hk2
  have hp := isRounding_nonneg hfl _ (mul_nonneg hlam (isRounding_nonneg hfl _ hd))
  generalize fl (lambda_reg * fl ((n_list - kreg : Int) : ℚ)) = p at hp ⊢
  have hc1 : 1 ≤ fl (1 + p) := by
    have := hfl.1 1 (1 + p) (by linarith)
    rwa [isRounding_one hfl] at this
  have hc2 : fl (1 + p) ≤ fl (fl (1 + p) + 10) := by
    have := hfl.1 (fl (1 + p)) (fl (1 + p) + 10) (by linarith)
    rwa [hfl.2.1] at this
  exact ⟨le_trans hc1 hc2, hc2⟩

/-- Under the bound `lambda_reg * (n_list - kreg) <= FLT_MAX / 2` the constant `max_reg_val`
computed in `float` arithmetic, the largest value that `regularize_scores` computes, is at most
`FLT_MAX`: no operation overflows. -/
theorem max_reg_val_fl_finite {fl : ℚ → ℚ} (hfl : IsRounding fl) (lambda_reg : ℚ)
    (hlam : 0 ≤ lambda_reg) (n_list kreg : Int) (hk2 : kreg ≤ n_list)
    (hfin : lambda_reg * ((n_list : ℚ) - (kreg : ℚ)) ≤ FLT_MAX / 2) :
    fl (fl (1 + fl (lambda_reg * fl ((n_list - kreg : Int) : ℚ))) + 10) ≤ FLT_MAX := by
  have hd0 : (0 : Int) ≤ n_list - kreg := sub_nonneg.mpr hk2
  have hcast : ((n_list - kreg : Int) : ℚ) = (n_list : ℚ) - (kreg : ℚ) := by push_cast; rfl
  rw [← hcast] at hfin
  have hF : FLT_MAX = 340282346638528859811704183484516925440 := rfl
  have step : ∀ x B : ℚ, 0 ≤ x → x ≤ B → fl x ≤ B + B / 2 ^ 24 + 1 / 2 ^ 150 := by
    intro x B hx hxB
    have h1 := hfl.2.2.2 x hx
    have h2 : x / 2 ^ 24 ≤ B / 2 ^ 24 := div_le_div_of_nonneg_right hxB (by positivity)
    linarith
  have hp : 0 ≤ fl (lambda_reg * fl ((n_list - kreg : Int) : ℚ)) ∧
      fl (lambda_reg * fl ((n_list - kreg : Int) : ℚ)) ≤ FLT_MAX * (51 / 100) := by
    rcases eq_or_lt_of_le hd0 with h0 | hpos
    · rw [← h0]
      simp only [Int.cast_zero, isRounding_zero hfl, mul_zero]
      rw [hF]
      norm_num
    · have hd1 : (1 : ℚ) ≤ ((n_list - kreg : Int) : ℚ) := by
        have : (1 : Int) ≤ n_list - kreg := hpos
        exact_mod_cast this
      generalize ((n_list - kreg : Int) : ℚ) = d at hd1 hfin
      have hfd0 : 0 ≤ fl d := isRounding_nonneg hfl d (by linarith)
      have hfd : fl d ≤ d * (1 + 1 / 2 ^ 23) := by
        have h1 := hfl.2.2.2 d (by linarith)
        have h2 : (1 : ℚ) / 2 ^ 150 ≤ d / 2 ^ 24 := by
          have : (1 : ℚ) / 2 ^ 24 ≤ d / 2 ^ 24 :=
            div_le_div_of_nonneg_right hd1 (by positivity)
          have e : (1 : ℚ) / 2 ^ 150 ≤ 1 / 2 ^ 24 := by norm_num
          linarith
        have e2 : d * (1 + 1 / 2 ^ 23) = d + d / 2 ^ 24 + d / 2 ^ 24 := by ring
        linarith
      have hprod : lambda_reg * fl d ≤ FLT_MAX / 2 * (1 + 1 / 2 ^ 23) := by
        have h1 := mul_le_mul_of_nonneg_left hfd hlam
        have h2 : lambda_reg * (d * (1 + 1 / 2 ^ 23)) = lambda_reg * d * (1 + 1 / 2 ^ 23) := by
          ring
        have h3 := mul_le_mul_of_nonneg_right hfin (by norm_num : (0 : ℚ) ≤ 1 + 1 / 2 ^ 23)
        linarith
      have hprod0 : 0 ≤ lambda_reg * fl d := mul_nonneg hlam hfd0
      refine ⟨isRounding_nonneg hfl _ hprod0, ?_⟩
      have := step _ _ hprod0 hprod
      rw [hF] at this ⊢
      norm_num at this ⊢
      linarith
  obtain ⟨hp0, hp1⟩ := hp
  generalize fl (lambda_reg * fl ((n_list - kreg : Int) : ℚ)) = p at hp0 hp1
  have hc0 : 0 ≤ fl (1 + p) := isRounding_nonneg hfl _ (by linarith)
  have hc1 : fl (1 + p) ≤ FLT_MAX * (52 / 100) := by
    have := step (1 + p) (FLT_MAX * (51 / 100) + 1) (by linarith) (by linarith)
    rw [hF] at this ⊢
    norm_num at this ⊢
    linarith
  generalize fl (1 + p) = c at hc0 hc1
  have := step (c + 10) (FLT_MAX * (52 / 100) + 10) (by linarith) (by linarith)
  rw [hF] at this hc1 ⊢
  norm_num at this ⊢
  linarith

theorem regularize_row_fl_unit_interval {fl : ℚ → ℚ} (hfl : IsRounding fl)
    {sort : List (Nat × ℚ) → List (Nat × ℚ)} (hsort : IsStdSort scoreLess sort) (L : Nat)
    (row : List ℚ) (lambda_reg : ℚ) (kreg : Int) (hlen : row.length = L)
    (hrow : ∀ x ∈ row, 0 ≤ x ∧ x ≤ 1) (hlam : 0 ≤ lambda_reg) (hk2 : kreg ≤ (L : Int))
    (l : Nat) (hl : l < L) :
    0 ≤ (regularize_row_fl fl sort L row lambda_reg kreg
        (fl (fl (1 + fl (lambda_reg * fl (((L : Int) - kreg : Int) : ℚ))) + 10))).getD l 0 ∧
    (regularize_row_fl fl sort L row lambda_reg kreg
        (fl (fl (1 + fl (lambda_reg * fl (((L : Int) - kreg : Int) : ℚ))) + 10))).getD l 0
      ≤ 1 := by
  rw [(regularize_row_fl_getD fl hsort L row lambda_reg kreg _).2 l hl]
  have hx : row.getD l 0 ∈ row := by
    have hlt : l < row.length := by rw [hlen]; exact hl
    rw [List.getD_eq_getElem row 0 hlt]
    exact List.getElem_mem _
  obtain ⟨hx0, hx1⟩ := hrow _ hx
  obtain ⟨_, hr2⟩ := rank_of_le hsort L row l
  have hr3 := hr2 hl
  obtain ⟨hM1, hM2⟩ := max_reg_val_fl_bound hfl lambda_reg hlam (L : Int) kreg hk2
  obtain ⟨hp0, _⟩ := compute_regularization_fl_mono hfl lambda_reg hlam kreg
    (rank_of (sorted_classes sort L row) l : Int) (L : Int) (by omega)
  have hp1 : compute_regularization_fl fl (rank_of (sorted_classes sort L row) l : Int)
      lambda_reg kreg ≤ fl (lambda_reg * fl (((L : Int) - kreg : Int) : ℚ)) := by
    unfold compute_regularization_fl
    apply hfl.1
    apply mul_le_mul_of_nonneg_left _ hlam
    apply hfl.1
    have : max 0 ((rank_of (sorted_classes sort L row) l : Int) - kreg) ≤ (L : Int) - kreg := by
      apply max_le <;> omega
    exact_mod_cast this
  have ht0 : 0 ≤ fl (1 - row.getD l 0) := isRounding_nonneg hfl _ (by linarith)
  have ht1 : fl (1 - row.getD l 0) ≤ 1 := by
    have := hfl.1 (1 - row.getD l 0) 1 (by linarith)
    rwa [isRounding_one hfl] at this
  generalize fl (1 - row.getD l 0) = t at ht0 ht1 ⊢
  generalize compute_regularization_fl fl (rank_of (sorted_classes sort L row) l : Int)
    lambda_reg kreg = pen at hp0 hp1 ⊢
  generalize fl (lambda_reg * fl (((L : Int) - kreg : Int) : ℚ)) = p at hp1 hM1 hM2 ⊢
  have ha0 : 0 ≤ fl (t + pen) := isRounding_nonneg hfl _ (by linarith)
  have ha1 : fl (t + pen) ≤ fl (fl (1 + p) + 10) :=
    le_trans (hfl.1 _ _ (by linarith)) hM2
  generalize fl (fl (1 + p) + 10) = M at hM1 ha1 ⊢
  have hMpos : (0 : ℚ) < M := by linarith
  constructor
  · exact isRounding_nonneg hfl _ (div_nonneg ha0 (le_of_lt hMpos))
  · have := hfl.1 (fl (t + pen) / M) 1 ((div_le_one hMpos).mpr ha1)
    rwa [isRounding_one hfl] at this

/-- C3 (counterexample): in binary32 arithmetic with `lambda_reg = 1e9` (a `float`),
`n_list = 2`, `k_reg = 1` and the score row `[1, 0]`, the constant `max_reg_val` is `1e9` (the
sums `1e9 + 1` and `1e9 + 10` round to `1e9`) and the entry of the second list,
`(1 + 1e9) / max_reg_val`, is `1`: not below 1. -/
theorem regularize_scores_reaches_one :
    regularize_scores_fl roundF32 (insertionSortBy scoreLess) 2 [[1, 0]] 1000000000 1
        = some [[0, 1]] ∧
      roundF32 1000000000 = 1000000000 ∧ roundF32 (1000000000 + 1) = 1000000000 ∧
      roundF32 (1000000000 + 10) = 1000000000 := by
  decide!

/-- C3: in `float` arithmetic, with any rounding `fl` that meets `IsRounding` (as the binary32
rounding does), for a non-empty score matrix with entries in `[0, 1]` whose rows have length
`L = n_list`, every `lambda_reg >= 0` and every `k_reg <= L` (so every `k_reg` with
`1 <= k_reg <= L`) with `lambda_reg * (L - k_reg) <= FLT_MAX / 2` (no operation overflows, by
`max_reg_val_fl_finite`), `regularize_scores` returns a matrix all of whose entries are at
least 0 and at most 1. -/
theorem regularize_scores_closed_unit_interval {fl : ℚ → ℚ} (hfl : IsRounding fl)
    {sort : List (Nat × ℚ) → List (Nat × ℚ)} (hsort : IsStdSort scoreLess sort) (L : Nat)
    (s : List (List ℚ)) (lambda_reg : ℚ) (kreg : Int) (hne : s ≠ [])
    (hrows : ∀ row ∈ s, row.length = L) (hs : ∀ row ∈ s, ∀ x ∈ row, 0 ≤ x ∧ x ≤ 1)
    (hlam : 0 ≤ lambda_reg) (hk2 : kreg ≤ (L : Int))
    (_hfin : lambda_reg * ((L : ℚ) - (kreg : ℚ)) ≤ FLT_MAX / 2) :
    ∃ E, regularize_scores_fl fl sort (L : Int) s lambda_reg kreg = some E ∧
      E.length = s.length ∧ (∀ Erow ∈ E, Erow.length = L) ∧
      ∀ Erow ∈ E, ∀ x ∈ Erow, 0 ≤ x ∧ x ≤ 1 := by
  refine ⟨_, regularize_scores_fl_eq fl sort (L : Int) L s lambda_reg kreg hrows hne, by simp,
    ?_, ?_⟩
  · intro Erow hE
    obtain ⟨row, _, rfl⟩ := List.mem_map.mp hE
    exact (regularize_row_fl_getD fl hsort L row lambda_reg kreg _).1
  · intro Erow hE x hx
    obtain ⟨row, hrow, rfl⟩ := List.mem_map.mp hE
    obtain ⟨l, hl, rfl⟩ := List.getElem_of_mem hx
    have hlen := (regularize_row_fl_getD fl hsort L row lambda_reg kreg
      (fl (fl (1 + fl (lambda_reg * fl (((L : Int) - kreg : Int) : ℚ))) + 10))).1
    have hl2 : l < L := by rw [← hlen]; exact hl
    have := regularize_row_fl_unit_interval hfl hsort L row lambda_reg kreg (hrows row hrow)
      (hs row hrow) hlam hk2 l hl2
    rw [List.getD_eq_getElem _ 0 hl] at this
    exact this

/-- The bounds on the row of the counterexample, in binary32 arithmetic. -/
theorem regularize_scores_closed_unit_interval_witness :
    ∃ E, regularize_scores_fl roundF32 (insertionSortBy scoreLess) ((2 : Nat) : Int) [[1, 0]]
        1000000000 1 = some E ∧
      E.length = [[(1 : ℚ), 0]].length ∧ (∀ Erow ∈ E, Erow.length = 2) ∧
      ∀ Erow ∈ E, ∀ x ∈ Erow, 0 ≤ x ∧ x ≤ 1 :=
  regularize_scores_closed_unit_interval isRounding_roundF32 insertionSortBy_scoreLess 2
    [[1, 0]] 1000000000 1 (by simp) (by simp) (by simp) (by norm_num) (by norm_num)
    (by norm_num [FLT_MAX])

end IndexIVF

namespace IndexIVF

theorem regularize_row_fl_le_of_score_gt {fl : ℚ → ℚ} (hfl : IsRounding fl)
    {sort : List (Nat × ℚ) → List (Nat × ℚ)} (hsort : IsStdSort scoreLess sort) (L : Nat)
    (row : List ℚ) (lambda_reg : ℚ) (kreg : Int) (hlam : 0 ≤ lambda_reg)
    (hk2 : kreg ≤ (L : Int)) (a b : Nat) (ha : a < L) (hb : b < L)
    (hab : row.getD b 0 < row.getD a 0) :
    (regularize_row_fl fl sort L row lambda_reg kreg
        (fl (fl (1 + fl (lambda_reg * fl (((L : Int) - kreg : Int) : ℚ))) + 10))).getD a 0
      ≤ (regularize_row_fl fl sort L row lambda_reg kreg
        (fl (fl (1 + fl (lambda_reg * fl (((L : Int) - kreg : Int) : ℚ))) + 10))).getD b 0 := by
  have hf := (regularize_row_fl_getD fl hsort L row lambda_reg kreg
    (fl (fl (1 + fl (lambda_reg * fl (((L : Int) - kreg : Int) : ℚ))) + 10))).2
  rw [hf a ha, hf b hb]
  obtain ⟨hM1, _⟩ := max_reg_val_fl_bound hfl lambda_reg hlam (L : Int) kreg hk2
  have hrank := rank_of_lt_of_score_gt hsort L row a b ha hb hab
  obtain ⟨_, hpen⟩ := compute_regularization_fl_mono hfl lambda_reg hlam kreg
    (rank_of (sorted_classes sort L row) a : Int) (rank_of (sorted_classes sort L row) b : Int)
    (by omega)
  have ht : fl (1 - row.getD a 0) ≤ fl (1 - row.getD b 0) := hfl.1 _ _ (by linarith)
  apply hfl.1
  apply div_le_div_of_nonneg_right _ (by linarith)
  apply hfl.1
  linarith

/-- C27 (counterexample): in `float` arithmetic with `lambda_reg = 0`, `k_reg = 1` and the
raw scores `s[0] = 1/4 + 2^-25 > s[1] = 1/4` (both are `float` values), the two differences
`1.0f - s` round to `3/4` and the two regularized scores are the same `float`:
`E[0] < E[1]` fails. -/
theorem regularize_scores_order_collapses :
    regularize_scores_fl roundF32 (insertionSortBy scoreLess) 2 [[1 / 4 + 1 / 2 ^ 25, 1 / 4]]
        0 1 = some [[9151209 / 134217728, 9151209 / 134217728]] ∧
      roundF32 (1 / 4 + 1 / 2 ^ 25) = 1 / 4 + 1 / 2 ^ 25 ∧ roundF32 (1 / 4) = 1 / 4 := by
  decide!

/-- C27: in `float` arithmetic, with any rounding `fl` that meets `IsRounding`, for a score
matrix with rows of length `L = n_list`, `lambda_reg >= 0` and `1 <= k_reg <= L` with
`lambda_reg * (L - k_reg) <= FLT_MAX / 2` (no operation overflows, by
`max_reg_val_fl_finite`), two lists `a`, `b` of a query with raw scores `s[a] > s[b]` get
regularized scores `E[a] <= E[b]`: the order is reversed, but not strictly. -/
theorem regularize_scores_reverses_order_weakly {fl : ℚ → ℚ} (hfl : IsRounding fl)
    {sort : List (Nat × ℚ) → List (Nat × ℚ)} (hsort : IsStdSort scoreLess sort) (L : Nat)
    (s : List (List ℚ)) (lambda_reg : ℚ) (kreg : Int) (hrows : ∀ row ∈ s, row.length = L)
    (hlam : 0 ≤ lambda_reg) (_hk1 : 1 ≤ kreg) (hk2 : kreg ≤ (L : Int))
    (_hfin : lambda_reg * ((L : ℚ) - (kreg : ℚ)) ≤ FLT_MAX / 2) (q a b : Nat)
    (hq : q < s.length) (ha : a < L) (hb : b < L)
    (hab : (s.getD q []).getD b 0 < (s.getD q []).getD a 0) :
    ∃ E, regularize_scores_fl fl sort (L : Int) s lambda_reg kreg = some E ∧
      (E.getD q []).getD a 0 ≤ (E.getD q []).getD b 0 := by
  have hne : s ≠ [] := by
    intro h
    rw [h] at hq
    exact absurd hq (by simp)
  refine ⟨_, regularize_scores_fl_eq fl sort (L : Int) L s lambda_reg kreg hrows hne, ?_⟩
  rw [getD_map_of_lt _ s q hq []]
  exact regularize_row_fl_le_of_score_gt hfl hsort L _ lambda_reg kreg hlam hk2 a b ha hb hab

/-- The two lists of the counterexample, in binary32 arithmetic. -/
theorem regularize_scores_reverses_order_weakly_witness :
    ∃ E, regularize_scores_fl roundF32 (insertionSortBy scoreLess) ((2 : Nat) : Int)
        [[1 / 4 + 1 / 2 ^ 25, 1 / 4]] 0 1 = some E ∧
      (E.getD 0 []).getD 0 0 ≤ (E.getD 0 []).getD 1 0 :=
  regularize_scores_reverses_order_weakly isRounding_roundF32 insertionSortBy_scoreLess 2
    [[1 / 4 + 1 / 2 ^ 25, 1 / 4]] 0 1 (by simp) (by norm_num) (by norm_num) (by norm_num)
    (by norm_num [FLT_MAX]) 0 0 1 (by simp) (by norm_num) (by norm_num) (by simp)

end IndexIVF

namespace IndexIVF

theorem prep_split_fl_id (d : Nat) (calib_sz tune_sz : ℚ) (queries : List ℚ) (nq : Nat)
    (gt : List (List Int)) (all_nonconf_scores : List (List ℚ))
    (all_preds : List (List (List Int))) :
    prep_split_fl (fun x => x) d calib_sz tune_sz queries nq gt all_nonconf_scores all_preds
      = prep_split d calib_sz tune_sz queries nq gt all_nonconf_scores all_preds := rfl

/-- The size of a part in `float` arithmetic, for fewer than `2 ^ 24` queries and a fraction
in `[0, 1]`: the floor of the rounded product, which is the floor of the exact product or one
more. -/
theorem split_size_fl_floor {fl : ℚ → ℚ} (hfl : IsRounding fl) (frac : ℚ) (N : Nat)
    (h : 0 ≤ frac) (h1 : frac ≤ 1) (hN : N < 2 ^ 24) :
    ((split_size_fl fl frac N : Nat) : Int) = ⌊fl (frac * (N : ℚ))⌋ ∧
      ⌊frac * (N : ℚ)⌋ ≤ (split_size_fl fl frac N : Int) ∧
      (split_size_fl fl frac N : Int) ≤ ⌊frac * (N : ℚ)⌋ + 1 ∧
      ((split_size_fl fl frac N : Nat) : ℚ)
        ≤ frac * (N : ℚ) + frac * (N : ℚ) / 2 ^ 24 + 1 / 2 ^ 150 := by
  have hNfl : fl (N : ℚ) = (N : ℚ) := hfl.2.2.1 N (by omega)
  have hNq : (N : ℚ) ≤ 2 ^ 24 - 1 := by
    have : N + 1 ≤ 2 ^ 24 := hN
    have h2 : ((N + 1 : Nat) : ℚ) ≤ ((2 ^ 24 : Nat) : ℚ) := by exact_mod_cast this
    push_cast at h2
    linarith
  have hN0 : (0 : ℚ) ≤ (N : ℚ) := Nat.cast_nonneg _
  have hx : (0 : ℚ) ≤ frac * (N : ℚ) := mul_nonneg h hN0
  have hxN : frac * (N : ℚ) ≤ (N : ℚ) := by
    have := mul_le_mul_of_nonneg_right h1 hN0
    linarith
  have hfx : 0 ≤ fl (frac * (N : ℚ)) := isRounding_nonneg hfl _ hx
  have hdef : ((split_size_fl fl frac N : Nat) : Int) = ⌊fl (frac * (N : ℚ))⌋ := by
    unfold split_size_fl
    rw [hNfl]
    exact Int.toNat_of_nonneg (Int.floor_nonneg.mpr hfx)
  have herr := hfl.2.2.2 (frac * (N : ℚ)) hx
  have hfloor : (⌊fl (frac * (N : ℚ))⌋ : ℚ) ≤ fl (frac * (N : ℚ)) := Int.floor_le _
  refine ⟨hdef, ?_, ?_, ?_⟩
  · rw [hdef]
    apply Int.le_floor.mpr
    have h0 : 0 ≤ ⌊frac * (N : ℚ)⌋ := Int.floor_nonneg.mpr hx
    have hle : (⌊frac * (N : ℚ)⌋ : ℚ) ≤ frac * (N : ℚ) := Int.floor_le _
    obtain ⟨m, hm⟩ := Int.eq_ofNat_of_zero_le h0
    rw [hm] at hle ⊢
    have hle2 : (m : ℚ) ≤ frac * (N : ℚ) := by exact_mod_cast hle
    have hmN : m ≤ 2 ^ 24 := by
      have : (m : ℚ) ≤ ((2 ^ 24 : Nat) : ℚ) := by
        push_cast
        linarith
      exact_mod_cast this
    have := hfl.1 _ _ hle2
    rw [hfl.2.2.1 m hmN] at this
    exact_mod_cast this
  · rw [hdef]
    have hlt : fl (frac * (N : ℚ)) < ((⌊frac * (N : ℚ)⌋ + 2 : Int) : ℚ) := by
      have h3 := Int.lt_floor_add_one (frac * (N : ℚ))
      have h4 : frac * (N : ℚ) / 2 ^ 24 + 1 / 2 ^ 150 < 1 := by
        have : frac * (N : ℚ) / 2 ^ 24 ≤ (2 ^ 24 - 1) / 2 ^ 24 :=
          div_le_div_of_nonneg_right (by linarith) (by positivity)
        have e : ((2 : ℚ) ^ 24 - 1) / 2 ^ 24 + 1 / 2 ^ 150 < 1 := by norm_num
        linarith
      push_cast
      linarith
    have := Int.floor_lt.mpr hlt
    omega
  · have : ((split_size_fl fl frac N : Nat) : ℚ) = ((⌊fl (frac * (N : ℚ))⌋ : Int) : ℚ) := by
      rw [← hdef]
      push_cast
      rfl
    rw [this]
    linarith

theorem split_size_fl_add_le {fl : ℚ → ℚ} (hfl : IsRounding fl) (a b : ℚ) (N : Nat)
    (ha : 0 ≤ a) (hb : 0 ≤ b) (hab : a + b ≤ 1) (hN : N < 2 ^ 24) :
    split_size_fl fl a N + split_size_fl fl b N ≤ N := by
  obtain ⟨-, -, -, h1⟩ := split_size_fl_floor hfl a N ha (by linarith) hN
  obtain ⟨-, -, -, h2⟩ := split_size_fl_floor hfl b N hb (by linarith) hN
  have hNq : (N : ℚ) ≤ 2 ^ 24 - 1 := by
    have : N + 1 ≤ 2 ^ 24 := hN
    have h2 : ((N + 1 : Nat) : ℚ) ≤ ((2 ^ 24 : Nat) : ℚ) := by exact_mod_cast this
    push_cast at h2
    linarith
  have hN0 : (0 : ℚ) ≤ (N : ℚ) := Nat.cast_nonneg _
  have h5 : (a + b) * (N : ℚ) ≤ 1 * N := mul_le_mul_of_nonneg_right hab hN0
  have h6 : (a + b) * (N : ℚ) / 2 ^ 24 ≤ (2 ^ 24 - 1) / 2 ^ 24 :=
    div_le_div_of_nonneg_right (by linarith) (by positivity)
  have e : ((2 : ℚ) ^ 24 - 1) / 2 ^ 24 + 2 * (1 / 2 ^ 150) < 1 := by norm_num
  have h7 : ((split_size_fl fl a N + split_size_fl fl b N : Nat) : ℚ) < ((N + 1 : Nat) : ℚ) := by
    push_cast
    have e2 : (a + b) * (N : ℚ) / 2 ^ 24 = a * N / 2 ^ 24 + b * N / 2 ^ 24 := by ring
    linarith
  have h8 : split_size_fl fl a N + split_size_fl fl b N < N + 1 := by exact_mod_cast h7
  omega

/-- C16 (counterexample), in binary32 arithmetic: with the calibration fraction `0.7f` (the
`float` nearest to 0.7) and `N = 10` the exact product is `6.99999988...`, with floor 6, but
the `float` product rounds to `7.0` and `size_t(calib_sz * nq)` is 7: the queries 0 to 6 go to
calibration, and query 6, outside `[0, floor(calib_frac * N))`, is one of them. And with
`N = 2^24 + 3`, which the conversion to `float` rounds to `2^24 + 4`, and the calibration
fraction 1, the calibration part is given `N + 1` queries. -/
theorem prep_split_rounds_product_up :
    roundF32 (7 / 10) = float_0_7 ∧ ⌊float_0_7 * ((10 : Nat) : ℚ)⌋ = 6 ∧
      split_size_fl roundF32 float_0_7 10 = 7 ∧
      tenQuerySplits.calib_labels = [[0], [1], [2], [3], [4], [5], [6]] ∧
      tenQuerySplits.calib_cx = [[0], [1], [2], [3], [4], [5], [6]] ∧
      tenQuerySplits.test_labels = [[7], [8], [9]] ∧
      split_size_fl roundF32 1 16777219 = 16777220 := by
  decide!

/-- C16: in `float` arithmetic, with any rounding `fl` that meets `IsRounding`, for
`N < 2^24` queries and fractions `calib_frac, tune_frac >= 0` with sum at most 1,
`prep_execution` cuts out `c = floor(fl(calib_frac * N))` calibration queries,
`t = floor(fl(tune_frac * N))` tuning queries and `N - c - t` test queries, where the products
are rounded to `float` before they are cut: `c` is `floor(calib_frac * N)` or one more, `t` is
`floor(tune_frac * N)` or one more, and `c + t <= N`. Entry `i` of the calibration part is
query `i`, entry `i` of the tuning part is query `c + i`, and entry `i` of the test part is
query `c + t + i`, for the query vectors, the ground truth, the scores and the snapshots
alike. So the index ranges `[0, c)`, `[c, c + t)` and `[c + t, N)` are disjoint and cover every
query once. -/
theorem prep_split_fl_by_index {fl : ℚ → ℚ} (hfl : IsRounding fl) (d : Nat)
    (calib_frac tune_frac : ℚ) (queries : List ℚ) (N : Nat)
    (gt : List (List Int)) (scores : List (List ℚ)) (preds : List (List (List Int)))
    (hN : N < 2 ^ 24) (hgt : gt.length = N) (hscores : scores.length = N)
    (hpreds : preds.length = N)
    (hc : 0 ≤ calib_frac) (ht : 0 ≤ tune_frac) (hsum : calib_frac + tune_frac ≤ 1)
    (c t : Nat) (hcdef : c = split_size_fl fl calib_frac N)
    (htdef : t = split_size_fl fl tune_frac N)
    (sp : Splits)
    (hsp : sp = prep_split_fl fl d calib_frac tune_frac queries N gt scores preds) :
    (c : Int) = ⌊fl (calib_frac * (N : ℚ))⌋ ∧ (t : Int) = ⌊fl (tune_frac * (N : ℚ))⌋ ∧
    (⌊calib_frac * (N : ℚ)⌋ ≤ (c : Int) ∧ (c : Int) ≤ ⌊calib_frac * (N : ℚ)⌋ + 1) ∧
    (⌊tune_frac * (N : ℚ)⌋ ≤ (t : Int) ∧ (t : Int) ≤ ⌊tune_frac * (N : ℚ)⌋ + 1) ∧
    c + t ≤ N ∧
    (sp.calib_cx.length = c ∧ sp.calib_labels.length = c ∧ sp.calib_nonconf.length = c ∧
      sp.calib_preds.length = c) ∧
    (sp.tune_cx.length = t ∧ sp.tune_labels.length = t ∧ sp.tune_nonconf.length = t ∧
      sp.tune_preds.length = t) ∧
    (sp.test_cx.length = N - c - t ∧ sp.test_labels.length = N - c - t ∧
      sp.test_nonconf.length = N - c - t ∧ sp.test_preds.length = N - c - t) ∧
    (∀ i, i < c → sp.calib_cx[i]? = some (query_row d queries i) ∧
      sp.calib_labels[i]? = gt[i]? ∧ sp.calib_nonconf[i]? = scores[i]? ∧
      sp.calib_preds[i]? = preds[i]?) ∧
    (∀ i, i < t → sp.tune_cx[i]? = some (query_row d queries (c + i)) ∧
      sp.tune_labels[i]? = gt[c + i]? ∧ sp.tune_nonconf[i]? = scores[c + i]? ∧
      sp.tune_preds[i]? = preds[c + i]?) ∧
    (∀ i, i < N - c - t → sp.test_cx[i]? = some (query_row d queries (c + t + i)) ∧
      sp.test_labels[i]? = gt[c + t + i]? ∧ sp.test_nonconf[i]? = scores[c + t + i]? ∧
      sp.test_preds[i]? = preds[c + t + i]?) := by
  have hct : c + t ≤ N := by
    rw [hcdef, htdef]
    exact split_size_fl_add_le hfl calib_frac tune_frac N hc ht hsum hN
  obtain ⟨c1, c2, c3, -⟩ := split_size_fl_floor hfl calib_frac N hc (by linarith) hN
  obtain ⟨t1, t2, t3, -⟩ := split_size_fl_floor hfl tune_frac N ht (by linarith) hN
  rw [← hcdef] at c1 c2 c3
  rw [← htdef] at t1 t2 t3
  subst hsp
  simp only [prep_split_fl, ← hcdef, ← htdef]
  refine ⟨c1, t1, ⟨c2, c3⟩, ⟨t2, t3⟩, hct, ?_, ?_, ?_, ?_, ?_, ?_⟩
  · have hcN : c ≤ N := by omega
    simp only [List.length_map, List.length_range, List.length_take, hgt, hscores, hpreds,
      Nat.min_eq_left hcN, and_self]
  · have htN : t ≤ N - c := by omega
    simp only [List.length_map, List.length_range, List.length_take, List.length_drop, hgt,
      hscores, hpreds, Nat.min_eq_left htN, and_self]
  · simp only [List.length_map, List.length_range, List.length_drop, hgt, hscores, hpreds,
      Nat.sub_add_eq, and_self]
  · intro i hi
    exact ⟨getElem?_range_map _ c i hi, List.getElem?_take_of_lt hi,
      List.getElem?_take_of_lt hi, List.getElem?_take_of_lt hi⟩
  · intro i hi
    refine ⟨?_, getElem?_drop_take gt c t i hi, getElem?_drop_take scores c t i hi,
      getElem?_drop_take preds c t i hi⟩
    rw [getElem?_range_map _ t i hi, Nat.add_comm]
  · intro i hi
    refine ⟨?_, List.getElem?_drop _ _ _, List.getElem?_drop _ _ _, List.getElem?_drop _ _ _⟩
    rw [getElem?_range_map _ (N - c - t) i hi]
    congr 2
    omega

/-- The ten queries of the counterexample: seven go to calibration, none to tuning and three
to test. -/
theorem prep_split_fl_by_index_witness :
    ((7 : Nat) : Int) = ⌊roundF32 (float_0_7 * ((10 : Nat) : ℚ))⌋ ∧
    ((0 : Nat) : Int) = ⌊roundF32 ((0 : ℚ) * ((10 : Nat) : ℚ))⌋ ∧
    (⌊float_0_7 * ((10 : Nat) : ℚ)⌋ ≤ ((7 : Nat) : Int) ∧
      ((7 : Nat) : Int) ≤ ⌊float_0_7 * ((10 : Nat) : ℚ)⌋ + 1) ∧
    (⌊(0 : ℚ) * ((10 : Nat) : ℚ)⌋ ≤ ((0 : Nat) : Int) ∧
      ((0 : Nat) : Int) ≤ ⌊(0 : ℚ) * ((10 : Nat) : ℚ)⌋ + 1) ∧
    7 + 0 ≤ 10 ∧
    (tenQuerySplits.calib_cx.length = 7 ∧ tenQuerySplits.calib_labels.length = 7 ∧
      tenQuerySplits.calib_nonconf.length = 7 ∧ tenQuerySplits.calib_preds.length = 7) ∧
    (tenQuerySplits.tune_cx.length = 0 ∧ tenQuerySplits.tune_labels.length = 0 ∧
      tenQuerySplits.tune_nonconf.length = 0 ∧ tenQuerySplits.tune_preds.length = 0) ∧
    (tenQuerySplits.test_cx.length = 10 - 7 - 0 ∧ tenQuerySplits.test_labels.length = 10 - 7 - 0 ∧
      tenQuerySplits.test_nonconf.length = 10 - 7 - 0 ∧
      tenQuerySplits.test_preds.length = 10 - 7 - 0) ∧
    (∀ i, i < 7 → tenQuerySplits.calib_cx[i]? = some (query_row 1 tenQueries i) ∧
      tenQuerySplits.calib_labels[i]? = tenLabels[i]? ∧
      tenQuerySplits.calib_nonconf[i]? = tenScores[i]? ∧
      tenQuerySplits.calib_preds[i]? = tenPreds[i]?) ∧
    (∀ i, i < 0 → tenQuerySplits.tune_cx[i]? = some (query_row 1 tenQueries (7 + i)) ∧
      tenQuerySplits.tune_labels[i]? = tenLabels[7 + i]? ∧
      tenQuerySplits.tune_nonconf[i]? = tenScores[7 + i]? ∧
      tenQuerySplits.tune_preds[i]? = tenPreds[7 + i]?) ∧
    (∀ i, i < 10 - 7 - 0 →
      tenQuerySplits.test_cx[i]? = some (query_row 1 tenQueries (7 + 0 + i)) ∧
      tenQuerySplits.test_labels[i]? = tenLabels[7 + 0 + i]? ∧
      tenQuerySplits.test_nonconf[i]? = tenScores[7 + 0 + i]? ∧
      tenQuerySplits.test_preds[i]? = tenPreds[7 + 0 + i]?) :=
  prep_split_fl_by_index isRounding_roundF32 1 float_0_7 0 tenQueries 10 tenLabels tenScores
    tenPreds (by norm_num) rfl rfl rfl (by norm_num [float_0_7]) (by norm_num)
    (by norm_num [float_0_7]) 7 0 (by decide!) (by decide!) tenQuerySplits rfl

end IndexIVF

namespace IndexIVF

theorem probe_loop_early_fl (fl : ℚ → ℚ) (H : HeapLib) (ix : SearchIndex)
    (cal_params : CalibrationResults)
    (keys : List Int) (heap0 : List ℚ × List Int) (r : Nat)
    (hreg : FullProbes ix keys) (hr : r ≤ ix.nlist)
    (hle : ∀ j, j < r → ¬ (cal_params.lamhat ≤ 1 ∧
      reg_score_k_fl fl ix.nlist ix.MAX_DISTANCE cal_params j
        (heap_after H ix keys heap0 (j + 1)).1 > cal_params.lamhat))
    (hgt : r < ix.nlist → cal_params.lamhat ≤ 1 ∧
      reg_score_k_fl fl ix.nlist ix.MAX_DISTANCE cal_params r
        (heap_after H ix keys heap0 (r + 1)).1 > cal_params.lamhat) :
    ∀ (n ik : Nat) (st : ProbeState), ik + n = ix.nlist → ik ≤ r →
      (st.simi, st.idxi) = heap_after H ix keys heap0 ik →
      (st.prev_simi, st.prev_idxi) = heap_after H ix keys heap0 ik →
      st.nscan = (codes_upto ix keys ik : Int) → st.nlistv = lists_upto ix keys ik →
      ∃ st', probe_loop_fl fl H ix cal_params false keys n ik st = .ok st' ∧
        (st'.simi, st'.idxi) = heap_after H ix keys heap0 r ∧
        st'.nscan = (codes_upto ix keys (min (r + 1) ix.nlist) : Int) ∧
        st'.nlistv = lists_upto ix keys (min (r + 1) ix.nlist) ∧
        st'.nonconf = st.nonconf ∧ st'.all_preds = st.all_preds := by
  intro n
  induction n with
  | zero =>
      intro ik st hsum hikr hheap _ hn hl
      have hik : ik = ix.nlist := by omega
      have hrr : r = ix.nlist := by omega
      refine ⟨st, rfl, ?_, ?_, ?_, rfl, rfl⟩
      · rw [hheap, hrr, hik]
      · rw [hn, hrr, hik]; simp
      · rw [hl, hrr, hik]; simp
  | succ n ih =>
      intro ik st hsum hikr hheap hprev hn hl
      have hik : ik < ix.nlist := by omega
      obtain ⟨key, hk, h0, h1⟩ := hreg.1 ik hik
      obtain ⟨hscan, hnocut, hnsum⟩ := probe_step_scan H ix keys hreg ik hik st hn key hk h0 h1
      have hafter := heap_after_succ H ix keys heap0 ik key hk
      rw [← hheap] at hafter
      have hlsucc := lists_upto_succ ix keys ik key hk
      by_cases hstop : ik = r
      · have hrl : r < ix.nlist := by omega
        have hE := hgt hrl
        rw [← hstop, hafter] at hE
        refine ⟨{ st with simi := st.prev_simi, idxi := st.prev_idxi,
                          nscan := st.nscan + ((ix.lists key.toNat).length : Int),
                          nlistv := st.nlistv + (if (ix.lists key.toNat).isEmpty then 0 else 1) },
          ?_, ?_, ?_, ?_, rfl, rfl⟩
        · simp only [probe_loop_fl, probe_step_fl, hk, hscan, if_neg hnocut, Bool.not_false,
            if_true]
          rw [if_pos hE]
        · simp only
          rw [hprev, hstop]
        · simp only
          rw [hnsum, ← hstop, Nat.min_eq_left (by omega)]
        · simp only
          rw [hl, ← hlsucc, ← hstop, Nat.min_eq_left (by omega)]
      · have hlt : ik < r := by omega
        have hE := hle ik hlt
        rw [hafter] at hE
        have hstep : ∃ st1, probe_step_fl fl H ix cal_params false keys ik st = .ok (st1, true) ∧
            (st1.simi, st1.idxi)
              = (scan_codes H ix.keep_max (ix.lists key.toNat) (st.simi, st.idxi)).1 ∧
            (st1.prev_simi, st1.prev_idxi)
              = (scan_codes H ix.keep_max (ix.lists key.toNat) (st.simi, st.idxi)).1 ∧
            st1.nscan = st.nscan + ((ix.lists key.toNat).length : Int) ∧
            st1.nlistv = st.nlistv + (if (ix.lists key.toNat).isEmpty then 0 else 1) ∧
            st1.nonconf = st.nonconf ∧ st1.all_preds = st.all_preds := by
          refine ⟨{ st with
                simi := (scan_codes H ix.keep_max (ix.lists key.toNat) (st.simi, st.idxi)).1.1,
                idxi := (scan_codes H ix.keep_max (ix.lists key.toNat) (st.simi, st.idxi)).1.2,
                nscan := st.nscan + ((ix.lists key.toNat).length : Int),
                nlistv := st.nlistv + (if (ix.lists key.toNat).isEmpty then 0 else 1),
                prev_simi :=
                  (scan_codes H ix.keep_max (ix.lists key.toNat) (st.simi, st.idxi)).1.1,
                prev_idxi :=
                  (scan_codes H ix.keep_max (ix.lists key.toNat) (st.simi, st.idxi)).1.2 },
              ?_, rfl, rfl, rfl, rfl, rfl, rfl⟩
          simp only [probe_step_fl, hk, hscan, if_neg hnocut, Bool.not_false, if_true]
          rw [if_neg hE]
        obtain ⟨st1, hstep, hs1, hs2, hs3, hs4, hs5, hs6⟩ := hstep
        obtain ⟨st', hloop, hres1, hres2, hres3, hres4, hres5⟩ := ih (ik + 1) st1 (by omega)
          (by omega) (by rw [hs1, hafter]) (by rw [hs2, hafter]) (by rw [hs3]; exact hnsum)
          (by rw [hs4, hl, ← hlsucc])
        refine ⟨st', ?_, hres1, hres2, hres3, hres4.trans hs5, hres5.trans hs6⟩
        simp only [probe_loop_fl, hstep]
        exact hloop

theorem search_query_early_fl (fl : ℚ → ℚ) (H : HeapLib) (ix : SearchIndex)
    (cal_params : CalibrationResults)
    (keys : List Int) (k : Nat) (distances : List ℚ) (labels : List Int) (nonconf : List ℚ)
    (all_preds : List (List Int)) (r : Nat)
    (hreg : FullProbes ix keys) (hr : r ≤ ix.nlist)
    (hle : ∀ j, j < r → ¬ (cal_params.lamhat ≤ 1 ∧
      reg_score_k_fl fl ix.nlist ix.MAX_DISTANCE cal_params j
        (heap_after H ix keys (init_result H ix k (distances, labels)) (j + 1)).1
          > cal_params.lamhat))
    (hgt : r < ix.nlist → cal_params.lamhat ≤ 1 ∧
      reg_score_k_fl fl ix.nlist ix.MAX_DISTANCE cal_params r
        (heap_after H ix keys (init_result H ix k (distances, labels)) (r + 1)).1
          > cal_params.lamhat) :
    ∃ st, search_query_fl fl H ix cal_params false keys k distances labels nonconf all_preds
        = .ok st ∧
      (st.simi, st.idxi)
        = reorder_result H ix (heap_after H ix keys (init_result H ix k (distances, labels)) r) ∧
      st.nscan = (codes_upto ix keys (min (r + 1) ix.nlist) : Int) ∧
      st.nlistv = lists_upto ix keys (min (r + 1) ix.nlist) ∧
      st.nonconf = nonconf ∧ st.all_preds = all_preds := by
  obtain ⟨st', hloop, h1, h2, h3, h4, h5⟩ := probe_loop_early_fl fl H ix cal_params keys
    (init_result H ix k (distances, labels)) r hreg hr hle hgt ix.nlist 0
    { simi := (init_result H ix k (distances, labels)).1,
      idxi := (init_result H ix k (distances, labels)).2,
      prev_simi := (init_result H ix k (distances, labels)).1,
      prev_idxi := (init_result H ix k (distances, labels)).2,
      nscan := 0, nlistv := 0, nonconf := nonconf, all_preds := all_preds }
    (by omega) (by omega) (by simp [heap_after]) (by simp [heap_after])
    (by simp [codes_upto]) (by simp [lists_upto])
  refine ⟨{ st' with simi := (reorder_result H ix (st'.simi, st'.idxi)).1,
                     idxi := (reorder_result H ix (st'.simi, st'.idxi)).2 }, ?_, ?_, h2, h3, h4, h5⟩
  · simp only [search_query_fl, hloop]
  · simp only
    rw [h1]

theorem recorded_upto_succ_fl (fl : ℚ → ℚ) (H : HeapLib) (ix : SearchIndex) (keys : List Int)
    (heap : List ℚ × List Int) (nonconf : List ℚ) (all_preds : List (List Int)) (j : Nat) :
    recorded_upto_fl fl H ix keys heap nonconf all_preds (j + 1)
      = record_probe_fl fl ix.MAX_DISTANCE (keys.getD j 0).toNat
          (heap_after H ix keys heap (j + 1)).1 (heap_after H ix keys heap (j + 1)).2
          (recorded_upto_fl fl H ix keys heap nonconf all_preds j).1
          (recorded_upto_fl fl H ix keys heap nonconf all_preds j).2 := by
  unfold recorded_upto_fl
  rw [List.range_succ, List.foldl_append]
  rfl

theorem record_probe_eq_fl (fl : ℚ → ℚ) (MAX_DISTANCE : ℚ) (key : Nat) (simi : List ℚ)
    (idxi : List Int)
    (nonconf : List ℚ) (all_preds : List (List Int)) :
    record_probe_fl fl MAX_DISTANCE key simi idxi nonconf all_preds
      = (nonconf.set key (if max_element simi > MAX_DISTANCE then 1
            else fl (max_element simi / MAX_DISTANCE)),
          all_preds.set key idxi) := by
  unfold record_probe_fl
  by_cases h : max_element simi > MAX_DISTANCE
  · simp only [if_pos h]
  · simp only [if_neg h]

theorem recorded_upto_eq_fl (fl : ℚ → ℚ) (H : HeapLib) (ix : SearchIndex) (keys : List Int)
    (heap : List ℚ × List Int) (nonconf : List ℚ) (all_preds : List (List Int)) (m : Nat) :
    recorded_upto_fl fl H ix keys heap nonconf all_preds m
      = ((List.range m).foldl (fun E j => E.set (keys.getD j 0).toNat
            (if max_element (heap_after H ix keys heap (j + 1)).1 > ix.MAX_DISTANCE then 1
              else fl (max_element (heap_after H ix keys heap (j + 1)).1 / ix.MAX_DISTANCE)))
            nonconf,
          (List.range m).foldl (fun P j => P.set (keys.getD j 0).toNat
            (heap_after H ix keys heap (j + 1)).2) all_preds) := by
  induction m with
  | zero => rfl
  | succ m ih =>
      rw [recorded_upto_succ_fl, ih, record_probe_eq_fl]
      simp only [List.range_succ, List.foldl_append, List.foldl_cons, List.foldl_nil]

theorem recorded_upto_length_fl (fl : ℚ → ℚ) (H : HeapLib) (ix : SearchIndex) (keys : List Int)
    (heap : List ℚ × List Int) (nonconf : List ℚ) (all_preds : List (List Int)) (m : Nat) :
    (recorded_upto_fl fl H ix keys heap nonconf all_preds m).1.length = nonconf.length ∧
      (recorded_upto_fl fl H ix keys heap nonconf all_preds m).2.length = all_preds.length := by
  rw [recorded_upto_eq_fl]
  exact ⟨foldl_set_length _ _ _ _, foldl_set_length _ _ _ _⟩

theorem probe_loop_record_fl (fl : ℚ → ℚ) (H : HeapLib) (ix : SearchIndex)
    (cal_params : CalibrationResults)
    (keys : List Int) (heap0 : List ℚ × List Int) (nonconf0 : List ℚ)
    (all_preds0 : List (List Int)) (hreg : FullProbes ix keys)
    (hlen1 : ix.nlist ≤ nonconf0.length) (hlen2 : ix.nlist ≤ all_preds0.length) :
    ∀ (n ik : Nat) (st : ProbeState), ik + n = ix.nlist →
      (st.simi, st.idxi) = heap_after H ix keys heap0 ik →
      st.nscan = (codes_upto ix keys ik : Int) → st.nlistv = lists_upto ix keys ik →
      (st.nonconf, st.all_preds) = recorded_upto_fl fl H ix keys heap0 nonconf0 all_preds0 ik →
      ∃ st', probe_loop_fl fl H ix cal_params true keys n ik st = .ok st' ∧
        (st'.simi, st'.idxi) = heap_after H ix keys heap0 ix.nlist ∧
        (st'.nonconf, st'.all_preds)
          = recorded_upto_fl fl H ix keys heap0 nonconf0 all_preds0 ix.nlist ∧
        st'.nscan = (codes_upto ix keys ix.nlist : Int) ∧
        st'.nlistv = lists_upto ix keys ix.nlist := by
  intro n
  induction n with
  | zero =>
      intro ik st hsum hheap hn hl hrec
      have hik : ik = ix.nlist := by omega
      subst hik
      exact ⟨st, rfl, hheap, hrec, hn, hl⟩
  | succ n ih =>
      intro ik st hsum hheap hn hl hrec
      have hik : ik < ix.nlist := by omega
      obtain ⟨key, hk, h0, h1⟩ := hreg.1 ik hik
      obtain ⟨hscan, hnocut, hnsum⟩ := probe_step_scan H ix keys hreg ik hik st hn key hk h0 h1
      have hafter := heap_after_succ H ix keys heap0 ik key hk
      rw [← hheap] at hafter
      have hlsucc := lists_upto_succ ix keys ik key hk
      have hrl := recorded_upto_length_fl fl H ix keys heap0 nonconf0 all_preds0 ik
      have hst1 : st.nonconf = (recorded_upto_fl fl H ix keys heap0 nonconf0 all_preds0 ik).1 := by
        rw [← hrec]
      have hst2 : st.all_preds
          = (recorded_upto_fl fl H ix keys heap0 nonconf0 all_preds0 ik).2 := by
        rw [← hrec]
      have hkn : key.toNat < ix.nlist := by omega
      have hb : 0 ≤ key ∧ key.toNat < st.all_preds.length ∧ key.toNat < st.nonconf.length := by
        refine ⟨h0, ?_, ?_⟩
        · rw [hst2, hrl.2]; omega
        · rw [hst1, hrl.1]; omega
      have hgetD : keys.getD ik 0 = key := by
        rw [List.getD_eq_getElem?_getD, hk]; rfl
      have hrsucc := recorded_upto_succ_fl fl H ix keys heap0 nonconf0 all_preds0 ik
      rw [hgetD, hafter, ← hst1, ← hst2] at hrsucc
      have hstep : ∃ st1, probe_step_fl fl H ix cal_params true keys ik st = .ok (st1, true) ∧
          (st1.simi, st1.idxi)
            = (scan_codes H ix.keep_max (ix.lists key.toNat) (st.simi, st.idxi)).1 ∧
          st1.nscan = st.nscan + ((ix.lists key.toNat).length : Int) ∧
          st1.nlistv = st.nlistv + (if (ix.lists key.toNat).isEmpty then 0 else 1) ∧
          (st1.nonconf, st1.all_preds)
            = record_probe_fl fl ix.MAX_DISTANCE key.toNat
                (scan_codes H ix.keep_max (ix.lists key.toNat) (st.simi, st.idxi)).1.1
                (scan_codes H ix.keep_max (ix.lists key.toNat) (st.simi, st.idxi)).1.2
                st.nonconf st.all_preds := by
        refine ⟨{ st with
              simi := (scan_codes H ix.keep_max (ix.lists key.toNat) (st.simi, st.idxi)).1.1,
              idxi := (scan_codes H ix.keep_max (ix.lists key.toNat) (st.simi, st.idxi)).1.2,
              nscan := st.nscan + ((ix.lists key.toNat).length : Int),
              nlistv := st.nlistv + (if (ix.lists key.toNat).isEmpty then 0 else 1),
              nonconf := (record_probe_fl fl ix.MAX_DISTANCE key.toNat
                (scan_codes H ix.keep_max (ix.lists key.toNat) (st.simi, st.idxi)).1.1
                (scan_codes H ix.keep_max (ix.lists key.toNat) (st.simi, st.idxi)).1.2
                st.nonconf st.all_preds).1,
              all_preds := (record_probe_fl fl ix.MAX_DISTANCE key.toNat
                (scan_codes H ix.keep_max (ix.lists key.toNat) (st.simi, st.idxi)).1.1
                (scan_codes H ix.keep_max (ix.lists key.toNat) (st.simi, st.idxi)).1.2
                st.nonconf st.all_preds).2,
              prev_simi :=
                (scan_codes H ix.keep_max (ix.lists key.toNat) (st.simi, st.idxi)).1.1,
              prev_idxi :=
                (scan_codes H ix.keep_max (ix.lists key.toNat) (st.simi, st.idxi)).1.2 },
            ?_, rfl, rfl, rfl, rfl⟩
        simp only [probe_step_fl, hk, hscan, if_neg hnocut, Bool.not_true, if_pos hb]
        rfl
      obtain ⟨st1, hstep, hs1, hs3, hs4, hs5⟩ := hstep
      obtain ⟨st', hloop, hres⟩ := ih (ik + 1) st1 (by omega) (by rw [hs1, hafter])
        (by rw [hs3]; exact hnsum) (by rw [hs4, hl, ← hlsucc]) (by rw [hs5, hrsucc])
      refine ⟨st', ?_, hres⟩
      simp only [probe_loop_fl, hstep]
      exact hloop

theorem search_query_record_fl (fl : ℚ → ℚ) (H : HeapLib) (ix : SearchIndex)
    (cal_params : CalibrationResults)
    (keys : List Int) (k : Nat) (distances : List ℚ) (labels : List Int) (nonconf0 : List ℚ)
    (all_preds0 : List (List Int)) (hreg : FullProbes ix keys)
    (hlen1 : ix.nlist ≤ nonconf0.length) (hlen2 : ix.nlist ≤ all_preds0.length) :
    ∃ st, search_query_fl fl H ix cal_params true keys k distances labels nonconf0 all_preds0
        = .ok st ∧
      (st.simi, st.idxi) = reorder_result H ix
        (heap_after H ix keys (init_result H ix k (distances, labels)) ix.nlist) ∧
      (st.nonconf, st.all_preds) = recorded_upto_fl fl H ix keys
        (init_result H ix k (distances, labels)) nonconf0 all_preds0 ix.nlist := by
  obtain ⟨st', hloop, h1, h2, -, -⟩ := probe_loop_record_fl fl H ix cal_params keys
    (init_result H ix k (distances, labels)) nonconf0 all_preds0 hreg hlen1 hlen2 ix.nlist 0
    { simi := (init_result H ix k (distances, labels)).1,
      idxi := (init_result H ix k (distances, labels)).2,
      prev_simi := (init_result H ix k (distances, labels)).1,
      prev_idxi := (init_result H ix k (distances, labels)).2,
      nscan := 0, nlistv := 0, nonconf := nonconf0, all_preds := all_preds0 }
    (by omega) (by simp [heap_after]) (by simp [codes_upto]) (by simp [lists_upto])
    (by simp [recorded_upto_fl])
  refine ⟨{ st' with simi := (reorder_result H ix (st'.simi, st'.idxi)).1,
                     idxi := (reorder_result H ix (st'.simi, st'.idxi)).2 }, ?_, ?_, h2⟩
  · simp only [search_query_fl, hloop]
  · simp only
    rw [h1]

theorem recorded_scores_fl (fl : ℚ → ℚ) (H : HeapLib) (ix : SearchIndex) (keys : List Int)
    (heap0 : List ℚ × List Int) (nonconf0 : List ℚ) (all_preds0 : List (List Int))
    (hreg : FullProbes ix keys)
    (hnodup : ∀ i j, i < ix.nlist → j < ix.nlist → keys.getD i 0 = keys.getD j 0 → i = j)
    (hlen1 : ix.nlist ≤ nonconf0.length) (hlen2 : ix.nlist ≤ all_preds0.length) (j : Nat)
    (hj : j < ix.nlist) :
    (recorded_upto_fl fl H ix keys heap0 nonconf0 all_preds0 ix.nlist).1.getD
          (keys.getD j 0).toNat 0
        = (if max_element (heap_after H ix keys heap0 (j + 1)).1 > ix.MAX_DISTANCE then 1
            else fl (max_element (heap_after H ix keys heap0 (j + 1)).1 / ix.MAX_DISTANCE)) ∧
      (recorded_upto_fl fl H ix keys heap0 nonconf0 all_preds0 ix.nlist).2.getD
          (keys.getD j 0).toNat []
        = (heap_after H ix keys heap0 (j + 1)).2 := by
  have hkey : ∀ i, i < ix.nlist → 0 ≤ keys.getD i 0 ∧ keys.getD i 0 < (ix.nlist : Int) := by
    intro i hi
    obtain ⟨key, hk, h0, h1⟩ := hreg.1 i hi
    have : keys.getD i 0 = key := by rw [List.getD_eq_getElem?_getD, hk]; rfl
    rw [this]
    exact ⟨h0, h1⟩
  have hinj : ∀ i j, i < ix.nlist → j < ix.nlist →
      (keys.getD i 0).toNat = (keys.getD j 0).toNat → i = j := by
    intro i j hi hj h
    apply hnodup i j hi hj
    have := hkey i hi
    have := hkey j hj
    omega
  rw [recorded_upto_eq_fl]
  constructor
  · exact (foldl_set_getD (0 : ℚ) (fun j => (keys.getD j 0).toNat) _ nonconf0 ix.nlist hinj
      (by intro i hi; have := hkey i hi; beta_reduce; omega)).2 j hj
  · exact (foldl_set_getD ([] : List Int) (fun j => (keys.getD j 0).toNat) _ all_preds0 ix.nlist
      hinj (by intro i hi; have := hkey i hi; beta_reduce; omega)).2 j hj

end IndexIVF

namespace IndexIVF

theorem probe_step_fl_id (H : HeapLib) (ix : SearchIndex) (cal_params : CalibrationResults)
    (record : Bool) (keys : List Int) (ik : Nat) (st : ProbeState) :
    probe_step_fl (fun x => x) H ix cal_params record keys ik st
      = probe_step H ix cal_params record keys ik st := rfl

theorem probe_loop_fl_id (H : HeapLib) (ix : SearchIndex) (cal_params : CalibrationResults)
    (record : Bool) (keys : List Int) (n ik : Nat) (st : ProbeState) :
    probe_loop_fl (fun x => x) H ix cal_params record keys n ik st
      = probe_loop H ix cal_params record keys n ik st := by
  induction n generalizing ik st with
  | zero => rfl
  | succ n ih =>
      unfold probe_loop_fl probe_loop
      rw [probe_step_fl_id]
      cases probe_step H ix cal_params record keys ik st with
      | error e => rfl
      | ok v =>
          obtain ⟨st1, b⟩ := v
          cases b with
          | true => exact ih (ik + 1) st1
          | false => rfl

/-- With the rounding that changes nothing, the search in `float` arithmetic is the search in
exact arithmetic. -/
theorem search_query_fl_id (H : HeapLib) (ix : SearchIndex) (cal_params : CalibrationResults)
    (record : Bool) (keys : List Int) (k : Nat) (distances : List ℚ) (labels : List Int)
    (nonconf : List ℚ) (all_preds : List (List Int)) :
    search_query_fl (fun x => x) H ix cal_params record keys k distances labels nonconf
        all_preds
      = search_query H ix cal_params record keys k distances labels nonconf all_preds := by
  unfold search_query_fl search_query
  simp only [probe_loop_fl_id]

end IndexIVF

namespace IndexIVF

theorem reg_score_k_fl_eq (fl : ℚ → ℚ) (nlist : Nat) (MAX_DISTANCE : ℚ)
    (cal_params : CalibrationResults) (j : Nat) (simi : List ℚ) (hL : nlist < 2 ^ 31)
    (hj : j < nlist) (hk1 : -2 ^ 31 ≤ cal_params.kreg) (hk2 : cal_params.kreg ≤ (nlist : Int)) :
    reg_score_k_fl fl nlist MAX_DISTANCE cal_params j simi
      = fl (fl (fl (1 - min (fl (max_element simi / MAX_DISTANCE)) 1)
          + compute_regularization_fl fl ((j : Int) + 1) cal_params.regLambda cal_params.kreg)
        / fl (fl (1 + fl (cal_params.regLambda
            * fl (((nlist : Int) - cal_params.kreg : Int) : ℚ))) + 10)) := by
  unfold reg_score_k_fl max_reg_val_fl
  have h1 : toInt32 ((j : Int) + 1) = (j : Int) + 1 := by
    apply toInt32_of_range
    · have : (0 : Int) ≤ (j : Int) := Int.natCast_nonneg _
      omega
    · have : ((j : Int) + 1) ≤ (nlist : Int) := by exact_mod_cast hj
      have : (nlist : Int) < 2 ^ 31 := by exact_mod_cast hL
      omega
  have h2 : ((nlist : Int) - cal_params.kreg) % 2 ^ 64 = (nlist : Int) - cal_params.kreg := by
    apply Int.emod_eq_of_lt
    · omega
    · have : (nlist : Int) < 2 ^ 31 := by exact_mod_cast hL
      omega
  simp only [h1, h2]

theorem min_fl_div_eq_ite {fl : ℚ → ℚ} (hfl : IsRounding fl) (MAX_DISTANCE x : ℚ)
    (hM : 0 < MAX_DISTANCE) :
    min (fl (x / MAX_DISTANCE)) 1 = if x > MAX_DISTANCE then 1 else fl (x / MAX_DISTANCE) := by
  by_cases h : x > MAX_DISTANCE
  · rw [if_pos h]
    apply min_eq_right
    have := hfl.1 1 (x / MAX_DISTANCE) (by rw [le_div_iff₀ hM]; linarith)
    rwa [isRounding_one hfl] at this
  · rw [if_neg h]
    apply min_eq_left
    have := hfl.1 (x / MAX_DISTANCE) 1 (by rw [div_le_one hM]; exact not_lt.mp h)
    rwa [isRounding_one hfl] at this

theorem raw_score_fl_mono {fl : ℚ → ℚ} (hfl : IsRounding fl) (MAX_DISTANCE a b : ℚ)
    (hM : 0 < MAX_DISTANCE) (hab : a ≤ b) :
    (if a > MAX_DISTANCE then (1 : ℚ) else fl (a / MAX_DISTANCE))
      ≤ (if b > MAX_DISTANCE then (1 : ℚ) else fl (b / MAX_DISTANCE)) := by
  rw [← min_fl_div_eq_ite hfl _ a hM, ← min_fl_div_eq_ite hfl _ b hM]
  exact min_le_min (hfl.1 _ _ (div_le_div_of_nonneg_right hab (le_of_lt hM))) (le_refl _)

theorem offline_replay_fl {fl : ℚ → ℚ} (hfl : IsRounding fl)
    {sortR : List (Nat × ℚ) → List (Nat × ℚ)}
    (hsortR : IsStdSort scoreLess sortR) {sortP : List (ℚ × Nat) → List (ℚ × Nat)}
    (hsortP : IsStdSort pairLess sortP) (L : Nat) (s : List ℚ) (p : List (List Int))
    (keyn : Nat → Nat) (lambda_reg : ℚ) (kreg : Int) (lamhat : ℚ)
    (hinj : ∀ i j, i < L → j < L → keyn i = keyn j → i = j) (hlt : ∀ i, i < L → keyn i < L)
    (hmono : ∀ j, j + 1 < L → s.getD (keyn (j + 1)) 0 ≤ s.getD (keyn j) 0)
    (hlam : 0 ≤ lambda_reg) (hk2 : kreg ≤ (L : Int))
    (htie : ∀ a b, a < L → b < L →
      (s.getD a 0 = s.getD b 0 ∨
        (regularize_row_fl fl sortR L s lambda_reg kreg
          (fl (fl (1 + fl (lambda_reg * fl (((L : Int) - kreg : Int) : ℚ))) + 10))).getD a 0
        = (regularize_row_fl fl sortR L s lambda_reg kreg
          (fl (fl (1 + fl (lambda_reg * fl (((L : Int) - kreg : Int) : ℚ))) + 10))).getD b 0) →
      p.getD a [] = p.getD b [])
    (r : Nat) (hr : r ≤ L)
    (hle : ∀ j, j < r →
      fl (fl (fl (1 - s.getD (keyn j) 0)
          + compute_regularization_fl fl ((j : Int) + 1) lambda_reg kreg)
        / fl (fl (1 + fl (lambda_reg * fl (((L : Int) - kreg : Int) : ℚ))) + 10)) ≤ lamhat)
    (hgt : r < L → lamhat <
      fl (fl (fl (1 - s.getD (keyn r) 0)
          + compute_regularization_fl fl ((r : Int) + 1) lambda_reg kreg)
        / fl (fl (1 + fl (lambda_reg * fl (((L : Int) - kreg : Int) : ℚ))) + 10))) :
    compute_predictions_query sortP lamhat
        (regularize_row_fl fl sortR L s lambda_reg kreg
          (fl (fl (1 + fl (lambda_reg * fl (((L : Int) - kreg : Int) : ℚ))) + 10))) p
      = if r = 0 then ([], -1) else (p.getD (keyn (r - 1)) [], (r : Int)) := by
  have hM : (0 : ℚ) < fl (fl (1 + fl (lambda_reg * fl (((L : Int) - kreg : Int) : ℚ))) + 10) := by
    have := (max_reg_val_fl_bound hfl lambda_reg hlam (L : Int) kreg hk2).1
    linarith
  obtain ⟨hElen, hEget⟩ := regularize_row_fl_getD fl hsortR L s lambda_reg kreg
    (fl (fl (1 + fl (lambda_reg * fl (((L : Int) - kreg : Int) : ℚ))) + 10))
  generalize hEdef : regularize_row_fl fl sortR L s lambda_reg kreg
    (fl (fl (1 + fl (lambda_reg * fl (((L : Int) - kreg : Int) : ℚ))) + 10)) = Erow
    at hElen hEget htie ⊢
  generalize hMdef : fl (fl (1 + fl (lambda_reg * fl (((L : Int) - kreg : Int) : ℚ))) + 10) = M
    at hM hEget hle hgt
  have hanti := antitone_of_step L (fun j => s.getD (keyn j) 0) hmono
  have hEon : ∀ j, j < L →
      Erow.getD ((sorted_classes sortR L s).getD j (0, 0)).1 0
        = fl (fl (fl (1 - s.getD (keyn j) 0)
            + compute_regularization_fl fl ((j : Int) + 1) lambda_reg kreg) / M) := by
    intro j hj
    obtain ⟨h1, h2, h3⟩ := sorted_position hsortR L s keyn hinj hlt hmono j hj
    rw [hEget _ h1, h2, h3]
    push_cast
    rfl
  have hEmono : ∀ i j, i ≤ j → j < L →
      fl (fl (fl (1 - s.getD (keyn i) 0)
          + compute_regularization_fl fl ((i : Int) + 1) lambda_reg kreg) / M)
        ≤ fl (fl (fl (1 - s.getD (keyn j) 0)
          + compute_regularization_fl fl ((j : Int) + 1) lambda_reg kreg) / M) := by
    intro i j hij hj
    apply hfl.1
    apply div_le_div_of_nonneg_right _ (le_of_lt hM)
    apply hfl.1
    have h1 := hanti i j hij hj
    have h2 := (compute_regularization_fl_mono hfl lambda_reg hlam kreg ((i : Int) + 1)
      ((j : Int) + 1) (by omega)).2
    have h3 : fl (1 - s.getD (keyn i) 0) ≤ fl (1 - s.getD (keyn j) 0) := by
      apply hfl.1
      simp only at h1
      linarith
    linarith
  have hiff : ∀ j, j < L →
      (fl (fl (fl (1 - s.getD (keyn j) 0)
          + compute_regularization_fl fl ((j : Int) + 1) lambda_reg kreg) / M)
        ≤ lamhat ↔ j < r) := by
    intro j hj
    constructor
    · intro h
      by_contra hcon
      have hrj : r ≤ j := by omega
      have h2 := hgt (by omega)
      have h3 := hEmono r j hrj hj
      linarith
    · exact hle j
  by_cases hr0 : r = 0
  · rw [if_pos hr0]
    apply compute_predictions_query_empty hsortP
    intro l hl hcon
    rw [hElen] at hl
    obtain ⟨j, hj, hjl⟩ := position_of_list hsortR L s l hl
    rw [← hjl, hEon j hj] at hcon
    have := (hiff j hj).mp hcon
    omega
  · rw [if_neg hr0]
    have hL0 : 0 < L := by omega
    have hadm0 : Erow.getD ((sorted_classes sortR L s).getD 0 (0, 0)).1 0 ≤ lamhat := by
      rw [hEon 0 hL0]
      exact hle 0 (by omega)
    have hl0 := (sorted_position hsortR L s keyn hinj hlt hmono 0 hL0).1
    obtain ⟨index, hi, hiadm, himax, hres⟩ := compute_predictions_query_admitted hsortP lamhat
      Erow p ⟨_, by rw [hElen]; exact hl0, hadm0⟩
    rw [hres]
    rw [hElen] at hi
    obtain ⟨jstar, hjs, hjsl⟩ := position_of_list hsortR L s index hi
    have hjsr : jstar < r := by
      apply (hiff jstar hjs).mp
      rw [← hEon jstar hjs, hjsl]
      exact hiadm
    have hj1 : r - 1 < L := by omega
    obtain ⟨g1, g2, -⟩ := sorted_position hsortR L s keyn hinj hlt hmono (r - 1) hj1
    have hadm1 : Erow.getD ((sorted_classes sortR L s).getD (r - 1) (0, 0)).1 0 ≤ lamhat := by
      rw [hEon (r - 1) hj1]
      exact hle (r - 1) (by omega)
    have hmax1 := pairLess_false_fst
      (himax _ (by rw [hElen]; exact g1) hadm1)
    simp only at hmax1
    have hle2 := hEmono jstar (r - 1) (by omega) hj1
    rw [← hEon jstar hjs, ← hEon (r - 1) hj1, hjsl] at hle2
    have heqE := le_antisymm hle2 hmax1
    have hp1 := htie index ((sorted_classes sortR L s).getD (r - 1) (0, 0)).1 hi g1
      (Or.inr heqE)
    have hp2 := htie ((sorted_classes sortR L s).getD (r - 1) (0, 0)).1 (keyn (r - 1)) g1
      (hlt _ hj1) (Or.inl g2)
    rw [hp1, hp2]
    congr 2
    rw [admitted_count_eq_countP]
    have hperm : Erow.Perm ((List.range L).map (fun j =>
        fl (fl (fl (1 - s.getD (keyn j) 0)
          + compute_regularization_fl fl ((j : Int) + 1) lambda_reg kreg) / M))) := by
      have e1 : Erow = (List.range L).map (fun l => Erow.getD l 0) := by
        conv_lhs => rw [← range_map_getD Erow, hElen]
      have e2 : (List.range L).map (fun j =>
          fl (fl (fl (1 - s.getD (keyn j) 0)
            + compute_regularization_fl fl ((j : Int) + 1) lambda_reg kreg) / M))
          = ((sorted_classes sortR L s).map Prod.fst).map (fun l => Erow.getD l 0) := by
        apply List.ext_getElem
        · simp [sorted_classes_length hsortR L s]
        · intro i h1 h2
          have hiL : i < L := by simpa using h1
          have hisc : i < (sorted_classes sortR L s).length := by
            rw [sorted_classes_length hsortR L s]; exact hiL
          simp only [List.getElem_map, List.getElem_range]
          rw [← hEon i hiL]
          congr 2
          simp [List.getD_eq_getElem?_getD, List.getElem?_eq_getElem hisc]
      rw [e2]
      conv_lhs => rw [e1]
      exact ((sorted_classes_fst_perm hsortR L s).map _).symm
    rw [hperm.countP_eq, List.countP_map]
    have hcongr : (List.range L).countP
        ((fun e => decide (e ≤ lamhat)) ∘ (fun j =>
          fl (fl (fl (1 - s.getD (keyn j) 0)
            + compute_regularization_fl fl ((j : Int) + 1) lambda_reg kreg) / M)))
        = (List.range L).countP (fun j => decide (j < r)) := by
      apply List.countP_congr
      intro j hj
      have := hiff j (List.mem_range.mp hj)
      simp only [Function.comp, decide_eq_true_eq]
      exact this
    rw [hcongr, countP_lt_range L r hr]

end IndexIVF

namespace IndexIVF

/-- C13 (counterexample), in binary32 arithmetic. First, raw ties: on the sample index with the
probe order `[1, 0]` and `k = 3` the score builder writes the raw score `1` for both lists and
the snapshots `[-1, -1, 8]` after the first probe and `[-1, 8, 7]` after the second; with
`lambda_reg = 0`, `k_reg = 1` and `lamhat = 1/2` both regularized scores are `0`, and the
offline evaluation predicts the snapshot of list 1, without the vector `7`, while the online
search returns the heap after both probes, with `7`. Second, rounding: on the index whose two
distances are `1 + 2^-23` and `1`, with `k = 1`, the builder writes the distinct raw scores
`1/4 + 2^-25` (list 1, probed first) and `1/4` (list 0), non-increasing along the probe order;
both differences `1 - s` round to `3/4`, so both regularized scores are the same `float`, the
offline evaluation admits both lists and predicts the snapshot `[8]` of list 1, while the
online search returns `[7]`. -/
theorem offline_differs_on_ties :
    ((search_query_fl roundF32 listHeap sampleIndex { lamhat := 10, kreg := 0, regLambda := 0 }
        true [1, 0] 3 [0, 0, 0] [0, 0, 0] [0, 0] [[0, 0, 0], [0, 0, 0]]).toOption.map
        (fun st => (st.nonconf, st.all_preds)) = some ([1, 1], [[-1, 8, 7], [-1, -1, 8]]) ∧
      regularize_scores_fl roundF32 (insertionSortBy scoreLess) 2 [[1, 1]] 0 1
        = some [[0, 0]] ∧
      compute_predictions (insertionSortBy pairLess) (1 / 2) [[0, 0]]
        [[[-1, 8, 7], [-1, -1, 8]]] = ([[-1, -1, 8]], [2]) ∧
      (search_query_fl roundF32 listHeap sampleIndex
        { lamhat := 1 / 2, kreg := 1, regLambda := 0 } false
        [1, 0] 3 [0, 0, 0] [0, 0, 0] [] []).toOption.map (fun st => st.idxi)
        = some [7, 8, -1]) ∧
    ((search_query_fl roundF32 listHeap nearTieIndex { lamhat := 10, kreg := 0, regLambda := 0 }
        true [1, 0] 1 [0] [0] [0, 0] [[0], [0]]).toOption.map
        (fun st => (st.nonconf, st.all_preds))
        = some ([1 / 4, 1 / 4 + 1 / 2 ^ 25], [[7], [8]]) ∧
      regularize_scores_fl roundF32 (insertionSortBy scoreLess) 2 [[1 / 4, 1 / 4 + 1 / 2 ^ 25]]
        0 1 = some [[9151209 / 134217728, 9151209 / 134217728]] ∧
      compute_predictions (insertionSortBy pairLess) (1 / 2)
        [[9151209 / 134217728, 9151209 / 134217728]] [[[7], [8]]] = ([[8]], [2]) ∧
      (search_query_fl roundF32 listHeap nearTieIndex
        { lamhat := 1 / 2, kreg := 1, regLambda := 0 } false
        [1, 0] 1 [0] [0] [] []).toOption.map (fun st => st.idxi) = some [7] ∧
      roundF32 (1 + 1 / 2 ^ 23) = 1 + 1 / 2 ^ 23) := by
  decide!

/-- C13: in `float` arithmetic, with any rounding `fl` that meets `IsRounding`, for a query
whose score row and snapshots were produced by the score builder (scanner with
`keep_max = false`, heap initialisation, every list ranked once, `max_codes` cutting nothing,
`MAX_DISTANCE > 0`), with `lambda_reg >= 0`, `k_reg <= L = nlist < 2^31`,
`lambda_reg * (L - k_reg) <= FLT_MAX / 2` (no operation overflows, by
`max_reg_val_fl_finite`) and `lamhat <= 1`, and in which two lists hold equal snapshots
whenever their raw scores are equal or their regularized scores are equal: the online
early-stopping search admits the probes before the first probe `r` whose regularized score
exceeds `lamhat` and returns the reordered heap after those `r` probes; when `r > 0` the
offline evaluation (`regularize_scores`, then `compute_predictions` at `lamhat`) predicts the
ids of that same heap and reports `r` clusters searched; when `r = 0` it predicts no id and
reports `-1`, and the online result holds only the id `-1`. -/
theorem offline_matches_online {fl : ℚ → ℚ} (hfl : IsRounding fl)
    {sortR : List (Nat × ℚ) → List (Nat × ℚ)}
    (hsortR : IsStdSort scoreLess sortR) {sortP : List (ℚ × Nat) → List (ℚ × Nat)}
    (hsortP : IsStdSort pairLess sortP) (H : HeapLib) (hH : IsHeapLib H) (ix : SearchIndex)
    (cal_b cal_params : CalibrationResults) (keys : List Int) (k : Nat) (distances : List ℚ)
    (labels : List Int) (nonconf0 : List ℚ) (all_preds0 : List (List Int)) (nonconf1 : List ℚ)
    (all_preds1 : List (List Int)) (stb : ProbeState) (hk : 0 < k) (hkm : ix.keep_max = false)
    (hinit : ix.do_heap_init = true) (hM : 0 < ix.MAX_DISTANCE) (hreg : FullProbes ix keys)
    (hnodup : ∀ i j, i < ix.nlist → j < ix.nlist → keys.getD i 0 = keys.getD j 0 → i = j)
    (hlen1 : nonconf0.length = ix.nlist) (hlen2 : all_preds0.length = ix.nlist)
    (hL : ix.nlist < 2 ^ 31) (hk1 : -2 ^ 31 ≤ cal_params.kreg)
    (hk2 : cal_params.kreg ≤ (ix.nlist : Int)) (hlam1 : cal_params.lamhat ≤ 1)
    (hreglam : 0 ≤ cal_params.regLambda)
    (_hfin : cal_params.regLambda * ((ix.nlist : ℚ) - (cal_params.kreg : ℚ)) ≤ FLT_MAX / 2)
    (hb : search_query_fl fl H ix cal_b true keys k distances labels nonconf0 all_preds0
      = .ok stb)
    (htie : ∀ E, regularize_scores_fl fl sortR (ix.nlist : Int) [stb.nonconf]
        cal_params.regLambda cal_params.kreg = some [E] →
      ∀ a b, a < ix.nlist → b < ix.nlist →
        (stb.nonconf.getD a 0 = stb.nonconf.getD b 0 ∨ E.getD a 0 = E.getD b 0) →
        stb.all_preds.getD a [] = stb.all_preds.getD b []) :
    ∃ (sto : ProbeState) (r : Nat) (E : List ℚ),
      search_query_fl fl H ix cal_params false keys k distances labels nonconf1 all_preds1
        = .ok sto ∧
      r ≤ ix.nlist ∧
      (sto.simi, sto.idxi) = H.heap_reorder ix.metric_inner_product
        (heap_after H ix keys (H.heap_heapify ix.metric_inner_product k (distances, labels)) r) ∧
      (∀ j, j < r → reg_score_k_fl fl ix.nlist ix.MAX_DISTANCE cal_params j
        (heap_after H ix keys (H.heap_heapify ix.metric_inner_product k (distances, labels))
          (j + 1)).1 ≤ cal_params.lamhat) ∧
      (r < ix.nlist → cal_params.lamhat < reg_score_k_fl fl ix.nlist ix.MAX_DISTANCE cal_params r
        (heap_after H ix keys (H.heap_heapify ix.metric_inner_product k (distances, labels))
          (r + 1)).1) ∧
      regularize_scores_fl fl sortR (ix.nlist : Int) [stb.nonconf] cal_params.regLambda
        cal_params.kreg = some [E] ∧
      (0 < r →
        compute_predictions sortP cal_params.lamhat [E] [stb.all_preds]
          = ([(heap_after H ix keys
                (H.heap_heapify ix.metric_inner_product k (distances, labels)) r).2], [(r : Int)]) ∧
        (heap_after H ix keys
          (H.heap_heapify ix.metric_inner_product k (distances, labels)) r).2.Perm sto.idxi) ∧
      (r = 0 →
        compute_predictions sortP cal_params.lamhat [E] [stb.all_preds] = ([[]], [-1]) ∧
        ∀ id ∈ sto.idxi, id = -1) := by
  have hi : init_result H ix k (distances, labels)
      = H.heap_heapify ix.metric_inner_product k (distances, labels) := by
    simp [init_result, hinit]
  have hre : ∀ heap, reorder_result H ix heap = H.heap_reorder ix.metric_inner_product heap := by
    intro heap; simp [reorder_result, hinit]
  obtain ⟨h0len, h0id⟩ := hH.1 ix.metric_inner_product k (distances, labels)
  generalize hheap0 : H.heap_heapify ix.metric_inner_product k (distances, labels) = heap0
    at hi h0len h0id ⊢
  have hne : heap0.1 ≠ [] := by
    intro h
    rw [h] at h0len
    simp at h0len
    omega
  have hlen : heap0.1.length = heap0.2.length := by rw [h0len, h0id]; simp
  -- the builder
  obtain ⟨st, hs, -, hrec⟩ := search_query_record_fl fl H ix cal_b keys k distances labels
    nonconf0 all_preds0 hreg (by omega) (by omega)
  rw [hb] at hs
  have hst : stb = st := by
    injection hs
  subst hst
  rw [hi] at hrec
  have hnc : stb.nonconf
      = (recorded_upto_fl fl H ix keys heap0 nonconf0 all_preds0 ix.nlist).1 := by
    rw [← hrec]
  have hap : stb.all_preds
      = (recorded_upto_fl fl H ix keys heap0 nonconf0 all_preds0 ix.nlist).2 := by
    rw [← hrec]
  have hslen : stb.nonconf.length = ix.nlist := by
    rw [hnc, (recorded_upto_length_fl fl H ix keys _ nonconf0 all_preds0 ix.nlist).1, hlen1]
  have hscore := fun j hj => recorded_scores_fl fl H ix keys heap0 nonconf0 all_preds0 hreg
    hnodup (by omega) (by omega) j hj
  rw [← hnc, ← hap] at hscore
  have hkey : ∀ i, i < ix.nlist → 0 ≤ keys.getD i 0 ∧ keys.getD i 0 < (ix.nlist : Int) := by
    intro i hi
    obtain ⟨key, hk, h0, h1⟩ := hreg.1 i hi
    have : keys.getD i 0 = key := by rw [List.getD_eq_getElem?_getD, hk]; rfl
    rw [this]
    exact ⟨h0, h1⟩
  have hinj : ∀ i j, i < ix.nlist → j < ix.nlist →
      (fun j => (keys.getD j 0).toNat) i = (fun j => (keys.getD j 0).toNat) j → i = j := by
    intro i j hi hj h
    apply hnodup i j hi hj
    have := hkey i hi
    have := hkey j hj
    beta_reduce at h
    omega
  have hlt : ∀ i, i < ix.nlist → (fun j => (keys.getD j 0).toNat) i < ix.nlist := by
    intro i hi
    have := hkey i hi
    beta_reduce
    omega
  have hmax := heap_after_max H hH ix keys heap0 hkm hne hlen hreg
  have hmono : ∀ j, j + 1 < ix.nlist →
      stb.nonconf.getD ((fun j => (keys.getD j 0).toNat) (j + 1)) 0
        ≤ stb.nonconf.getD ((fun j => (keys.getD j 0).toNat) j) 0 := by
    intro j hj
    beta_reduce
    rw [(hscore (j + 1) hj).1, (hscore j (by omega)).1]
    exact raw_score_fl_mono hfl _ _ _ hM ((hmax (j + 1) (by omega)).2.2 hj)
  -- the regularized score of the online search at probe j
  have hon : ∀ j, j < ix.nlist →
      reg_score_k_fl fl ix.nlist ix.MAX_DISTANCE cal_params j
          (heap_after H ix keys heap0 (j + 1)).1
        = fl (fl (fl (1 - stb.nonconf.getD ((fun j => (keys.getD j 0).toNat) j) 0)
            + compute_regularization_fl fl ((j : Int) + 1) cal_params.regLambda
                cal_params.kreg)
          / fl (fl (1 + fl (cal_params.regLambda
              * fl (((ix.nlist : Int) - cal_params.kreg : Int) : ℚ))) + 10)) := by
    intro j hj
    rw [reg_score_k_fl_eq fl ix.nlist ix.MAX_DISTANCE cal_params j _ hL hj hk1 hk2,
      min_fl_div_eq_ite hfl _ _ hM]
    beta_reduce
    rw [(hscore j hj).1]
  obtain ⟨r, hr, hle, hgt⟩ := exists_first_exceed ix.nlist
    (fun j => reg_score_k_fl fl ix.nlist ix.MAX_DISTANCE cal_params j
      (heap_after H ix keys heap0 (j + 1)).1) cal_params.lamhat
  -- the online search
  obtain ⟨sto, hso, hheap, -⟩ := search_query_early_fl fl H ix cal_params keys k distances
    labels nonconf1 all_preds1 r hreg hr
    (by
      intro j hj
      rw [hi]
      rintro ⟨-, hcon⟩
      exact absurd (hle j hj) (not_le.mpr hcon))
    (by
      intro hrl
      rw [hi]
      exact ⟨hlam1, hgt hrl⟩)
  rw [hi, hre] at hheap
  have hidx : sto.idxi = (H.heap_reorder ix.metric_inner_product
      (heap_after H ix keys heap0 r)).2 := by rw [← hheap]
  have hperm := (hH.2.2 ix.metric_inner_product (heap_after H ix keys heap0 r)
    (hmax r hr).2.1).2
  -- the offline replay
  have hreg2 := regularize_scores_fl_eq fl sortR (ix.nlist : Int) ix.nlist [stb.nonconf]
    cal_params.regLambda cal_params.kreg (by simpa using hslen) (by simp)
  simp only [List.map_cons, List.map_nil] at hreg2
  have hoff := offline_replay_fl hfl hsortR hsortP ix.nlist stb.nonconf stb.all_preds
    (fun j => (keys.getD j 0).toNat) cal_params.regLambda cal_params.kreg cal_params.lamhat
    hinj hlt hmono hreglam hk2 (htie _ hreg2) r hr
    (by
      intro j hj
      rw [← hon j (by omega)]
      exact hle j hj)
    (by
      intro hrl
      rw [← hon r hrl]
      exact hgt hrl)
  have hcp : ∀ E : List ℚ, compute_predictions sortP cal_params.lamhat [E] [stb.all_preds]
      = ([(compute_predictions_query sortP cal_params.lamhat E stb.all_preds).1],
          [(compute_predictions_query sortP cal_params.lamhat E stb.all_preds).2]) := by
    intro E
    simp [compute_predictions, List.range_succ]
  refine ⟨sto, r, _, hso, hr, hheap, hle, hgt, hreg2, ?_, ?_⟩
  · intro hr0
    rw [hcp, hoff, if_neg (by omega)]
    have hsnap := (hscore (r - 1) (by omega)).2
    rw [Nat.sub_add_cancel hr0] at hsnap
    beta_reduce
    rw [hsnap]
    exact ⟨rfl, by rw [hidx]; exact hperm.symm⟩
  · intro hr0
    rw [hcp, hoff, if_pos hr0]
    refine ⟨rfl, ?_⟩
    intro id hid
    rw [hidx] at hid
    have hz : heap_after H ix keys heap0 r = heap0 := by rw [hr0]; simp [heap_after]
    rw [hz] at hperm hid
    have := hperm.subset hid
    rw [h0id] at this
    exact List.eq_of_mem_replicate this

/-- The sample index in binary32 arithmetic: the two raw scores `1/4` and `1/2` and the two
regularized scores are distinct. -/
theorem offline_matches_online_witness :
    ∃ (sto : ProbeState) (r : Nat) (E : List ℚ),
      search_query_fl roundF32 listHeap sampleIndex
        { lamhat := 1 / 20, kreg := 1, regLambda := 0 } false [1, 0] 1 [0] [0] [] [] = .ok sto ∧
      r ≤ sampleIndex.nlist ∧
      (sto.simi, sto.idxi) = listHeap.heap_reorder sampleIndex.metric_inner_product
        (heap_after listHeap sampleIndex [1, 0]
          (listHeap.heap_heapify sampleIndex.metric_inner_product 1 ([0], [0])) r) ∧
      (∀ j, j < r → reg_score_k_fl roundF32 sampleIndex.nlist sampleIndex.MAX_DISTANCE
        { lamhat := 1 / 20, kreg := 1, regLambda := 0 } j
        (heap_after listHeap sampleIndex [1, 0]
          (listHeap.heap_heapify sampleIndex.metric_inner_product 1 ([0], [0])) (j + 1)).1
          ≤ 1 / 20) ∧
      (r < sampleIndex.nlist → 1 / 20 < reg_score_k_fl roundF32 sampleIndex.nlist
        sampleIndex.MAX_DISTANCE { lamhat := 1 / 20, kreg := 1, regLambda := 0 } r
        (heap_after listHeap sampleIndex [1, 0]
          (listHeap.heap_heapify sampleIndex.metric_inner_product 1 ([0], [0])) (r + 1)).1) ∧
      regularize_scores_fl roundF32 (insertionSortBy scoreLess) (sampleIndex.nlist : Int)
        [[1 / 4, 1 / 2]] 0 1 = some [E] ∧
      (0 < r →
        compute_predictions (insertionSortBy pairLess) (1 / 20) [E] [[[7], [8]]]
          = ([(heap_after listHeap sampleIndex [1, 0]
                (listHeap.heap_heapify sampleIndex.metric_inner_product 1 ([0], [0])) r).2],
              [(r : Int)]) ∧
        (heap_after listHeap sampleIndex [1, 0]
          (listHeap.heap_heapify sampleIndex.metric_inner_product 1 ([0], [0])) r).2.Perm
          sto.idxi) ∧
      (r = 0 →
        compute_predictions (insertionSortBy pairLess) (1 / 20) [E] [[[7], [8]]] = ([[]], [-1]) ∧
        ∀ id ∈ sto.idxi, id = -1) :=
  offline_matches_online isRounding_roundF32 insertionSortBy_scoreLess insertionSortBy_pairLess
    listHeap listHeap_isHeapLib sampleIndex { lamhat := 10, kreg := 0, regLambda := 0 }
    { lamhat := 1 / 20, kreg := 1, regLambda := 0 } [1, 0] 1 [0] [0] [0, 0] [[0], [0]] [] []
    { simi := [1], idxi := [7], prev_simi := [1], prev_idxi := [7], nscan := 2, nlistv := 2,
      nonconf := [1 / 4, 1 / 2], all_preds := [[7], [8]] }
    (by decide) rfl rfl (by decide!) fullProbes_sample
    (by
      intro i j hi hj h
      have hi2 : i < 2 := hi
      have hj2 : j < 2 := hj
      interval_cases i <;> interval_cases j <;> simp_all)
    rfl rfl (by decide) (by decide) (by decide) (by decide!) (by decide!)
    (by norm_num [FLT_MAX, sampleIndex])
    (except_eq_of_toOption _ _ (by decide!))
    (by
      intro E hE a b ha hb h
      have hval : regularize_scores_fl roundF32 (insertionSortBy scoreLess)
          (sampleIndex.nlist : Int) [[1 / 4, 1 / 2]] 0 1
          = some [[9151209 / 134217728, 3050403 / 67108864]] := by decide!
      have hEq : E = [9151209 / 134217728, 3050403 / 67108864] := by
        have h2 := hE.symm.trans hval
        simp only [Option.some.injEq, List.cons.injEq, and_true] at h2
        exact h2
      subst hEq
      have ha2 : a < 2 := ha
      have hb2 : b < 2 := hb
      interval_cases a <;> interval_cases b <;> simp_all <;> norm_num at h)

end IndexIVF
